import Mathlib

/-!
# pipes: path generation, bounds policy and the linked-list path buffer

A shallow embedding of `src/src/pipes.c` (growth step of `main`, `check_bounds`)
and `src/src/lib_llist.c` (the singly linked container), followed by the
properties proved about them.

Conventions of the embedding
* `int32_t` values are integers; every arithmetic result that the C code stores
  in an `int32_t` goes through `wrap32` (two's complement wrap-around).
* `rand()` is an input: each call site receives the value `rand()` returned,
  as a natural number.
* A pointer to a structure is an `Option`: `none` is `NULL`.  List nodes live in an
  explicit heap, so that `tail` can alias a node and dangle; payloads are values.
* A call returns in `Except fault_t`: an error is a call that does not return
  normally (a fault, or a caller blocked for ever).
* `calloc` always succeeds.  A callback (`lliter_f`) is a function on a state of
  the caller and does not touch the container.
-/

/-! ## Machine integers -/

/-- Two's complement reduction of an integer to the `int32_t` range. -/
def wrap32 (z : Int) : Int := (z + 2147483648) % 4294967296 - 2147483648

/-- The value fits in an `int32_t`. -/
def isInt32 (z : Int) : Prop := -2147483648 ≤ z ∧ z ≤ 2147483647

instance (z : Int) : Decidable (isInt32 z) := by unfold isInt32; infer_instance

/-! ## pipes.c: glyphs and vertices -/

/-- Glyph `━` (`#define HORIZ 0x2501`). -/
def HORIZ : Int := 0x2501
/-- Glyph `┃` (`#define VERTI 0x2503`). -/
def VERTI : Int := 0x2503
/-- Glyph `┏` (`#define TOPLEFT 0x250f`). -/
def TOPLEFT : Int := 0x250f
/-- Glyph `┓` (`#define TOPRIGHT 0x2513`). -/
def TOPRIGHT : Int := 0x2513
/-- Glyph `┗` (`#define BOTLEFT 0x2517`). -/
def BOTLEFT : Int := 0x2517
/-- Glyph `┛` (`#define BOTRIGHT 0x251b`). -/
def BOTRIGHT : Int := 0x251b

/-- The C constant `UINT16_MAX`. -/
def UINT16_MAX : Int := 65535

/-- The record `vertex_t`: glyph, position, and direction of the NEXT char. -/
structure vertex_t where
  c : Int
  x : Int
  y : Int
  dir_x : Int
  dir_y : Int
deriving DecidableEq

/-- One block `choices[0..3] = ...; curr->c = choices[rand() % 4]; if (curr->c == g1)
{...} else if (curr->c == g2) {...} else if (curr->c == g3) {...}` of `main`.
`d1`, `d2`, `d3` are the `(dir_x, dir_y)` pairs assigned in the three arms. -/
def main_roll (curr : vertex_t) (rnd : Nat) (c0 c1 c2 c3 : Int)
    (g1 : Int) (d1 : Int × Int) (g2 : Int) (d2 : Int × Int) (g3 : Int) (d3 : Int × Int) :
    vertex_t :=
  let c := [c0, c1, c2, c3].getD (rnd % 4) 0
  if c = g1 then { curr with c := c, dir_x := d1.1, dir_y := d1.2 }
  else if c = g2 then { curr with c := c, dir_x := d2.1, dir_y := d2.2 }
  else if c = g3 then { curr with c := c, dir_x := d3.1, dir_y := d3.2 }
  else { curr with c := c }

/-- The vertex `curr` of `main` before the roll (pipes.c lines 160-163): `calloc` zeroes
it, then `curr->x = prev->x + prev->dir_x` and `curr->y = prev->y + prev->dir_y`. -/
def main_curr (prev : vertex_t) : vertex_t :=
  { c := 0, x := wrap32 (prev.x + prev.dir_x), y := wrap32 (prev.y + prev.dir_y),
    dir_x := 0, dir_y := 0 }

/-- The growth step of `main` (pipes.c lines 160-464): the vertex `curr` built from
`prev` and the value `rnd` returned by `rand()`.  Every field the branches do not
assign keeps the `0` of `calloc`. -/
def main_step (prev : vertex_t) (rnd : Nat) : vertex_t :=
  let curr := main_curr prev
  if prev.c = HORIZ then
    if prev.dir_y = 0 ∧ prev.dir_x = -1 then
      main_roll curr rnd HORIZ HORIZ TOPLEFT BOTLEFT HORIZ (-1, 0) TOPLEFT (0, 1) BOTLEFT (0, -1)
    else if prev.dir_y = 0 ∧ prev.dir_x = 1 then
      main_roll curr rnd HORIZ HORIZ BOTRIGHT TOPRIGHT HORIZ (1, 0) BOTRIGHT (0, -1) TOPRIGHT (0, 1)
    else curr
  else if prev.c = VERTI then
    if prev.dir_y = -1 ∧ prev.dir_x = 0 then
      main_roll curr rnd VERTI VERTI TOPRIGHT TOPLEFT VERTI (0, -1) TOPRIGHT (-1, 0) TOPLEFT (1, 0)
    else if prev.dir_y = 1 ∧ prev.dir_x = 0 then
      main_roll curr rnd VERTI VERTI BOTRIGHT BOTLEFT VERTI (0, 1) BOTRIGHT (-1, 0) BOTLEFT (1, 0)
    else curr
  else if prev.c = TOPLEFT then
    if prev.dir_y = 0 ∧ prev.dir_x = 1 then
      main_roll curr rnd HORIZ HORIZ BOTRIGHT TOPRIGHT HORIZ (1, 0) BOTRIGHT (0, -1) TOPRIGHT (0, 1)
    else if prev.dir_y = 1 ∧ prev.dir_x = 0 then
      main_roll curr rnd VERTI VERTI BOTRIGHT BOTLEFT VERTI (0, 1) BOTRIGHT (-1, 0) BOTLEFT (1, 0)
    else curr
  else if prev.c = TOPRIGHT then
    if prev.dir_y = 0 ∧ prev.dir_x = -1 then
      main_roll curr rnd HORIZ HORIZ TOPLEFT BOTLEFT HORIZ (-1, 0) TOPLEFT (0, 1) BOTLEFT (0, -1)
    else if prev.dir_y = 1 ∧ prev.dir_x = 0 then
      main_roll curr rnd VERTI VERTI BOTRIGHT BOTLEFT VERTI (0, 1) BOTRIGHT (-1, 0) BOTLEFT (1, 0)
    else curr
  else if prev.c = BOTLEFT then
    if prev.dir_y = 0 ∧ prev.dir_x = 1 then
      main_roll curr rnd HORIZ HORIZ BOTRIGHT TOPRIGHT HORIZ (1, 0) BOTRIGHT (0, -1) TOPRIGHT (0, 1)
    else if prev.dir_y = -1 ∧ prev.dir_x = 0 then
      main_roll curr rnd VERTI VERTI TOPRIGHT TOPLEFT VERTI (0, -1) TOPRIGHT (-1, 0) TOPLEFT (1, 0)
    else curr
  else if prev.c = BOTRIGHT then
    if prev.dir_y = 0 ∧ prev.dir_x = -1 then
      main_roll curr rnd HORIZ HORIZ TOPLEFT BOTLEFT HORIZ (-1, 0) TOPLEFT (0, 1) BOTLEFT (0, -1)
    else if prev.dir_y = -1 ∧ prev.dir_x = 0 then
      main_roll curr rnd VERTI VERTI TOPRIGHT TOPLEFT VERTI (0, -1) TOPRIGHT (-1, 0) TOPLEFT (1, 0)
    else curr
  else curr

/-- The function `check_bounds` with the globals `g_WINSIZE_x`, `g_WINSIZE_y` as
parameters: `0` when the next position is inside the border, `-1` otherwise. -/
def check_bounds (vert : Option vertex_t) (g_WINSIZE_x g_WINSIZE_y : Int) : Int :=
  match vert with
  | none => -1
  | some v =>
    if wrap32 (v.x + v.dir_x) ≤ 1 ∨ wrap32 (v.x + v.dir_x) ≥ g_WINSIZE_x then -1
    else if wrap32 (v.y + v.dir_y) ≤ 1 ∨ wrap32 (v.y + v.dir_y) ≥ wrap32 (g_WINSIZE_y - 1) then -1
    else 0

/-- The twelve `(glyph, direction)` pairs for which the growth step of `main` has a
branch (the conditions of its `if`/`else if` chain, pipes.c lines 171-464). -/
def has_row (v : vertex_t) : Prop :=
  (v.c = HORIZ ∧ ((v.dir_y = 0 ∧ v.dir_x = -1) ∨ (v.dir_y = 0 ∧ v.dir_x = 1))) ∨
  (v.c = VERTI ∧ ((v.dir_y = -1 ∧ v.dir_x = 0) ∨ (v.dir_y = 1 ∧ v.dir_x = 0))) ∨
  (v.c = TOPLEFT ∧ ((v.dir_y = 0 ∧ v.dir_x = 1) ∨ (v.dir_y = 1 ∧ v.dir_x = 0))) ∨
  (v.c = TOPRIGHT ∧ ((v.dir_y = 0 ∧ v.dir_x = -1) ∨ (v.dir_y = 1 ∧ v.dir_x = 0))) ∨
  (v.c = BOTLEFT ∧ ((v.dir_y = 0 ∧ v.dir_x = 1) ∨ (v.dir_y = -1 ∧ v.dir_x = 0))) ∨
  (v.c = BOTRIGHT ∧ ((v.dir_y = 0 ∧ v.dir_x = -1) ∨ (v.dir_y = -1 ∧ v.dir_x = 0)))

instance (v : vertex_t) : Decidable (has_row v) := by unfold has_row; infer_instance

/-- Corner glyphs: `┏`, `┓`, `┗`, `┛`. -/
def is_corner (c : Int) : Prop := c = TOPLEFT ∨ c = TOPRIGHT ∨ c = BOTLEFT ∨ c = BOTRIGHT

instance (c : Int) : Decidable (is_corner c) := by unfold is_corner; infer_instance

/-- Straight glyphs: `━`, `┃`. -/
def is_straight (c : Int) : Prop := c = HORIZ ∨ c = VERTI

instance (c : Int) : Decidable (is_straight c) := by unfold is_straight; infer_instance

/-- The straight glyph of the axis of a direction: `━` for horizontal motion
(`dir_y = 0`), `┃` for vertical motion. -/
def straight_glyph (dir_y : Int) : Int := if dir_y = 0 then HORIZ else VERTI

/-- The new vertex continues straight: same direction as `prev`, glyph the straight
glyph of that axis, and the very glyph of `prev` when `prev` is straight. -/
def continues_straight (prev n : vertex_t) : Prop :=
  n.dir_x = prev.dir_x ∧ n.dir_y = prev.dir_y ∧ n.c = straight_glyph prev.dir_y ∧
    (is_straight prev.c → n.c = prev.c)

instance (prev n : vertex_t) : Decidable (continues_straight prev n) := by
  unfold continues_straight; infer_instance

/-- The new vertex is a corner glyph leaving in direction `(tx, ty)`. -/
def turns_to (n : vertex_t) (tx ty : Int) : Prop :=
  n.dir_x = tx ∧ n.dir_y = ty ∧ is_corner n.c

instance (n : vertex_t) (tx ty : Int) : Decidable (turns_to n tx ty) := by
  unfold turns_to; infer_instance

/-- The arms of a glyph as unit directions `(dx, dy)`, rows growing downward:
left `(-1,0)`, right `(1,0)`, up `(0,-1)`, down `(0,1)`. -/
def arms (c : Int) : List (Int × Int) :=
  if c = HORIZ then [(-1, 0), (1, 0)]
  else if c = VERTI then [(0, -1), (0, 1)]
  else if c = TOPLEFT then [(1, 0), (0, 1)]
  else if c = TOPRIGHT then [(-1, 0), (0, 1)]
  else if c = BOTLEFT then [(1, 0), (0, -1)]
  else if c = BOTRIGHT then [(-1, 0), (0, -1)]
  else []

/-- The direction of `n` is a quarter turn away from the direction of `prev`. -/
def quarter_turn (prev n : vertex_t) : Prop :=
  (n.dir_x = prev.dir_y ∧ n.dir_y = prev.dir_x) ∨ (n.dir_x = -prev.dir_y ∧ n.dir_y = -prev.dir_x)

/-! ## lib_llist.c: the node heap

Nodes live in a heap of cells addressed by natural numbers.  `calloc` always
succeeds and returns a fresh address (the next unused index); `free` turns the
cell into a hole, and reading through a pointer to a hole is a fault. -/

/-- Ways a call can fail to return normally: `null_deref`, a `NULL` pointer is
dereferenced; `use_after_free`, a pointer to a freed node is dereferenced; `deadlock`,
the caller blocks in `pthread_mutex_lock` on a mutex that is already held; `no_return`,
a loop did not finish within the number of cells of the heap. -/
inductive fault_t where
  | null_deref
  | use_after_free
  | deadlock
  | no_return
deriving DecidableEq

/-- The record `struct ll_node_t`: `next` is a node address or `NULL`, `data` the
payload pointer (`none` is `NULL`). -/
structure ll_node_t (α : Type) where
  next : Option Nat
  data : Option α
deriving DecidableEq

/-- The record `struct llist_t`; `lock` is the mutex, `true` while it is held. -/
structure llist_t where
  count : Int
  head : Option Nat
  tail : Option Nat
  lock : Bool
deriving DecidableEq

/-- The node heap: cell `a` holds the node at address `a`, `none` once it is freed. -/
abbrev heap_t (α : Type) := List (Option (ll_node_t α))

/-- The call `calloc(1, sizeof(*node))`: a fresh zeroed node; returns its address and the
extended heap. -/
def heap_calloc {α : Type} (h : heap_t α) : Nat × heap_t α :=
  (h.length, h ++ [some { next := none, data := none }])

/-- Read the node a pointer refers to. -/
def heap_load {α : Type} (h : heap_t α) (p : Option Nat) : Except fault_t (ll_node_t α) :=
  match p with
  | none => .error .null_deref
  | some a =>
    match h[a]? with
    | some (some n) => .ok n
    | _ => .error .use_after_free

/-- Overwrite the node a pointer refers to. -/
def heap_store {α : Type} (h : heap_t α) (p : Option Nat) (n : ll_node_t α) :
    Except fault_t (heap_t α) :=
  match p with
  | none => .error .null_deref
  | some a =>
    match h[a]? with
    | some (some _) => .ok (h.set a (some n))
    | _ => .error .use_after_free

/-- The call `free(node)` for a non-`NULL` node address. -/
def heap_free {α : Type} (h : heap_t α) (a : Nat) : heap_t α := h.set a none

/-- The call `pthread_mutex_lock(&llist->lock)`: blocks for ever when the mutex is held. -/
def pthread_mutex_lock (l : llist_t) : Except fault_t llist_t :=
  if l.lock then .error .deadlock else .ok { l with lock := true }

/-- The call `pthread_mutex_unlock(&llist->lock)`. -/
def pthread_mutex_unlock (l : llist_t) : llist_t := { l with lock := false }

/-! ## lib_llist.c: the container operations

Every operation takes the heap and the container the pointer `llist` refers to
(`none` for `NULL`) and returns the new heap, the new container and the C return
value. -/

/-- The function `ll_create`: `calloc` zeroes the structure, the mutex starts free. -/
def ll_create : Option llist_t :=
  some { count := 0, head := none, tail := none, lock := false }

/-- The function `ll_enq`. -/
def ll_enq {α : Type} (h : heap_t α) (llist : Option llist_t) (data : Option α) :
    Except fault_t (heap_t α × Option llist_t × Int) :=
  match llist, data with
  | some l, some d => do
    let (node, h) := heap_calloc h
    let h ← heap_store h (some node) { next := none, data := some d }
    let l ← pthread_mutex_lock l
    let (h, l) ←
      (match l.head with
        | none => pure (h, { l with head := some node })
        | some _ => do
          let t ← heap_load h l.tail
          let h ← heap_store h l.tail { t with next := some node }
          pure (h, l))
    let l := { l with tail := some node }
    let l := { l with count := wrap32 (l.count + 1) }
    let l := pthread_mutex_unlock l
    pure (h, some l, 0)
  | _, _ => pure (h, llist, -1)

/-- The function `ll_deq`.  On an empty list the code jumps to `LL_DEQ_RET` past the
unlock, so the mutex stays held. -/
def ll_deq {α : Type} (h : heap_t α) (llist : Option llist_t) :
    Except fault_t (heap_t α × Option llist_t × Option α) :=
  match llist with
  | none => pure (h, none, none)
  | some l => do
    let l ← pthread_mutex_lock l
    match l.head with
    | none => pure (h, some l, none)
    | some temp => do
      let n ← heap_load h (some temp)
      let data := n.data
      let l := { l with head := n.next }
      let h := heap_free h temp
      let l := { l with count := wrap32 (l.count - 1) }
      let l := pthread_mutex_unlock l
      pure (h, some l, data)

/-- The function `ll_push`. -/
def ll_push {α : Type} (h : heap_t α) (llist : Option llist_t) (data : Option α) :
    Except fault_t (heap_t α × Option llist_t × Int) :=
  match llist, data with
  | some l, some d => do
    let (node, h) := heap_calloc h
    let h ← heap_store h (some node) { next := none, data := some d }
    let l ← pthread_mutex_lock l
    let n ← heap_load h (some node)
    let h ← heap_store h (some node) { n with next := l.head }
    let l := { l with head := some node }
    let hd ← heap_load h l.head
    let l := if hd.next = none then { l with tail := l.head } else l
    let l := { l with count := wrap32 (l.count + 1) }
    let l := pthread_mutex_unlock l
    pure (h, some l, 0)
  | _, _ => pure (h, llist, -1)

/-- The function `ll_pop`. -/
def ll_pop {α : Type} (h : heap_t α) (llist : Option llist_t) :
    Except fault_t (heap_t α × Option llist_t × Option α) :=
  ll_deq h llist

/-- The `for (int idx = 0; idx < num_delete; idx++)` loop of `ll_delete`, entered
with `idx` and the running `ret_val`.  The first argument bounds the number of
iterations; every iteration frees a live node, so the number of heap cells plus one
is never exhausted. -/
def ll_delete_loop {α σ : Type} (freenode : α → σ → σ) (num_delete : Int) :
    Nat → Int → heap_t α → llist_t → Int → σ → Except fault_t (heap_t α × llist_t × Int × σ)
  | 0, _, _, _, _, _ => .error .no_return
  | fuel + 1, idx, h, l, ret_val, s =>
    if idx < num_delete then do
      let n ← heap_load h l.head
      let temp_data := n.data
      let temp := l.head
      let l := { l with head := n.next }
      let h := (match temp with
        | some a => heap_free h a
        | none => h)
      let l := { l with count := wrap32 (l.count - 1) }
      match temp_data with
      | some d =>
        ll_delete_loop freenode num_delete fuel (wrap32 (idx + 1)) h l (wrap32 (ret_val + 1))
          (freenode d s)
      | none => ll_delete_loop freenode num_delete fuel (wrap32 (idx + 1)) h l ret_val s
    else .ok (h, l, ret_val, s)

/-- The function `ll_delete`.  The callback `freenode` acts on a caller state `σ`
(`none` is a `NULL` function pointer). -/
def ll_delete {α σ : Type} (h : heap_t α) (llist : Option llist_t) (num_delete : Int)
    (freenode : Option (α → σ → σ)) (s : σ) :
    Except fault_t (heap_t α × Option llist_t × Int × σ) :=
  match llist, freenode with
  | some l, some f =>
    if 0 ≥ num_delete then pure (h, llist, -1, s)
    else do
      let l ← pthread_mutex_lock l
      match l.head with
      | none =>
        let l := { l with tail := l.head }
        pure (h, some (pthread_mutex_unlock l), 0, s)
      | some _ => do
        let (h, l, ret_val, s) ← ll_delete_loop f num_delete (h.length + 1) 0 h l 0 s
        pure (h, some (pthread_mutex_unlock l), ret_val, s)
  | _, _ => pure (h, llist, -1, s)

/-- The function `ll_len`. -/
def ll_len (llist : Option llist_t) : Int :=
  match llist with
  | none => -1
  | some l => l.count

/-- The function `ll_head`. -/
def ll_head {α : Type} (h : heap_t α) (llist : Option llist_t) : Except fault_t (Option α) :=
  match llist with
  | none => pure none
  | some l =>
    match l.head with
    | none => pure none
    | some a => do
      let n ← heap_load h (some a)
      pure n.data

/-- The function `ll_tail`. -/
def ll_tail {α : Type} (h : heap_t α) (llist : Option llist_t) : Except fault_t (Option α) :=
  match llist with
  | none => pure none
  | some l =>
    match l.tail with
    | none => pure none
    | some a => do
      let n ← heap_load h (some a)
      pure n.data

/-! ## lib_llist.c: what a container holds -/

/-- Payloads met when following `next` from `p` to `NULL`, visiting at most the given
number of nodes. -/
def heap_walk {α : Type} (h : heap_t α) : Nat → Option Nat → Except fault_t (List (Option α))
  | _, none => .ok []
  | 0, some _ => .error .no_return
  | fuel + 1, some a => do
    let n ← heap_load h (some a)
    let rest ← heap_walk h fuel n.next
    pure (n.data :: rest)

/-- The payloads reachable from `head`, head first. -/
def ll_payloads {α : Type} (h : heap_t α) (l : llist_t) : Except fault_t (List (Option α)) :=
  heap_walk h h.length l.head

/-- The nodes `ns` (address and payload) are linked in this order from `p` to `NULL`. -/
def heap_seg {α : Type} (h : heap_t α) : Option Nat → List (Nat × α) → Prop
  | p, [] => p = none
  | p, (a, x) :: rest =>
    p = some a ∧ ∃ nxt, h[a]? = some (some { next := nxt, data := some x }) ∧ heap_seg h nxt rest

/-- The container `l` is well formed and holds exactly the nodes `ns`, head first: they
are linked from `head`, `tail` is the last of them when there is one, their addresses
are distinct, `count` is their number as an `int32_t`, and the mutex is free. -/
def ll_repr {α : Type} (h : heap_t α) (l : llist_t) (ns : List (Nat × α)) : Prop :=
  heap_seg h l.head ns ∧ (ns ≠ [] → l.tail = (ns.getLast?).map Prod.fst) ∧
    (ns.map Prod.fst).Nodup ∧ l.count = wrap32 ns.length ∧ l.lock = false

/-! ## lib_llist.c: sequences of calls -/

/-- Call `ll_enq` on each item in turn; the return values are collected. -/
def ll_enq_all {α : Type} (h : heap_t α) (llist : Option llist_t) :
    List (Option α) → Except fault_t (heap_t α × Option llist_t × List Int)
  | [] => .ok (h, llist, [])
  | d :: ds => do
    let (h, llist, r) ← ll_enq h llist d
    let (h, llist, rs) ← ll_enq_all h llist ds
    pure (h, llist, r :: rs)

/-- Call `ll_push` on each item in turn; the return values are collected. -/
def ll_push_all {α : Type} (h : heap_t α) (llist : Option llist_t) :
    List (Option α) → Except fault_t (heap_t α × Option llist_t × List Int)
  | [] => .ok (h, llist, [])
  | d :: ds => do
    let (h, llist, r) ← ll_push h llist d
    let (h, llist, rs) ← ll_push_all h llist ds
    pure (h, llist, r :: rs)

/-- Call `ll_deq` the given number of times; the returned payloads are collected. -/
def ll_deq_n {α : Type} (h : heap_t α) (llist : Option llist_t) :
    Nat → Except fault_t (heap_t α × Option llist_t × List (Option α))
  | 0 => .ok (h, llist, [])
  | n + 1 => do
    let (h, llist, x) ← ll_deq h llist
    let (h, llist, xs) ← ll_deq_n h llist n
    pure (h, llist, x :: xs)

/-- Call `ll_pop` the given number of times; the returned payloads are collected. -/
def ll_pop_n {α : Type} (h : heap_t α) (llist : Option llist_t) :
    Nat → Except fault_t (heap_t α × Option llist_t × List (Option α))
  | 0 => .ok (h, llist, [])
  | n + 1 => do
    let (h, llist, x) ← ll_pop h llist
    let (h, llist, xs) ← ll_pop_n h llist n
    pure (h, llist, x :: xs)

/-- A call that inserts a present item or removes the head. -/
inductive ll_op (α : Type) where
  | enq (d : α)
  | push (d : α)
  | deq

/-- Run a sequence of insert and remove calls on a container. -/
def ll_run {α : Type} (h : heap_t α) (llist : Option llist_t) :
    List (ll_op α) → Except fault_t (heap_t α × Option llist_t)
  | [] => .ok (h, llist)
  | ll_op.enq d :: ops => do
    let (h, llist, _) ← ll_enq h llist (some d)
    ll_run h llist ops
  | ll_op.push d :: ops => do
    let (h, llist, _) ← ll_push h llist (some d)
    ll_run h llist ops
  | ll_op.deq :: ops => do
    let (h, llist, _) ← ll_deq h llist
    ll_run h llist ops

/-- The number of insert calls (`ll_enq` or `ll_push`) of a sequence. -/
def ll_inserts {α : Type} : List (ll_op α) → Nat
  | [] => 0
  | ll_op.deq :: ops => ll_inserts ops
  | _ :: ops => ll_inserts ops + 1

/-- The number of `ll_deq` calls of a sequence. -/
def ll_removes {α : Type} : List (ll_op α) → Nat
  | [] => 0
  | ll_op.deq :: ops => ll_removes ops + 1
  | _ :: ops => ll_removes ops

/-- Every `ll_deq` call of the sequence finds an element, when the container holds `k`
elements before the sequence starts. -/
def ll_deq_nonempty {α : Type} : Nat → List (ll_op α) → Prop
  | _, [] => True
  | k, ll_op.deq :: ops => 0 < k ∧ ll_deq_nonempty (k - 1) ops
  | k, _ :: ops => ll_deq_nonempty (k + 1) ops

/-! ## pipes.c: the driver

One cycle of the `while (gb_SIGINT_BOOL)` loop of `main`: seeding, then the growth
loop.  What the loop reads from outside (the interrupt flag, `rand()`, the terminal
size last stored by `sigwinch_h`) is given per iteration. -/

/-- The assignments `g_WINSIZE_x = ws.ws_col; g_WINSIZE_y = ws.ws_row` of `sigwinch_h`:
both fields are `unsigned short`. -/
def sigwinch_h (ws_col ws_row : Nat) : Int × Int :=
  (((ws_col % 65536 : Nat) : Int), ((ws_row % 65536 : Nat) : Int))

/-- What one iteration of the growth loop reads from outside: the flag
`gb_SIGINT_BOOL` at the top of the iteration, the value of `rand()`, and the terminal
size held by `g_WINSIZE_x`, `g_WINSIZE_y` when `check_bounds` runs. -/
structure tick_t where
  gb_SIGINT_BOOL : Int
  rnd : Nat
  ws_col : Nat
  ws_row : Nat

/-- The locals of `main` during a cycle: the node heap, `path`, `idx`, `prev`, and the
calls `print_char_c(vertex, idx)` made so far (in monochrome mode `print_char_w` gets
the same vertices). -/
structure main_t where
  heap : heap_t vertex_t
  path : Option llist_t
  idx : Int
  prev : Option vertex_t
  shown : List (vertex_t × Int)

/-- The start vertex of a cycle (pipes.c lines 128-134): a `━` at the middle of the
terminal, going left or right by the coin flip `rand() % 20 < 10`. -/
def main_start (g_WINSIZE_x g_WINSIZE_y : Int) (rnd : Nat) : vertex_t :=
  { c := HORIZ, x := Int.tdiv g_WINSIZE_x 2, y := Int.tdiv g_WINSIZE_y 2, dir_y := 0,
    dir_x := if rnd % 20 < 10 then -1 else 1 }

/-- Seeding (pipes.c lines 126-145): `sigwinch_h(0)` stores the terminal size, the start
vertex is built, enqueued and printed, and `prev = ll_tail(path)`.  `rnd` is the value of
`rand()` in the coin flip. -/
def main_seed (h : heap_t vertex_t) (path : Option llist_t) (idx : Int)
    (ws_col ws_row rnd : Nat) : Except fault_t main_t := do
  let g_WINSIZE := sigwinch_h ws_col ws_row
  let start := main_start g_WINSIZE.1 g_WINSIZE.2 rnd
  let (h, path, _) ← ll_enq h path (some start)
  let shown := [(start, idx)]
  let prev ← ll_tail h path
  pure { heap := h, path := path, idx := idx, prev := prev, shown := shown }

/-- The growth loop `for (; idx < UINT16_MAX * 2; idx += 2)` (pipes.c lines 152-489), one
list element per iteration.  The result is the state when the loop has left (by its
condition or a `break`) or when the given iterations are used up. -/
def main_growth : List tick_t → main_t → Except fault_t main_t
  | [], s => .ok s
  | t :: ts, s =>
    if s.idx < UINT16_MAX * 2 then
      if t.gb_SIGINT_BOOL = 0 then .ok s
      else
        match s.prev with
        | none => .error .null_deref
        | some prev => do
          let curr := main_step prev t.rnd
          let (h, path, _) ← ll_enq s.heap s.path (some curr)
          let s := { s with heap := h, path := path, shown := s.shown ++ [(curr, s.idx)] }
          let g_WINSIZE := sigwinch_h t.ws_col t.ws_row
          if 0 ≠ check_bounds (some curr) g_WINSIZE.1 g_WINSIZE.2 then .ok s
          else main_growth ts { s with prev := some curr, idx := s.idx + 2 }
    else .ok s

/-- One cycle of `main` on the container `ll_create()` returned: seeding, then growth. -/
def main_cycle (h : heap_t vertex_t) (idx : Int) (ws_col ws_row rnd : Nat)
    (ticks : List tick_t) : Except fault_t main_t := do
  let s ← main_seed h ll_create idx ws_col ws_row rnd
  main_growth ticks s

/-- The payloads of the path of a driver state. -/
def main_path (s : main_t) : Except fault_t (List (Option vertex_t)) :=
  match s.path with
  | none => .ok []
  | some l => ll_payloads s.heap l

/-- Grid adjacency of two consecutive path vertices. -/
def adjacent (prev next : vertex_t) : Prop :=
  next.x = prev.x + prev.dir_x ∧ next.y = prev.y + prev.dir_y

instance (prev next : vertex_t) : Decidable (adjacent prev next) := by
  unfold adjacent; infer_instance

/-! ## pipes.c: invariants of the driver -/

/-- A direction component is `-1`, `0` or `1`. -/
def dir3 (z : Int) : Prop := z = -1 ∨ z = 0 ∨ z = 1

/-- The position invariant of `prev` in the growth loop: moving it by its direction does
not overflow. -/
def prev_ok (v : vertex_t) : Prop :=
  isInt32 (v.x + v.dir_x) ∧ isInt32 (v.y + v.dir_y)

/-- How consecutive vertices of a path are related: `n` is the vertex the growth step
builds from `p`, and `p` is a state with a transition row whose move does not
overflow. -/
def grown (p n : vertex_t) : Prop :=
  prev_ok p ∧ has_row p ∧ ∃ rnd : Nat, n = main_step p rnd

/-- What holds of the driver state during a cycle: the path is a well-formed container
holding the nodes `ns`, its payloads are the vertices printed so far in the same order,
and each payload is grown from the one before it. -/
def main_inv (s : main_t) (ns : List (Nat × vertex_t)) : Prop :=
  (∃ l, s.path = some l ∧ ll_repr s.heap l ns) ∧
  ns.map Prod.snd = s.shown.map Prod.fst ∧
  List.Chain' grown (ns.map Prod.snd)

/-! ## lib_llist.c: search, drain and iteration -/

/-- The `while (node)` loop of `ll_search`, entered with `node`: the first payload the
comparator maps to `0`, or `NULL` at the end of the list.  The first argument bounds
the number of nodes visited. -/
def ll_search_loop {α κ : Type} (cmpnode : Option α → κ → Int) (key : κ) (h : heap_t α) :
    Nat → Option Nat → Except fault_t (Option α)
  | _, none => .ok none
  | 0, some _ => .error .no_return
  | fuel + 1, some a => do
    let n ← heap_load h (some a)
    if 0 = cmpnode n.data key then .ok n.data
    else ll_search_loop cmpnode key h fuel n.next

/-- The function `ll_search`.  The comparator `cmpnode` gets the payload pointer of a
node and the key (`none` is a `NULL` key or a `NULL` function pointer). -/
def ll_search {α κ : Type} (h : heap_t α) (llist : Option llist_t) (key : Option κ)
    (cmpnode : Option (Option α → κ → Int)) : Except fault_t (Option llist_t × Option α) :=
  match llist, key, cmpnode with
  | some l, some k, some cmp => do
    let l ← pthread_mutex_lock l
    let ret_ptr ← ll_search_loop cmp k h h.length l.head
    pure (some (pthread_mutex_unlock l), ret_ptr)
  | _, _, _ => pure (llist, none)

/-- The `while (head)` loop of `ll_dump`, entered with the local `head` and the running
`ret_val`.  The first argument bounds the number of nodes visited. -/
def ll_dump_loop {α σ : Type} (freenode : α → σ → σ) :
    Nat → Option Nat → heap_t α → llist_t → Int → σ →
      Except fault_t (heap_t α × llist_t × Int × σ)
  | _, none, h, l, ret_val, s => .ok (h, l, ret_val, s)
  | 0, some _, _, _, _, _ => .error .no_return
  | fuel + 1, some temp, h, l, ret_val, s => do
    let n ← heap_load h (some temp)
    let head := n.next
    let s := (match n.data with
      | some d => freenode d s
      | none => s)
    let ret_val := wrap32 (ret_val + 1)
    let h := heap_free h temp
    let l := { l with count := wrap32 (l.count - 1) }
    ll_dump_loop freenode fuel head h l ret_val s

/-- The function `ll_dump`. -/
def ll_dump {α σ : Type} (h : heap_t α) (llist : Option llist_t)
    (freenode : Option (α → σ → σ)) (s : σ) :
    Except fault_t (heap_t α × Option llist_t × Int × σ) :=
  match llist, freenode with
  | some l, some f => do
    let l ← pthread_mutex_lock l
    let (h, l, ret_val, s) ← ll_dump_loop f h.length l.head h l 0 s
    let l := { l with head := none }
    let l := { l with tail := none }
    pure (h, some (pthread_mutex_unlock l), ret_val, s)
  | _, _ => pure (h, llist, -1, s)

/-- The `while (curr)` loop of `ll_iter`, entered with `curr` and the running `ret_val`.
The first argument bounds the number of nodes visited. -/
def ll_iter_loop {α σ : Type} (iter : α → σ → σ) (h : heap_t α) :
    Nat → Option Nat → Int → σ → Except fault_t (Int × σ)
  | _, none, ret_val, s => .ok (ret_val, s)
  | 0, some _, _, _ => .error .no_return
  | fuel + 1, some curr, ret_val, s => do
    let n ← heap_load h (some curr)
    match n.data with
    | some d => ll_iter_loop iter h fuel n.next (wrap32 (ret_val + 1)) (iter d s)
    | none => ll_iter_loop iter h fuel n.next ret_val s

/-- The function `ll_iter`.  An empty list is refused before the mutex is taken, with
the failure value `-1`. -/
def ll_iter {α σ : Type} (h : heap_t α) (llist : Option llist_t)
    (iter : Option (α → σ → σ)) (s : σ) : Except fault_t (Option llist_t × Int × σ) :=
  match llist, iter with
  | some l, some f =>
    match l.head with
    | none => pure (some l, -1, s)
    | some _ => do
      let l ← pthread_mutex_lock l
      let (ret_val, s) ← ll_iter_loop f h h.length l.head 0 s
      pure (some (pthread_mutex_unlock l), ret_val, s)
  | _, _ => pure (llist, -1, s)

/-- The function `ll_iter_start`: the cursor is a fresh node whose `next` is the head of
the list; `NULL` for a `NULL` or empty list. -/
def ll_iter_start {α : Type} (h : heap_t α) (llist : Option llist_t) :
    Except fault_t (heap_t α × Option Nat) :=
  match llist with
  | none => pure (h, none)
  | some l =>
    match l.head with
    | none => pure (h, none)
    | some _ => do
      let (node, h) := heap_calloc h
      let n ← heap_load h (some node)
      let h ← heap_store h (some node) { n with next := l.head }
      pure (h, some node)

/-- The function `ll_iter_next`: returns the payload of the node the cursor points at
and advances the cursor. -/
def ll_iter_next {α : Type} (h : heap_t α) (node : Option Nat) :
    Except fault_t (heap_t α × Option α) :=
  match node with
  | none => pure (h, none)
  | some c => do
    let cur ← heap_load h (some c)
    match cur.next with
    | none => pure (h, none)
    | some a => do
      let n ← heap_load h (some a)
      let data := n.data
      let h ← heap_store h (some c) { cur with next := n.next }
      pure (h, data)

/-- The `while (temp)` loop of `ll_iter_size`, entered with `temp` and the running
`iter_sz`.  The first argument bounds the number of nodes visited. -/
def ll_iter_size_loop {α : Type} (h : heap_t α) : Nat → Option Nat → Int → Except fault_t Int
  | _, none, iter_sz => .ok iter_sz
  | 0, some _, _ => .error .no_return
  | fuel + 1, some temp, iter_sz => do
    let n ← heap_load h (some temp)
    ll_iter_size_loop h fuel n.next (wrap32 (iter_sz + 1))

/-- The function `ll_iter_size`. -/
def ll_iter_size {α : Type} (h : heap_t α) (node : Option Nat) : Except fault_t Int :=
  match node with
  | none => pure (-1)
  | some c => do
    let cur ← heap_load h (some c)
    ll_iter_size_loop h h.length cur.next 0

/-- Call `ll_iter_next` the given number of times on a cursor; the returned payloads are
collected. -/
def ll_iter_next_n {α : Type} (h : heap_t α) (node : Option Nat) :
    Nat → Except fault_t (heap_t α × List (Option α))
  | 0 => .ok (h, [])
  | k + 1 => do
    let (h, x) ← ll_iter_next h node
    let (h, xs) ← ll_iter_next_n h node k
    pure (h, x :: xs)

/-! ## pipes.c: the colour of a vertex -/

/-- The C constant `MAX_COLOR_STEPS`. -/
def MAX_COLOR_STEPS : Int := 128 + 128 + 256 + 256 + 256

/-- The values `(red, grn, blu)` computed by `print_char_c` for the index `idx`
(pipes.c lines 654-697); `%` is the remainder of C, which truncates. -/
def print_char_c_rgb (idx : Int) : Int × Int × Int :=
  if Int.tmod idx MAX_COLOR_STEPS < 256 then (255, 0 + Int.tmod idx 256, 0)
  else if Int.tmod idx MAX_COLOR_STEPS < 512 then (255 - Int.tmod idx 256, 255, 0)
  else if Int.tmod idx MAX_COLOR_STEPS < 768 then (0, 255 - Int.tmod idx 256, 0 + Int.tmod idx 256)
  else if Int.tmod idx MAX_COLOR_STEPS < 1025 then
    (0 + Int.tmod idx 256, 0, 255 - Int.tmod idx 256)
  else (255, 255, 255)

/-! ## lib_llist.c: a sample container -/

/-- The node heap after `10` and `20` were enqueued into a fresh container on an empty
heap. -/
def ll_demo_heap : heap_t Nat :=
  [some { next := some 1, data := some 10 }, some { next := none, data := some 20 }]

/-- The container after `10` and `20` were enqueued into a fresh container on an empty
heap. -/
def ll_demo : llist_t := { count := 2, head := some 0, tail := some 1, lock := false }

/-! ## lib_llist.c: destroying a container -/

/-- The `while (head)` loop of `ll_destroy`, entered with the local `head`: every node is
freed after `freenode(temp->data)`.  The first argument bounds the number of nodes
visited.  A `NULL` payload is handed to `freenode` as it is; this is modelled as no
effect on the caller state (`free(NULL)` does nothing). -/
def ll_destroy_loop {α σ : Type} (freenode : α → σ → σ) :
    Nat → Option Nat → heap_t α → σ → Except fault_t (heap_t α × σ)
  | _, none, h, s => .ok (h, s)
  | 0, some _, _, _ => .error .no_return
  | fuel + 1, some temp, h, s => do
    let n ← heap_load h (some temp)
    let head := n.next
    let s := (match n.data with
      | some d => freenode d s
      | none => s)
    let h := heap_free h temp
    ll_destroy_loop freenode fuel head h s

/-- The function `ll_destroy`, called with `&llist` for the given `llist`: returns the
heap and the new value of `llist`, which is `NULL` once the container is destroyed. -/
def ll_destroy {α σ : Type} (h : heap_t α) (llist : Option llist_t)
    (freenode : Option (α → σ → σ)) (s : σ) :
    Except fault_t (heap_t α × Option llist_t × σ) :=
  match llist, freenode with
  | some l, some f => do
    let l ← pthread_mutex_lock l
    let (h, s) ← ll_destroy_loop f h.length l.head h s
    pure (h, none, s)
  | _, _ => pure (h, llist, s)

/-! ## pipes.c: what the growth loop emits -/

/-- The vertices the growth loop appends and prints, each with the index it is printed
with, when the loop is entered with `idx` and `prev`: the same recursion as
`main_growth` without the container. -/
def main_trace : List tick_t → Int → vertex_t → List (vertex_t × Int)
  | [], _, _ => []
  | t :: ts, idx, prev =>
    if idx < UINT16_MAX * 2 then
      if t.gb_SIGINT_BOOL = 0 then []
      else
        if 0 ≠ check_bounds (some (main_step prev t.rnd)) (sigwinch_h t.ws_col t.ws_row).1
            (sigwinch_h t.ws_col t.ws_row).2 then [(main_step prev t.rnd, idx)]
        else (main_step prev t.rnd, idx) :: main_trace ts (idx + 2) (main_step prev t.rnd)
    else []

/-- The value of `idx` when the growth loop, entered with `idx` and `prev`, has left or
has used up the given iterations. -/
def main_end_idx : List tick_t → Int → vertex_t → Int
  | [], idx, _ => idx
  | t :: ts, idx, prev =>
    if idx < UINT16_MAX * 2 then
      if t.gb_SIGINT_BOOL = 0 then idx
      else
        if 0 ≠ check_bounds (some (main_step prev t.rnd)) (sigwinch_h t.ws_col t.ws_row).1
            (sigwinch_h t.ws_col t.ws_row).2 then idx
        else main_end_idx ts (idx + 2) (main_step prev t.rnd)
    else idx

/-- The number of times the body of the growth loop is entered (its condition
`idx < UINT16_MAX * 2` held) when the loop starts with `idx` and `prev`: an iteration
either leaves at the interrupt test, or appends a vertex and leaves at the bounds test, or
appends a vertex and goes on with `idx + 2`. -/
def main_iters : List tick_t → Int → vertex_t → Nat
  | [], _, _ => 0
  | t :: ts, idx, prev =>
    if idx < UINT16_MAX * 2 then
      if t.gb_SIGINT_BOOL = 0 then 1
      else
        if 0 ≠ check_bounds (some (main_step prev t.rnd)) (sigwinch_h t.ws_col t.ws_row).1
            (sigwinch_h t.ws_col t.ws_row).2 then 1
        else 1 + main_iters ts (idx + 2) (main_step prev t.rnd)
    else 0

/-! ## pipes.c: the cycles of `main`

The loop `while (gb_SIGINT_BOOL)` of `main`.  A cycle is given what it reads from
outside; its list of iterations is the one its growth loop performs.  The handler
`sigint_h` is the only writer of `gb_SIGINT_BOOL` and writes `0`, so once the flag is
read as `0` the loop is left. -/

/-- What one cycle reads from outside: the flag at the test of `while`, the terminal
size stored by `sigwinch_h(0)`, the value of `rand()` in the coin flip, the iterations
of the growth loop, and the flag at the `if (gb_SIGINT_BOOL)` after the growth loop. -/
structure cycle_t where
  gb_SIGINT_BOOL : Int
  ws_col : Nat
  ws_row : Nat
  rnd : Nat
  ticks : List tick_t
  gb_SIGINT_BOOL_end : Int

/-- The locals of `main` between cycles (node heap, `path`, `idx`), with two records of
what happened so far: all print calls in order, and for each cycle the value of `idx` at
its start with the payloads of `path` at the end of its growth loop. -/
structure run_t where
  heap : heap_t vertex_t
  path : Option llist_t
  idx : Int
  shown : List (vertex_t × Int)
  paths : List (Int × List (Option vertex_t))

/-- The cycles of `main` (pipes.c lines 120-498): seeding, growth loop, and, when no
interrupt was seen, `ll_destroy(&path, free)` and `path = ll_create()`. -/
def main_while : List cycle_t → run_t → Except fault_t run_t
  | [], r => .ok r
  | c :: cs, r =>
    if c.gb_SIGINT_BOOL = 0 then .ok r
    else do
      let s ← main_seed r.heap r.path r.idx c.ws_col c.ws_row c.rnd
      let s ← main_growth c.ticks s
      let p ← main_path s
      let r : run_t :=
        { heap := s.heap, path := s.path, idx := s.idx, shown := r.shown ++ s.shown,
          paths := r.paths ++ [(r.idx, p)] }
      if c.gb_SIGINT_BOOL_end = 0 then .ok r
      else do
        let (h, _, _) ← ll_destroy r.heap r.path (some (fun (_ : vertex_t) (u : Unit) => u)) ()
        main_while cs { r with heap := h, path := ll_create }

/-- The state of `main` when the loop `while (gb_SIGINT_BOOL)` is reached: `path` is the
container `ll_create()` returned and `idx` is `rand() % UINT16_MAX`. -/
def main_init (h : heap_t vertex_t) (rnd : Nat) : run_t :=
  { heap := h, path := ll_create, idx := ((rnd % 65535 : Nat) : Int), shown := [], paths := [] }

/-- A vertex lies inside the border of a `width x height` terminal. -/
def inside (width height : Int) (v : vertex_t) : Prop :=
  1 < v.x ∧ v.x < width ∧ 1 < v.y ∧ v.y < height - 1

/-- A direction along one axis: exactly one of `dir_x`, `dir_y` is non-zero, and it is `-1`
or `1`. -/
def unit_dir (v : vertex_t) : Prop :=
  (v.dir_y = 0 ∧ (v.dir_x = -1 ∨ v.dir_x = 1)) ∨ (v.dir_x = 0 ∧ (v.dir_y = -1 ∨ v.dir_y = 1))

instance (v : vertex_t) : Decidable (unit_dir v) := by unfold unit_dir; infer_instance

/-- Two consecutive print calls: the index stays or grows by `2`. -/
def idx_step (a b : vertex_t × Int) : Prop := b.2 = a.2 ∨ b.2 = a.2 + 2

instance (a b : vertex_t × Int) : Decidable (idx_step a b) := by unfold idx_step; infer_instance

instance (width height : Int) (v : vertex_t) : Decidable (inside width height v) := by
  unfold inside; infer_instance

/-! ## pipes.c: the table keyed on the direction -/

/-- Modelled from the claim that the table of `main` is a four-row table keyed on the
direction alone: glyph and new direction for a vertex entered moving `(dir_x, dir_y)`
and the roll `r = rand() % 4`.  Rolls `0` and `1` continue straight; rolls `2` and `3`
turn.  Outside the four unit directions the zero glyph and direction are given. -/
def direction_table (dir_x dir_y : Int) (r : Nat) : Int × Int × Int :=
  if dir_x = -1 ∧ dir_y = 0 then
    (if r = 2 then (TOPLEFT, 0, 1) else if r = 3 then (BOTLEFT, 0, -1) else (HORIZ, -1, 0))
  else if dir_x = 1 ∧ dir_y = 0 then
    (if r = 2 then (BOTRIGHT, 0, -1) else if r = 3 then (TOPRIGHT, 0, 1) else (HORIZ, 1, 0))
  else if dir_x = 0 ∧ dir_y = -1 then
    (if r = 2 then (TOPRIGHT, -1, 0) else if r = 3 then (TOPLEFT, 1, 0) else (VERTI, 0, -1))
  else if dir_x = 0 ∧ dir_y = 1 then
    (if r = 2 then (BOTRIGHT, -1, 0) else if r = 3 then (BOTLEFT, 1, 0) else (VERTI, 0, 1))
  else (0, 0, 0)

/-- What holds of the records of a run between two cycles: consecutive print calls differ by
`0` or `2` in their index and `idx` is the index of the last one or `2` more; the cycles
started with non-decreasing values of `idx`, none above the current one; the path of a
cycle started with `idx = i` has at most `1 + ceil((131070 - i) / 2)` vertices, and is a
start vertex alone when `131070 <= i`. -/
def run_inv (r : run_t) : Prop :=
  List.Chain' idx_step r.shown ∧
  (∀ e, r.shown.getLast? = some e → r.idx = e.2 ∨ r.idx = e.2 + 2) ∧
  List.Chain' (fun a b : Int × List (Option vertex_t) => a.1 ≤ b.1) r.paths ∧
  (∀ c ∈ r.paths, c.1 ≤ r.idx ∧ c.2.length ≤ 1 + ((131070 - c.1 + 1) / 2).toNat ∧
    (131070 ≤ c.1 → ∃ ws_col ws_row rnd : Nat,
      c.2 = [some (main_start (sigwinch_h ws_col ws_row).1 (sigwinch_h ws_col ws_row).2 rnd)]))

/-! ## lib_llist.c: the container against a list -/

/-- A call on the container: `ll_enq` or `ll_push` of a present item, `ll_deq`, `ll_dump`,
or `ll_delete` of `n` nodes. -/
inductive ll_call (α : Type) where
  | enq (d : α)
  | push (d : α)
  | deq
  | dump
  | delete (n : Nat)

/-- Run a sequence of calls on a container.  The callback handed to `ll_dump` and
`ll_delete` leaves the caller state alone. -/
def ll_calls {α : Type} (h : heap_t α) (llist : Option llist_t) :
    List (ll_call α) → Except fault_t (heap_t α × Option llist_t)
  | [] => .ok (h, llist)
  | ll_call.enq d :: cs => do
    let (h, llist, _) ← ll_enq h llist (some d)
    ll_calls h llist cs
  | ll_call.push d :: cs => do
    let (h, llist, _) ← ll_push h llist (some d)
    ll_calls h llist cs
  | ll_call.deq :: cs => do
    let (h, llist, _) ← ll_deq h llist
    ll_calls h llist cs
  | ll_call.dump :: cs => do
    let (h, llist, _, _) ← ll_dump h llist (some (fun (_ : α) (u : Unit) => u)) ()
    ll_calls h llist cs
  | ll_call.delete n :: cs => do
    let (h, llist, _, _) ← ll_delete h llist (n : Int) (some (fun (_ : α) (u : Unit) => u)) ()
    ll_calls h llist cs

/-- Modelled from the claim that the container refines a list: the list after a sequence
of calls, with append-at-end for `ll_enq`, cons-at-front for `ll_push`, drop-first for
`ll_deq`, clear for `ll_dump` and drop-first-`n` for `ll_delete`. -/
def list_calls {α : Type} : List α → List (ll_call α) → List α
  | xs, [] => xs
  | xs, ll_call.enq d :: cs => list_calls (xs ++ [d]) cs
  | xs, ll_call.push d :: cs => list_calls (d :: xs) cs
  | xs, ll_call.deq :: cs => list_calls (xs.drop 1) cs
  | _, ll_call.dump :: cs => list_calls [] cs
  | xs, ll_call.delete n :: cs => list_calls (xs.drop n) cs

/-- Every `ll_delete` call of the sequence has `0 < n <= ` the current length, and every
`ll_deq` call finds an element, when the list is `xs` before the sequence starts. -/
def ll_calls_ok {α : Type} : List α → List (ll_call α) → Prop
  | _, [] => True
  | xs, ll_call.enq d :: cs => ll_calls_ok (xs ++ [d]) cs
  | xs, ll_call.push d :: cs => ll_calls_ok (d :: xs) cs
  | xs, ll_call.deq :: cs => 0 < xs.length ∧ ll_calls_ok (xs.drop 1) cs
  | _, ll_call.dump :: cs => ll_calls_ok [] cs
  | xs, ll_call.delete n :: cs => 0 < n ∧ n ≤ xs.length ∧ ll_calls_ok (xs.drop n) cs
/-! ## Properties of the growth step -/

/-- An `int32_t` value is not changed by the wrap-around. -/
theorem wrap32_of_isInt32 (z : Int) (hz : isInt32 z) : wrap32 z = z := by
  unfold isInt32 at hz
  unfold wrap32
  omega

/-- The four values `rand() % 4` can take. -/
theorem rnd_mod_four (rnd : Nat) :
    rnd % 4 = 0 ∨ rnd % 4 = 1 ∨ rnd % 4 = 2 ∨ rnd % 4 = 3 := by omega

/-- Outside the twelve rows no branch of the growth step fires: the new vertex
keeps the zero glyph and zero direction `calloc` gave it. -/
theorem main_step_no_row (prev : vertex_t) (rnd : Nat) (h : ¬ has_row prev) :
    main_step prev rnd = main_curr prev := by
  unfold has_row at h
  unfold main_step
  simp only []
  split_ifs <;> first | rfl | (exfalso; apply h; simp [*])

/-- On the twelve rows the roll is decided by the direction of `prev` alone: one of four
blocks, for `prev` moving left, right, up or down. -/
theorem main_step_row (prev : vertex_t) (rnd : Nat) (h : has_row prev) :
    (prev.dir_x = -1 ∧ prev.dir_y = 0 ∧ main_step prev rnd =
      main_roll (main_curr prev) rnd HORIZ HORIZ TOPLEFT BOTLEFT
        HORIZ (-1, 0) TOPLEFT (0, 1) BOTLEFT (0, -1)) ∨
    (prev.dir_x = 1 ∧ prev.dir_y = 0 ∧ main_step prev rnd =
      main_roll (main_curr prev) rnd HORIZ HORIZ BOTRIGHT TOPRIGHT
        HORIZ (1, 0) BOTRIGHT (0, -1) TOPRIGHT (0, 1)) ∨
    (prev.dir_x = 0 ∧ prev.dir_y = -1 ∧ main_step prev rnd =
      main_roll (main_curr prev) rnd VERTI VERTI TOPRIGHT TOPLEFT
        VERTI (0, -1) TOPRIGHT (-1, 0) TOPLEFT (1, 0)) ∨
    (prev.dir_x = 0 ∧ prev.dir_y = 1 ∧ main_step prev rnd =
      main_roll (main_curr prev) rnd VERTI VERTI BOTRIGHT BOTLEFT
        VERTI (0, 1) BOTRIGHT (-1, 0) BOTLEFT (1, 0)) := by
  unfold has_row at h
  rcases h with ⟨hc, ⟨hy, hx⟩ | ⟨hy, hx⟩⟩ | ⟨hc, ⟨hy, hx⟩ | ⟨hy, hx⟩⟩ |
      ⟨hc, ⟨hy, hx⟩ | ⟨hy, hx⟩⟩ | ⟨hc, ⟨hy, hx⟩ | ⟨hy, hx⟩⟩ | ⟨hc, ⟨hy, hx⟩ | ⟨hy, hx⟩⟩ |
      ⟨hc, ⟨hy, hx⟩ | ⟨hy, hx⟩⟩ <;>
    simp [main_step, hc, hy, hx, HORIZ, VERTI, TOPLEFT, TOPRIGHT, BOTLEFT, BOTRIGHT]

/-- A straight glyph with a transition row lies along its direction. -/
theorem has_row_straight (prev : vertex_t) (h : has_row prev) (hs : is_straight prev.c) :
    prev.c = straight_glyph prev.dir_y := by
  unfold has_row at h
  unfold is_straight at hs
  rcases hs with hs | hs <;>
  rcases h with ⟨hc, ⟨hy, hx⟩ | ⟨hy, hx⟩⟩ | ⟨hc, ⟨hy, hx⟩ | ⟨hy, hx⟩⟩ |
      ⟨hc, ⟨hy, hx⟩ | ⟨hy, hx⟩⟩ | ⟨hc, ⟨hy, hx⟩ | ⟨hy, hx⟩⟩ | ⟨hc, ⟨hy, hx⟩ | ⟨hy, hx⟩⟩ |
      ⟨hc, ⟨hy, hx⟩ | ⟨hy, hx⟩⟩ <;>
    simp_all [straight_glyph, HORIZ, VERTI, TOPLEFT, TOPRIGHT, BOTLEFT, BOTRIGHT]

/-- C1. No-reversal: for every previous vertex whose direction is not `(0,0)` and
every value of `rand()`, the direction of the vertex produced by the growth step
is not the exact negation of the previous direction. -/
theorem main_step_no_reversal (prev : vertex_t) (rnd : Nat)
    (h : prev.dir_x ≠ 0 ∨ prev.dir_y ≠ 0) :
    (main_step prev rnd).dir_x ≠ -prev.dir_x ∨ (main_step prev rnd).dir_y ≠ -prev.dir_y := by
  by_cases hrow : has_row prev
  · rcases main_step_row prev rnd hrow with ⟨hx, hy, he⟩ | ⟨hx, hy, he⟩ | ⟨hx, hy, he⟩ |
      ⟨hx, hy, he⟩ <;>
    rcases rnd_mod_four rnd with hr | hr | hr | hr <;>
    simp [he, main_roll, main_curr, hy, hx, hr, HORIZ, VERTI, TOPLEFT, TOPRIGHT, BOTLEFT,
      BOTRIGHT]
  · rw [main_step_no_row prev rnd hrow]
    simp only [main_curr]
    omega

/-- From a state with a transition row, continuing straight is keeping the direction with
the straight glyph of the axis. -/
theorem continues_straight_iff (prev n : vertex_t) (h : has_row prev) :
    continues_straight prev n ↔
      (n.dir_x = prev.dir_x ∧ n.dir_y = prev.dir_y ∧ n.c = straight_glyph prev.dir_y) := by
  unfold continues_straight
  constructor
  · rintro ⟨h1, h2, h3, _⟩
    exact ⟨h1, h2, h3⟩
  · rintro ⟨h1, h2, h3⟩
    exact ⟨h1, h2, h3, fun hs => by rw [h3, has_row_straight prev h hs]⟩

/-- C3. Transition weights: from every state that has a transition row, among the
four values `r = 0,1,2,3` of `rand() % 4` exactly two continue straight (direction
unchanged, straight glyph of the axis, the same glyph when `prev` is straight) and
exactly one turns to each of the two perpendicular directions with a corner glyph. -/
theorem main_step_weights (prev : vertex_t) (h : has_row prev) :
    List.countP (fun r => decide (continues_straight prev (main_step prev r))) [0, 1, 2, 3] = 2 ∧
    List.countP (fun r => decide (turns_to (main_step prev r) prev.dir_y prev.dir_x))
      [0, 1, 2, 3] = 1 ∧
    List.countP (fun r => decide (turns_to (main_step prev r) (-prev.dir_y) (-prev.dir_x)))
      [0, 1, 2, 3] = 1 := by
  have h0 := main_step_row prev 0 h
  have h1 := main_step_row prev 1 h
  have h2 := main_step_row prev 2 h
  have h3 := main_step_row prev 3 h
  simp only [List.countP_cons, List.countP_nil, continues_straight_iff prev _ h]
  rcases h0 with ⟨hx, hy, e0⟩ | ⟨hx, hy, e0⟩ | ⟨hx, hy, e0⟩ | ⟨hx, hy, e0⟩ <;>
    simp only [hx, hy, false_and, and_false, or_false, false_or, true_and, one_ne_zero,
      zero_ne_one, reduceCtorEq, Int.reduceNeg, Int.reduceEq] at h1 h2 h3 <;>
    simp [e0, h1, h2, h3, main_roll, main_curr, turns_to, is_corner,
      straight_glyph, hy, hx, HORIZ, VERTI, TOPLEFT, TOPRIGHT, BOTLEFT, BOTRIGHT]

/-- Witness of C3 at the seed state `━` moving right. -/
theorem main_step_weights_witness :
    has_row ⟨HORIZ, 5, 5, 1, 0⟩ ∧
    List.countP (fun r => decide (continues_straight ⟨HORIZ, 5, 5, 1, 0⟩
      (main_step ⟨HORIZ, 5, 5, 1, 0⟩ r))) [0, 1, 2, 3] = 2 :=
  ⟨by decide, (main_step_weights ⟨HORIZ, 5, 5, 1, 0⟩ (by decide)).1⟩

/-- C4. Geometric consistency: from every state that has a transition row and for every
value of `rand()`, the generated glyph has an arm pointing back to the previous cell
and an arm along its own outgoing direction; it is a corner exactly when the direction
makes a quarter turn and a straight glyph exactly when the direction is unchanged. -/
theorem main_step_geometry (prev : vertex_t) (rnd : Nat) (h : has_row prev) :
    (-prev.dir_x, -prev.dir_y) ∈ arms (main_step prev rnd).c ∧
    ((main_step prev rnd).dir_x, (main_step prev rnd).dir_y) ∈ arms (main_step prev rnd).c ∧
    (is_corner (main_step prev rnd).c ↔ quarter_turn prev (main_step prev rnd)) ∧
    (is_straight (main_step prev rnd).c ↔
      ((main_step prev rnd).dir_x = prev.dir_x ∧ (main_step prev rnd).dir_y = prev.dir_y)) := by
  rcases main_step_row prev rnd h with ⟨hx, hy, he⟩ | ⟨hx, hy, he⟩ | ⟨hx, hy, he⟩ |
      ⟨hx, hy, he⟩ <;>
    rcases rnd_mod_four rnd with hr | hr | hr | hr <;>
    simp [he, main_roll, main_curr, arms, is_corner, is_straight, quarter_turn,
      hy, hx, hr, HORIZ, VERTI, TOPLEFT, TOPRIGHT, BOTLEFT, BOTRIGHT]

/-- Witness of C4: `┛` entered moving left, `rand() = 2` gives `┏` leaving downward. -/
theorem main_step_geometry_witness :
    has_row ⟨BOTRIGHT, 7, 3, -1, 0⟩ ∧
    (1, 0) ∈ arms (main_step ⟨BOTRIGHT, 7, 3, -1, 0⟩ 2).c ∧
    (main_step ⟨BOTRIGHT, 7, 3, -1, 0⟩ 2).c = TOPLEFT :=
  ⟨by decide, (main_step_geometry ⟨BOTRIGHT, 7, 3, -1, 0⟩ 2 (by decide)).1, by decide⟩

/-- Witness of C1 at the seed state `━` moving left with `rand() = 3`. -/
theorem main_step_no_reversal_witness :
    (main_step ⟨HORIZ, 40, 12, -1, 0⟩ 3).dir_x ≠ 1 ∨ (main_step ⟨HORIZ, 40, 12, -1, 0⟩ 3).dir_y ≠ 0 :=
  main_step_no_reversal ⟨HORIZ, 40, 12, -1, 0⟩ 3 (Or.inl (by decide))

/-- C5. Bounds predicate: for a vertex with `int32_t` coordinates and direction
components in `{-1,0,1}` and an `int32_t` viewport whose `height - 1` does not overflow,
`check_bounds` returns `0` exactly when `1 < x + dir_x < width` and
`1 < y + dir_y < height - 1`, and `-1` otherwise; in a `10 x 10` viewport the vertex at
`(9,5)` with direction `(1,0)` is out of bounds. -/
theorem check_bounds_spec (v : vertex_t) (width height : Int)
    (hx : isInt32 v.x) (hy : isInt32 v.y)
    (hdx : v.dir_x = -1 ∨ v.dir_x = 0 ∨ v.dir_x = 1)
    (hdy : v.dir_y = -1 ∨ v.dir_y = 0 ∨ v.dir_y = 1)
    (hw : isInt32 width) (hh1 : isInt32 (height - 1)) :
    (check_bounds (some v) width height = 0 ↔
      (1 < v.x + v.dir_x ∧ v.x + v.dir_x < width ∧
        1 < v.y + v.dir_y ∧ v.y + v.dir_y < height - 1)) ∧
    (¬ (1 < v.x + v.dir_x ∧ v.x + v.dir_x < width ∧
        1 < v.y + v.dir_y ∧ v.y + v.dir_y < height - 1) →
      check_bounds (some v) width height = -1) ∧
    (∀ c : Int, check_bounds (some ⟨c, 9, 5, 1, 0⟩) 10 10 = -1) := by
  unfold isInt32 at hx hy hw hh1
  refine ⟨?_, ?_, fun c => by simp [check_bounds, wrap32]⟩
  · simp only [check_bounds, wrap32]
    split_ifs <;> constructor <;> intro h <;> first | omega | (exfalso; omega) | simp at h
  · intro h
    simp only [check_bounds, wrap32]
    split_ifs <;> first | rfl | (exfalso; omega)

/-- Witness of C5: in a `10 x 10` viewport the vertex at `(5,5)` moving right is in
bounds. -/
theorem check_bounds_spec_witness :
    check_bounds (some ⟨HORIZ, 5, 5, 1, 0⟩) 10 10 = 0 :=
  ((check_bounds_spec ⟨HORIZ, 5, 5, 1, 0⟩ 10 10 (by decide) (by decide) (by decide) (by decide)
    (by decide) (by decide)).1).2 (by decide)

/-! ## The node heap: linked segments -/

/-- Every node of a linked segment is a live cell of the heap. -/
theorem heap_seg_lt {α : Type} {h : heap_t α} :
    ∀ {ns : List (Nat × α)} {p : Option Nat}, heap_seg h p ns →
      ∀ a ∈ ns.map Prod.fst, a < h.length := by
  intro ns
  induction ns with
  | nil => intro p _ a ha; simp at ha
  | cons n rest ih =>
    obtain ⟨a, x⟩ := n
    intro p hseg b hb
    obtain ⟨_, nxt, hcell, hrest⟩ := hseg
    rcases List.mem_cons.mp hb with hb | hb
    · subst hb
      exact (List.getElem?_eq_some.mp hcell).1
    · exact ih hrest b hb

/-- A linked segment only depends on the cells of its own nodes. -/
theorem heap_seg_frame {α : Type} {h h' : heap_t α} :
    ∀ {ns : List (Nat × α)} {p : Option Nat}, heap_seg h p ns →
      (∀ a ∈ ns.map Prod.fst, h'[a]? = h[a]?) → heap_seg h' p ns := by
  intro ns
  induction ns with
  | nil => intro p hseg _; exact hseg
  | cons n rest ih =>
    obtain ⟨a, x⟩ := n
    intro p hseg hsame
    obtain ⟨hp, nxt, hcell, hrest⟩ := hseg
    refine ⟨hp, nxt, ?_, ih hrest (fun b hb => hsame b (List.mem_cons_of_mem _ hb))⟩
    rw [hsame a (by simp), hcell]

/-- Linking a fresh node behind the last node of a segment appends it. -/
theorem heap_seg_snoc {α : Type} {h h' : heap_t α} (t new : Nat) (d : α)
    (hA : ∀ a, a < h.length → a ≠ t → h'[a]? = h[a]?)
    (hB : h'[new]? = some (some { next := none, data := some d }))
    (hC : ∀ n, h[t]? = some (some n) → h'[t]? = some (some { n with next := some new })) :
    ∀ {ns : List (Nat × α)} {p : Option Nat}, heap_seg h p ns → ns ≠ [] →
      (ns.getLast?).map Prod.fst = some t → (ns.map Prod.fst).Nodup →
      heap_seg h' p (ns ++ [(new, d)]) := by
  intro ns
  induction ns with
  | nil => intro p _ hne; exact absurd rfl hne
  | cons n rest ih =>
    obtain ⟨a, x⟩ := n
    intro p hseg _ hlast hnd
    obtain ⟨hp, nxt, hcell, hrest⟩ := hseg
    cases rest with
    | nil =>
      have hnxt : nxt = none := hrest
      have hta : a = t := by simpa using hlast
      subst hta hnxt
      exact ⟨hp, some new, hC _ hcell, rfl, none, hB, rfl⟩
    | cons m rest' =>
      have hlast' : ((m :: rest').getLast?).map Prod.fst = some t := by
        rw [List.getLast?_cons_cons] at hlast; exact hlast
      have hnd' : ((m :: rest').map Prod.fst).Nodup := (List.nodup_cons.mp hnd).2
      have hat : a ≠ t := by
        intro hEq
        apply (List.nodup_cons.mp hnd).1
        obtain ⟨q, hq, hqt⟩ := Option.map_eq_some'.mp hlast'
        rw [hEq, ← hqt]
        exact List.mem_map.mpr ⟨q, List.mem_of_getLast?_eq_some hq, rfl⟩
      refine ⟨hp, nxt, ?_, ih hrest (by simp) hlast' hnd'⟩
      rw [hA a (List.getElem?_eq_some.mp hcell).1 hat, hcell]

/-- The last node of a linked segment has `next == NULL`. -/
theorem heap_seg_last {α : Type} {h : heap_t α} :
    ∀ {ns : List (Nat × α)} {p : Option Nat}, heap_seg h p ns →
      ∀ t x, ns.getLast? = some (t, x) → h[t]? = some (some { next := none, data := some x }) := by
  intro ns
  induction ns with
  | nil => intro p _ t x hl; simp at hl
  | cons n rest ih =>
    obtain ⟨a, y⟩ := n
    intro p hseg t x hl
    obtain ⟨_, nxt, hcell, hrest⟩ := hseg
    cases rest with
    | nil =>
      have hnxt : nxt = none := hrest
      simp at hl
      obtain ⟨rfl, rfl⟩ := hl
      rw [hcell, hnxt]
    | cons m rest' =>
      rw [List.getLast?_cons_cons] at hl
      exact ih hrest t x hl

/-- Distinct addresses below a bound are at most that many. -/
theorem nodup_length_le (as : List Nat) (n : Nat) (hnd : as.Nodup) (hlt : ∀ a ∈ as, a < n) :
    as.length ≤ n := by
  have hsub : as.toFinset ⊆ Finset.range n := by
    intro a ha
    exact Finset.mem_range.mpr (hlt a (List.mem_toFinset.mp ha))
  have hcard := Finset.card_le_card hsub
  rw [List.toFinset_card_of_nodup hnd, Finset.card_range] at hcard
  exact hcard

/-- Walking a linked segment returns its payloads in order. -/
theorem heap_walk_seg {α : Type} {h : heap_t α} :
    ∀ {ns : List (Nat × α)} {p : Option Nat} (fuel : Nat), heap_seg h p ns →
      ns.length ≤ fuel → heap_walk h fuel p = .ok (ns.map (fun n => some n.2)) := by
  intro ns
  induction ns with
  | nil =>
    intro p fuel hseg _
    have hp : p = none := hseg
    subst hp
    cases fuel <;> rfl
  | cons n rest ih =>
    obtain ⟨a, x⟩ := n
    intro p fuel hseg hlen
    obtain ⟨hp, nxt, hcell, hrest⟩ := hseg
    subst hp
    cases fuel with
    | zero => simp at hlen
    | succ fuel =>
      have hlen' : rest.length ≤ fuel := by simpa using hlen
      simp [heap_walk, heap_load, hcell, ih fuel hrest hlen', bind, Except.bind, pure, Except.pure]

/-! ## The container operations on a well-formed container -/

theorem heap_load_ok {α : Type} {h : heap_t α} {a : Nat} {n : ll_node_t α}
    (hc : h[a]? = some (some n)) : heap_load h (some a) = .ok n := by
  simp [heap_load, hc]

theorem heap_store_ok {α : Type} {h : heap_t α} {a : Nat} {n0 : ll_node_t α} (n : ll_node_t α)
    (hc : h[a]? = some (some n0)) : heap_store h (some a) n = .ok (h.set a (some n)) := by
  simp [heap_store, hc]

theorem pthread_mutex_lock_ok {l : llist_t} (hl : l.lock = false) :
    pthread_mutex_lock l = .ok { l with lock := true } := by
  simp [pthread_mutex_lock, hl]

/-- Cells below the fresh address are untouched by `calloc` and the write to the new
node. -/
theorem heap_fresh_old {α : Type} (h : heap_t α) (c v : Option (ll_node_t α)) (a : Nat)
    (ha : a < h.length) : ((h ++ [c]).set h.length v)[a]? = h[a]? := by
  rw [List.getElem?_set_ne (by omega), List.getElem?_append_left ha]

/-- The fresh cell holds what was written to it. -/
theorem heap_fresh_new {α : Type} (h : heap_t α) (c v : Option (ll_node_t α)) :
    ((h ++ [c]).set h.length v)[h.length]? = some v := by
  rw [List.getElem?_set_self (by simp)]

/-- A freshly created container is well formed and empty. -/
theorem ll_repr_create {α : Type} (h : heap_t α) :
    ll_repr h { count := 0, head := none, tail := none, lock := false } [] := by
  refine ⟨rfl, fun hne => absurd rfl hne, by simp, by simp [wrap32], rfl⟩

theorem wrap32_succ (n : Nat) : wrap32 (wrap32 (n : Int) + 1) = wrap32 ((n + 1 : Nat) : Int) := by
  unfold wrap32
  push_cast
  omega

theorem wrap32_pred (n : Nat) : wrap32 (wrap32 ((n + 1 : Nat) : Int) - 1) = wrap32 (n : Int) := by
  unfold wrap32
  push_cast
  omega

/-- Enqueue: `ll_enq` on a well-formed container returns `0` and appends the item in a fresh
node at the tail. -/
theorem ll_enq_repr {α : Type} {h : heap_t α} {l : llist_t} {ns : List (Nat × α)} (d : α)
    (hr : ll_repr h l ns) :
    ∃ h' l', ll_enq h (some l) (some d) = .ok (h', some l', 0) ∧
      ll_repr h' l' (ns ++ [(h.length, d)]) := by
  obtain ⟨hseg, htail, hnd, hcount, hlock⟩ := hr
  have hlt := heap_seg_lt hseg
  have hfresh : h.length ∉ ns.map Prod.fst := fun hm => absurd (hlt _ hm) (lt_irrefl _)
  have hnd' : ((ns ++ [(h.length, d)]).map Prod.fst).Nodup := by
    rw [List.map_append, List.nodup_append]
    refine ⟨hnd, by simp, ?_⟩
    intro a ha hb
    simp at hb
    subst hb
    exact hfresh ha
  have hst := heap_store_ok (h := h ++ [some { next := none, data := none }]) (a := h.length)
    { next := none, data := some d } (List.getElem?_concat_length h _)
  cases ns with
  | nil =>
    have hhead : l.head = none := hseg
    refine ⟨?hh, ?ll, ?eq, ?rp⟩
    case eq =>
      simp only [ll_enq, heap_calloc, hst, pthread_mutex_lock_ok hlock, hhead, bind, Except.bind,
        pure, Except.pure]
      exact rfl
    case rp =>
      refine ⟨?_, ?_, hnd', ?_, rfl⟩
      · exact ⟨rfl, none, heap_fresh_new h _ _, rfl⟩
      · intro _; rfl
      · simp only [pthread_mutex_unlock, hcount]
        exact wrap32_succ 0
  | cons n rest =>
    obtain ⟨a, x⟩ := n
    have hhead : l.head = some a := hseg.1
    obtain ⟨q, hq⟩ : ∃ q, ((a, x) :: rest).getLast? = some q :=
      ⟨_, List.getLast?_eq_getLast _ (by simp)⟩
    obtain ⟨t, y⟩ := q
    have htl : l.tail = some t := by rw [htail (by simp), hq]; rfl
    have htcell := heap_seg_last hseg t y hq
    have htlt : t < h.length := hlt t (List.mem_map.mpr ⟨_, List.mem_of_getLast?_eq_some hq, rfl⟩)
    have htcell2 : ((h ++ [some ({ next := none, data := none } : ll_node_t α)]).set h.length
        (some { next := none, data := some d }))[t]? = some (some { next := none, data := some y }) := by
      rw [heap_fresh_old h _ _ t htlt, htcell]
    refine ⟨?hh2, ?ll2, ?eq2, ?rp2⟩
    case eq2 =>
      simp only [ll_enq, heap_calloc, hst, pthread_mutex_lock_ok hlock, hhead, htl,
        heap_load_ok htcell2, heap_store_ok _ htcell2, bind, Except.bind, pure, Except.pure]
      exact rfl
    case rp2 =>
      refine ⟨?_, ?_, hnd', ?_, rfl⟩
      · have hseg' : heap_seg h (some a) ((a, x) :: rest) := by rw [← hhead]; exact hseg
        refine heap_seg_snoc t h.length d ?_ ?_ ?_ hseg' (by simp) (by rw [hq]; rfl) hnd
        · intro b hb hbt
          rw [List.getElem?_set_ne (Ne.symm hbt), heap_fresh_old h _ _ b hb]
        · rw [List.getElem?_set_ne (by omega), heap_fresh_new]
        · intro n hn
          rw [htcell] at hn
          cases hn
          rw [List.getElem?_set_self (by simp; omega)]
      · intro _
        rw [List.getLast?_append]
        rfl
      · simp only [pthread_mutex_unlock, hcount]
        have := wrap32_succ ((a, x) :: rest).length
        simpa using this

/-- Dequeue: `ll_deq` on a well-formed non-empty container returns the payload of the head node
and leaves the rest. -/
theorem ll_deq_repr {α : Type} {h : heap_t α} {l : llist_t} {a : Nat} {x : α}
    {ns : List (Nat × α)} (hr : ll_repr h l ((a, x) :: ns)) :
    ∃ h' l', ll_deq h (some l) = .ok (h', some l', some x) ∧ ll_repr h' l' ns ∧
      h'.length = h.length := by
  obtain ⟨hseg, htail, hnd, hcount, hlock⟩ := hr
  obtain ⟨hhead, nxt, hcell, hrest⟩ := hseg
  have hnd' := List.nodup_cons.mp hnd
  refine ⟨?hh, ?ll, ?eq, ?rp, ?len⟩
  case eq =>
    simp only [ll_deq, pthread_mutex_lock_ok hlock, hhead, heap_load_ok hcell, bind, Except.bind,
      pure, Except.pure]
    exact rfl
  case len => simp [heap_free]
  case rp =>
    refine ⟨?_, ?_, hnd'.2, ?_, rfl⟩
    · refine heap_seg_frame hrest ?_
      intro b hb
      have hba : a ≠ b := fun hEq => hnd'.1 (hEq ▸ hb)
      simp only [heap_free]
      rw [List.getElem?_set_ne hba]
    · intro hne
      have := htail (by simp)
      cases ns with
      | nil => exact absurd rfl hne
      | cons m rest =>
        rw [List.getLast?_cons_cons] at this
        simpa [pthread_mutex_unlock] using this
    · simp only [pthread_mutex_unlock, hcount]
      have := wrap32_pred ns.length
      simpa using this

/-- Push: `ll_push` on a well-formed container returns `0` and puts the item in a fresh node
at the head. -/
theorem ll_push_repr {α : Type} {h : heap_t α} {l : llist_t} {ns : List (Nat × α)} (d : α)
    (hr : ll_repr h l ns) :
    ∃ h' l', ll_push h (some l) (some d) = .ok (h', some l', 0) ∧
      ll_repr h' l' ((h.length, d) :: ns) := by
  obtain ⟨hseg, htail, hnd, hcount, hlock⟩ := hr
  have hlt := heap_seg_lt hseg
  have hfresh : h.length ∉ ns.map Prod.fst := fun hm => absurd (hlt _ hm) (lt_irrefl _)
  have hst := heap_store_ok (h := h ++ [some { next := none, data := none }]) (a := h.length)
    { next := none, data := some d } (List.getElem?_concat_length h _)
  have hc1 := heap_fresh_new h (some { next := none, data := none })
    (some { next := none, data := some d })
  have hc2 : (((h ++ [some ({ next := none, data := none } : ll_node_t α)]).set h.length
      (some { next := none, data := some d })).set h.length
      (some { next := l.head, data := some d }))[h.length]? =
      some (some { next := l.head, data := some d }) := by
    rw [List.getElem?_set_self (by simp)]
  have hframe : heap_seg (((h ++ [some ({ next := none, data := none } : ll_node_t α)]).set
      h.length (some { next := none, data := some d })).set h.length
      (some { next := l.head, data := some d })) l.head ns := by
    refine heap_seg_frame hseg ?_
    intro b hb
    have hbl := hlt b hb
    rw [List.getElem?_set_ne (by omega), heap_fresh_old h _ _ b hbl]
  have hnd' : (((h.length, d) :: ns).map Prod.fst).Nodup := by
    rw [List.map_cons, List.nodup_cons]
    exact ⟨hfresh, hnd⟩
  cases ns with
  | nil =>
    have hhead : l.head = none := hseg
    rw [hhead] at hc2 hframe
    refine ⟨?hh, ?ll, ?eq, ?rp⟩
    case eq =>
      simp only [ll_push, heap_calloc, hst, pthread_mutex_lock_ok hlock, heap_load_ok hc1,
        heap_store_ok _ hc1, hhead, heap_load_ok hc2, bind, Except.bind, pure, Except.pure, if_true]
      exact rfl
    case rp =>
      refine ⟨⟨rfl, none, hc2, hframe⟩, fun _ => rfl, hnd', ?_, rfl⟩
      simp only [pthread_mutex_unlock, hcount]
      exact wrap32_succ 0
  | cons m rest =>
    have hhead : l.head = some m.1 := hseg.1
    rw [hhead] at hc2 hframe
    refine ⟨?hh2, ?ll2, ?eq2, ?rp2⟩
    case eq2 =>
      simp only [ll_push, heap_calloc, hst, pthread_mutex_lock_ok hlock, heap_load_ok hc1,
        heap_store_ok _ hc1, hhead, heap_load_ok hc2, bind, Except.bind, pure, Except.pure,
        reduceCtorEq, if_false]
      exact rfl
    case rp2 =>
      refine ⟨⟨rfl, some m.1, hc2, hframe⟩, ?_, hnd', ?_, rfl⟩
      · intro _
        have := htail (by simp)
        rw [List.getLast?_cons_cons]
        simpa [pthread_mutex_unlock] using this
      · simp only [pthread_mutex_unlock, hcount]
        have := wrap32_succ (m :: rest).length
        simpa using this

/-- The payloads reachable from the head of a well-formed container. -/
theorem ll_payloads_repr {α : Type} {h : heap_t α} {l : llist_t} {ns : List (Nat × α)}
    (hr : ll_repr h l ns) : ll_payloads h l = .ok (ns.map (fun n => some n.2)) := by
  obtain ⟨hseg, _, hnd, _, _⟩ := hr
  have hlen : ns.length ≤ h.length := by
    have := nodup_length_le (ns.map Prod.fst) h.length hnd (heap_seg_lt hseg)
    simpa using this
  exact heap_walk_seg h.length hseg hlen

/-- Length: `ll_len` of a well-formed container is the number of its nodes as an `int32_t`. -/
theorem ll_len_repr {α : Type} {h : heap_t α} {l : llist_t} {ns : List (Nat × α)}
    (hr : ll_repr h l ns) : ll_len (some l) = wrap32 ns.length := hr.2.2.2.1

/-- Head: `ll_head` of a well-formed container is the payload of the first node. -/
theorem ll_head_repr {α : Type} {h : heap_t α} {l : llist_t} {ns : List (Nat × α)}
    (hr : ll_repr h l ns) : ll_head h (some l) = .ok ((ns.head?).map Prod.snd) := by
  obtain ⟨hseg, _, _, _, _⟩ := hr
  cases ns with
  | nil =>
    have hhead : l.head = none := hseg
    simp [ll_head, hhead, pure, Except.pure]
  | cons n rest =>
    obtain ⟨a, x⟩ := n
    obtain ⟨hhead, nxt, hcell, _⟩ := hseg
    simp [ll_head, hhead, heap_load_ok hcell, bind, Except.bind, pure, Except.pure]

/-- Tail: `ll_tail` of a well-formed non-empty container is the payload of the last node. -/
theorem ll_tail_repr {α : Type} {h : heap_t α} {l : llist_t} {ns : List (Nat × α)}
    (hr : ll_repr h l ns) (hne : ns ≠ []) :
    ll_tail h (some l) = .ok ((ns.getLast?).map Prod.snd) := by
  obtain ⟨hseg, htail, _, _, _⟩ := hr
  obtain ⟨q, hq⟩ : ∃ q, ns.getLast? = some q := ⟨_, List.getLast?_eq_getLast _ hne⟩
  obtain ⟨t, y⟩ := q
  have htl : l.tail = some t := by rw [htail hne, hq]; rfl
  have hcell := heap_seg_last hseg t y hq
  simp [ll_tail, htl, hq, heap_load_ok hcell, bind, Except.bind, pure, Except.pure]

/-! ## A two-element container -/

/-- The two-element container `ll_demo` is well formed and holds `10, 20`. -/
theorem ll_demo_repr : ll_repr ll_demo_heap ll_demo [(0, 10), (1, 20)] :=
  ⟨⟨rfl, some 1, rfl, rfl, none, rfl, rfl⟩, fun _ => rfl, by decide, by decide, rfl⟩

/-! ## Queue and stack order -/

/-- Enqueuing items into a well-formed container succeeds for each of them and appends
them in order, each in a node of its own. -/
theorem ll_enq_all_repr {α : Type} :
    ∀ (xs : List α) (h : heap_t α) (l : llist_t) (ns : List (Nat × α)), ll_repr h l ns →
      ∃ h' l' ms, ll_enq_all h (some l) (xs.map some) = .ok (h', some l', xs.map (fun _ => 0)) ∧
        ll_repr h' l' (ns ++ ms) ∧ ms.map Prod.snd = xs := by
  intro xs
  induction xs with
  | nil => intro h l ns hr; exact ⟨h, l, [], rfl, by simpa using hr, rfl⟩
  | cons x xs ih =>
    intro h l ns hr
    obtain ⟨h1, l1, he, hr1⟩ := ll_enq_repr x hr
    obtain ⟨h2, l2, ms, hall, hr2, hms⟩ := ih h1 l1 _ hr1
    refine ⟨h2, l2, (h.length, x) :: ms, ?_, by simpa using hr2, by simp [hms]⟩
    simp only [List.map_cons, ll_enq_all, he, hall, bind, Except.bind, pure, Except.pure]

/-- Dequeuing as many times as a well-formed container has nodes returns their payloads
head first and empties it. -/
theorem ll_deq_n_repr {α : Type} :
    ∀ (ns : List (Nat × α)) (h : heap_t α) (l : llist_t), ll_repr h l ns →
      ∃ h' l', ll_deq_n h (some l) ns.length = .ok (h', some l', ns.map (fun n => some n.2)) ∧
        ll_repr h' l' [] := by
  intro ns
  induction ns with
  | nil => intro h l hr; exact ⟨h, l, rfl, hr⟩
  | cons n ns ih =>
    obtain ⟨a, x⟩ := n
    intro h l hr
    obtain ⟨h1, l1, hd, hr1, _⟩ := ll_deq_repr hr
    obtain ⟨h2, l2, hall, hr2⟩ := ih h1 l1 hr1
    refine ⟨h2, l2, ?_, hr2⟩
    simp only [List.length_cons, List.map_cons, ll_deq_n, hd, hall, bind, Except.bind, pure,
      Except.pure]

/-- C7. FIFO: enqueuing any finite list of present items with `ll_enq` into a freshly
created container succeeds (every call returns `0`), and the same number of `ll_deq`
calls then returns exactly those items in enqueue order. -/
theorem ll_fifo {α : Type} (h : heap_t α) (xs : List α) :
    ∃ h1 l1 h2 l2,
      ll_enq_all h ll_create (xs.map some) = .ok (h1, some l1, xs.map (fun _ => 0)) ∧
      ll_deq_n h1 (some l1) xs.length = .ok (h2, some l2, xs.map some) := by
  obtain ⟨h1, l1, ms, hall, hr1, hms⟩ := ll_enq_all_repr xs h _ [] (ll_repr_create h)
  rw [List.nil_append] at hr1
  obtain ⟨h2, l2, hdeq, _⟩ := ll_deq_n_repr ms h1 l1 hr1
  refine ⟨h1, l1, h2, l2, hall, ?_⟩
  have hlen : ms.length = xs.length := by rw [← hms, List.length_map]
  have hmap : ms.map (fun n => some n.2) = xs.map some := by
    rw [← hms, List.map_map]; rfl
  rw [← hlen, ← hmap]
  exact hdeq

/-- Pushing items onto a well-formed container succeeds for each of them and stacks
them in front, the last pushed first. -/
theorem ll_push_all_repr {α : Type} :
    ∀ (xs : List α) (h : heap_t α) (l : llist_t) (ns : List (Nat × α)), ll_repr h l ns →
      ∃ h' l' ms, ll_push_all h (some l) (xs.map some) = .ok (h', some l', xs.map (fun _ => 0)) ∧
        ll_repr h' l' (ms ++ ns) ∧ ms.map Prod.snd = xs.reverse := by
  intro xs
  induction xs with
  | nil => intro h l ns hr; exact ⟨h, l, [], rfl, by simpa using hr, rfl⟩
  | cons x xs ih =>
    intro h l ns hr
    obtain ⟨h1, l1, he, hr1⟩ := ll_push_repr x hr
    obtain ⟨h2, l2, ms, hall, hr2, hms⟩ := ih h1 l1 _ hr1
    refine ⟨h2, l2, ms ++ [(h.length, x)], ?_, by simpa using hr2, by simp [hms]⟩
    simp only [List.map_cons, ll_push_all, he, hall, bind, Except.bind, pure, Except.pure]

/-- Popping is dequeuing, call by call. -/
theorem ll_pop_n_eq {α : Type} :
    ∀ (n : Nat) (h : heap_t α) (llist : Option llist_t), ll_pop_n h llist n = ll_deq_n h llist n := by
  intro n
  induction n with
  | zero => intro h llist; rfl
  | succ n ih =>
    intro h llist
    simp only [ll_pop_n, ll_deq_n, ll_pop, bind, Except.bind]
    cases ll_deq h llist with
    | error e => rfl
    | ok r => simp only [ih]

/-- C8. LIFO: pushing any finite list of present items with `ll_push` onto a freshly
created container succeeds (every call returns `0`), and the same number of `ll_pop`
calls then returns exactly those items in reverse push order. -/
theorem ll_lifo {α : Type} (h : heap_t α) (xs : List α) :
    ∃ h1 l1 h2 l2,
      ll_push_all h ll_create (xs.map some) = .ok (h1, some l1, xs.map (fun _ => 0)) ∧
      ll_pop_n h1 (some l1) xs.length = .ok (h2, some l2, xs.reverse.map some) := by
  obtain ⟨h1, l1, ms, hall, hr1, hms⟩ := ll_push_all_repr xs h _ [] (ll_repr_create h)
  rw [List.append_nil] at hr1
  obtain ⟨h2, l2, hdeq, _⟩ := ll_deq_n_repr ms h1 l1 hr1
  refine ⟨h1, l1, h2, l2, hall, ?_⟩
  have hlen : ms.length = xs.length := by
    have := congrArg List.length hms
    simpa using this
  have hmap : ms.map (fun n => some n.2) = xs.reverse.map some := by
    rw [← hms, List.map_map]; rfl
  rw [ll_pop_n_eq, ← hlen, ← hmap]
  exact hdeq

/-! ## The element count -/

theorem ll_run_repr {α : Type} :
    ∀ (ops : List (ll_op α)) (h : heap_t α) (l : llist_t) (ns : List (Nat × α)),
      ll_repr h l ns → ll_deq_nonempty ns.length ops →
      ∃ h' l' ns', ll_run h (some l) ops = .ok (h', some l') ∧ ll_repr h' l' ns' ∧
        (ns'.length : Int) = ns.length + ll_inserts ops - ll_removes ops := by
  intro ops
  induction ops with
  | nil => intro h l ns hr _; exact ⟨h, l, ns, rfl, hr, by simp [ll_inserts, ll_removes]⟩
  | cons op ops ih =>
    intro h l ns hr hne
    cases op with
    | enq d =>
      obtain ⟨h1, l1, he, hr1⟩ := ll_enq_repr d hr
      have hne1 : ll_deq_nonempty (ns ++ [(h.length, d)]).length ops := by
        simpa [ll_deq_nonempty] using hne
      obtain ⟨h2, l2, ns2, hrun, hr2, hlen⟩ := ih h1 l1 _ hr1 hne1
      refine ⟨h2, l2, ns2, ?_, hr2, ?_⟩
      · simp only [ll_run, he, bind, Except.bind]
        exact hrun
      · simp only [ll_inserts, ll_removes]
        rw [hlen]
        simp
        ring
    | push d =>
      obtain ⟨h1, l1, he, hr1⟩ := ll_push_repr d hr
      have hne1 : ll_deq_nonempty ((h.length, d) :: ns).length ops := by
        simpa [ll_deq_nonempty] using hne
      obtain ⟨h2, l2, ns2, hrun, hr2, hlen⟩ := ih h1 l1 _ hr1 hne1
      refine ⟨h2, l2, ns2, ?_, hr2, ?_⟩
      · simp only [ll_run, he, bind, Except.bind]
        exact hrun
      · simp only [ll_inserts, ll_removes]
        rw [hlen]
        simp
        ring
    | deq =>
      obtain ⟨hpos, hne1⟩ := hne
      cases ns with
      | nil => simp at hpos
      | cons n ns =>
        obtain ⟨a, x⟩ := n
        obtain ⟨h1, l1, hd, hr1, _⟩ := ll_deq_repr hr
        obtain ⟨h2, l2, ns2, hrun, hr2, hlen⟩ := ih h1 l1 ns hr1 (by simpa using hne1)
        refine ⟨h2, l2, ns2, ?_, hr2, ?_⟩
        · simp only [ll_run, hd, bind, Except.bind]
          exact hrun
        · simp only [ll_inserts, ll_removes]
          rw [hlen]
          simp
          ring

/-- C9 (amended). Count invariant: for every sequence of `N` inserts (`ll_enq` or
`ll_push` of a present item) and `M` `ll_deq` calls on a freshly created container in
which every `ll_deq` call finds an element, and with `N - M` below `2^31`, all calls
return and `ll_len` afterwards returns `N - M`. -/
theorem ll_count_invariant {α : Type} (h : heap_t α) (ops : List (ll_op α))
    (hne : ll_deq_nonempty 0 ops)
    (hfit : (ll_inserts ops : Int) - ll_removes ops < 2147483648) :
    ∃ h' l', ll_run h ll_create ops = .ok (h', some l') ∧
      ll_len (some l') = (ll_inserts ops : Int) - ll_removes ops := by
  obtain ⟨h', l', ns', hrun, hr, hlen⟩ := ll_run_repr ops h _ [] (ll_repr_create h) hne
  refine ⟨h', l', hrun, ?_⟩
  rw [ll_len_repr hr]
  simp only [List.length_nil, Nat.cast_zero, zero_add] at hlen
  rw [← hlen] at hfit ⊢
  apply wrap32_of_isInt32
  unfold isInt32
  omega

/-- Witness of C9: enqueue, push, dequeue, enqueue leaves two elements. -/
theorem ll_count_invariant_witness :
    ∃ h' l', ll_run ([] : heap_t Nat) ll_create
        [ll_op.enq 1, ll_op.push 2, ll_op.deq, ll_op.enq 3] = .ok (h', some l') ∧
      ll_len (some l') = 2 :=
  ll_count_invariant ([] : heap_t Nat) [ll_op.enq 1, ll_op.push 2, ll_op.deq, ll_op.enq 3]
    (by simp [ll_deq_nonempty]) (by simp [ll_inserts, ll_removes])

/-- C9 as stated fails: one `ll_deq` call and then one insert (`M = 1 <= N = 1`) on a
freshly created container.  The `ll_deq` call finds the list empty and returns with the
mutex still held, the `ll_enq` call never returns, and no `ll_len` `0` is observed. -/
theorem ll_count_counterexample :
    ll_removes [ll_op.deq, ll_op.enq (7 : Nat)] ≤ ll_inserts [ll_op.deq, ll_op.enq (7 : Nat)] ∧
    ll_run ([] : heap_t Nat) ll_create [ll_op.deq, ll_op.enq 7] = .error .deadlock ∧
    ¬ ∃ h' l', ll_run ([] : heap_t Nat) ll_create [ll_op.deq, ll_op.enq 7] = .ok (h', l') ∧
      ll_len l' = (ll_inserts [ll_op.deq, ll_op.enq (7 : Nat)] : Int) -
        ll_removes [ll_op.deq, ll_op.enq (7 : Nat)] := by
  have hrun : ll_run ([] : heap_t Nat) ll_create [ll_op.deq, ll_op.enq 7] =
      .error .deadlock := rfl
  refine ⟨by simp [ll_inserts, ll_removes], hrun, ?_⟩
  rintro ⟨h', l', he, _⟩
  rw [hrun] at he
  cases he

/-! ## Deleting past the end -/

/-- C10 (the code faults). A container holding one item, `ll_delete` with
`num_delete = 2` and a present callback: the second iteration of the loop reads
`llist->head->data` with `head == NULL`, so the call does not return `1`. -/
theorem ll_delete_beyond_end :
    ∃ h l, ll_enq ([] : heap_t Nat) ll_create (some 7) = .ok (h, l, 0) ∧ ll_len l = 1 ∧
      ll_delete h l 2 (some (fun (a : Nat) (s : List Nat) => s ++ [a])) [] =
        .error .null_deref :=
  ⟨_, _, rfl, rfl, rfl⟩

/-! ## The loop of `ll_delete` -/

theorem isInt32_wrap32 (z : Int) : isInt32 (wrap32 z) := by
  unfold isInt32 wrap32
  omega

/-- The loop of `ll_delete` on a list that starts with the nodes `pre`, when at least
`pre.length` iterations are due: it frees these nodes, calls `freenode` on their
payloads in order, counts them, and goes on with the rest of the list. -/
theorem ll_delete_loop_run {α σ : Type} (f : α → σ → σ) (n : Int) :
    ∀ (pre post : List (Nat × α)) (fuel : Nat) (idx : Int) (h : heap_t α) (l : llist_t)
      (ret : Int) (s : σ),
      heap_seg h l.head (pre ++ post) → ((pre ++ post).map Prod.fst).Nodup →
      isInt32 ret → isInt32 l.count →
      0 ≤ idx → idx + pre.length ≤ n → idx + pre.length ≤ 2147483647 → pre.length ≤ fuel →
      ∃ h' l', ll_delete_loop f n fuel idx h l ret s =
          ll_delete_loop f n (fuel - pre.length) (idx + pre.length) h' l'
            (wrap32 (ret + pre.length)) (pre.foldl (fun s p => f p.2 s) s) ∧
        heap_seg h' l'.head post ∧ l'.tail = l.tail ∧ l'.lock = l.lock ∧
        l'.count = wrap32 (l.count - pre.length) ∧ h'.length = h.length := by
  intro pre
  induction pre with
  | nil =>
    intro post fuel idx h l ret s hseg _ hret hcount _ _ _ _
    refine ⟨h, l, ?_, hseg, rfl, rfl, ?_, rfl⟩
    · simp [wrap32_of_isInt32 ret hret]
    · simp [wrap32_of_isInt32 _ hcount]
  | cons p pre ih =>
    obtain ⟨a, x⟩ := p
    intro post fuel idx h l ret s hseg hnd hret hcount hidx hle hmax hfuel
    obtain ⟨hhead, nxt, hcell, hrest⟩ := hseg
    have hnd' := List.nodup_cons.mp hnd
    simp only [List.length_cons, Nat.cast_add, Nat.cast_one] at hle hmax
    cases fuel with
    | zero => simp at hfuel
    | succ fuel =>
      have hfuel' : pre.length ≤ fuel := by simpa using hfuel
      have hlt : idx < n := by omega
      have hrest' : heap_seg (heap_free h a) nxt (pre ++ post) := by
        refine heap_seg_frame hrest ?_
        intro b hb
        have hba : a ≠ b := fun hEq => hnd'.1 (hEq ▸ hb)
        simp only [heap_free]
        rw [List.getElem?_set_ne hba]
      have hidx1 : wrap32 (idx + 1) = idx + 1 := wrap32_of_isInt32 _ (by unfold isInt32; omega)
      obtain ⟨h', l', hrun, hseg', htl, hlk, hcnt, hlen⟩ := ih post fuel (idx + 1) (heap_free h a)
        { l with head := nxt, count := wrap32 (l.count - 1) } (wrap32 (ret + 1)) (f x s)
        hrest' hnd'.2 (isInt32_wrap32 _) (isInt32_wrap32 _) (by omega) (by omega) (by omega)
        hfuel'
      refine ⟨h', l', ?_, hseg', htl, hlk, ?_, ?_⟩
      · rw [ll_delete_loop, if_pos hlt]
        simp only [hhead, heap_load_ok hcell, bind, Except.bind, hidx1]
        rw [hrun]
        simp only [List.length_cons, List.foldl_cons, Nat.cast_add, Nat.cast_one,
          Nat.add_sub_add_right]
        have h1 : idx + 1 + (pre.length : Int) = idx + ((pre.length : Int) + 1) := by ring
        have h2 : wrap32 (wrap32 (ret + 1) + (pre.length : Int)) =
            wrap32 (ret + ((pre.length : Int) + 1)) := by
          unfold wrap32; omega
        rw [h1, h2]
      · rw [hcnt]
        simp only [List.length_cons, Nat.cast_add, Nat.cast_one]
        unfold wrap32
        omega
      · rw [hlen]
        simp [heap_free]

/-- Deleting past the end always faults: on a well-formed container of `L >= 1` nodes
(`L` below `2^31`), `ll_delete` with `num_delete > L` and a present callback
dereferences the `NULL` head in iteration `L + 1`. -/
theorem ll_delete_past_end {α σ : Type} (h : heap_t α) (l : llist_t) (ns : List (Nat × α))
    (n : Int) (f : α → σ → σ) (s : σ) (hr : ll_repr h l ns) (hne : ns ≠ [])
    (hn : (ns.length : Int) < n) (hL : (ns.length : Int) ≤ 2147483647) :
    ll_delete h (some l) n (some f) s = .error .null_deref := by
  obtain ⟨hseg, _, hnd, hcount, hlock⟩ := hr
  have hlen : ns.length ≤ h.length := by
    have := nodup_length_le (ns.map Prod.fst) h.length hnd (heap_seg_lt hseg)
    simpa using this
  obtain ⟨q, rest, hq⟩ : ∃ q rest, ns = q :: rest := List.exists_cons_of_ne_nil hne
  have hhead : l.head = some q.1 := by
    rw [hq] at hseg
    exact hseg.1
  have hpos : ¬ (0 ≥ n) := by
    have : (0 : Int) ≤ ns.length := Int.natCast_nonneg _
    omega
  obtain ⟨h', l', hrun, hseg', _, _, _, _⟩ := ll_delete_loop_run f n ns [] (h.length + 1) 0 h
    { l with lock := true } 0 s (by simpa using hseg) (by simpa using hnd) (by decide)
    (by rw [hcount]; exact isInt32_wrap32 _) (le_refl _) (by omega) (by omega) (by omega)
  have hnone : l'.head = none := hseg'
  obtain ⟨k, hk⟩ : ∃ k, h.length + 1 - ns.length = k + 1 := ⟨h.length - ns.length, by omega⟩
  have hfault : ll_delete_loop f n (h.length + 1) 0 h { l with lock := true } 0 s =
      .error .null_deref := by
    rw [hrun, hk, ll_delete_loop, if_pos (by omega)]
    simp [hnone, heap_load, bind, Except.bind]
  simp only [hhead] at hfault
  simp only [ll_delete, if_neg hpos, pthread_mutex_lock_ok hlock, hhead, hfault, bind,
    Except.bind]

/-! ## Deleting within the length -/

/-- Subtracting from a wrapped value and wrapping is wrapping the difference. -/
theorem wrap32_wrap32_sub (a b : Int) : wrap32 (wrap32 a - b) = wrap32 (a - b) := by
  unfold wrap32
  omega

/-- Deleting `n` nodes from the front of a well-formed container of at least `n` nodes. -/
theorem ll_delete_repr {α σ : Type} (h : heap_t α) (l : llist_t) (ns : List (Nat × α))
    (n : Nat) (f : α → σ → σ) (s : σ) (hr : ll_repr h l ns) (hn : 0 < n)
    (hnL : n ≤ ns.length) (hfit : (ns.length : Int) ≤ 2147483647) :
    ∃ h' l', ll_delete h (some l) (n : Int) (some f) s =
        .ok (h', some l', (n : Int), (ns.take n).foldl (fun s p => f p.2 s) s) ∧
      ll_repr h' l' (ns.drop n) ∧
      ll_payloads h' l' = .ok ((ns.drop n).map (fun p => some p.2)) ∧
      ll_len (some l') = (ns.length : Int) - n := by
  obtain ⟨hseg, htail, hnd, hcount, hlock⟩ := hr
  have hlen : ns.length ≤ h.length := by
    have := nodup_length_le (ns.map Prod.fst) h.length hnd (heap_seg_lt hseg)
    simpa using this
  have hsplit : ns.take n ++ ns.drop n = ns := List.take_append_drop n ns
  have htake : (ns.take n).length = n := List.length_take_of_le hnL
  obtain ⟨q, rest, hq⟩ : ∃ q rest, ns = q :: rest :=
    List.exists_cons_of_ne_nil (by intro h0; rw [h0] at hnL; simp at hnL; omega)
  have hhead : l.head = some q.1 := by
    rw [hq] at hseg
    exact hseg.1
  have hpos : ¬ (0 ≥ (n : Int)) := by omega
  have hsub : ((ns.length - n : Nat) : Int) = (ns.length : Int) - n := Nat.cast_sub hnL
  have hfit' : isInt32 ((ns.length : Int) - n) := by unfold isInt32; omega
  have hn32 : wrap32 (0 + (n : Int)) = n := by
    rw [zero_add]
    exact wrap32_of_isInt32 _ (by unfold isInt32; omega)
  obtain ⟨k, hk⟩ : ∃ k, h.length + 1 - n = k + 1 := ⟨h.length - n, by omega⟩
  have hnn : ¬ (0 + (n : Int) < n) := by omega
  obtain ⟨h', l', hrun, hseg', htl, hlk, hcnt, _⟩ := ll_delete_loop_run f (n : Int) (ns.take n)
    (ns.drop n) (h.length + 1) 0 h { l with lock := true } 0 s
    (by rw [hsplit]; exact hseg) (by rw [hsplit]; exact hnd) (by decide)
    (by rw [hcount]; exact isInt32_wrap32 _) (le_refl _) (by rw [htake]; omega)
    (by rw [htake]; omega) (by rw [htake]; omega)
  rw [htake] at hrun hcnt
  have hloop : ll_delete_loop f (n : Int) (h.length + 1) 0 h { l with lock := true } 0 s =
      .ok (h', l', (n : Int), (ns.take n).foldl (fun s p => f p.2 s) s) := by
    rw [hrun, hk, ll_delete_loop, if_neg hnn, hn32]
  have hrepr : ll_repr h' (pthread_mutex_unlock l') (ns.drop n) := by
    refine ⟨hseg', ?_, ?_, ?_, rfl⟩
    · intro hne
      have hlast : (ns.drop n).getLast? = ns.getLast? := by
        conv_rhs => rw [← hsplit]
        rw [List.getLast?_append]
        obtain ⟨z, hz⟩ : ∃ z, (ns.drop n).getLast? = some z :=
          ⟨_, List.getLast?_eq_getLast _ hne⟩
        rw [hz]
        rfl
      have hns : ns ≠ [] := by rw [hq]; simp
      simp only [pthread_mutex_unlock]
      rw [htl, hlast]
      exact htail hns
    · have : ((ns.take n ++ ns.drop n).map Prod.fst).Nodup := by rw [hsplit]; exact hnd
      rw [List.map_append] at this
      exact (List.nodup_append.mp this).2.1
    · have hc : l'.count = wrap32 (l.count - (n : Int)) := hcnt
      show l'.count = _
      rw [hc, hcount, wrap32_wrap32_sub, List.length_drop, hsub]
  refine ⟨h', pthread_mutex_unlock l', ?_, hrepr, ll_payloads_repr hrepr, ?_⟩
  · simp only [hhead] at hloop
    simp only [ll_delete, if_neg hpos, pthread_mutex_lock_ok hlock, hhead, hloop, bind,
      Except.bind, pure, Except.pure]
  · rw [ll_len_repr hrepr, List.length_drop, hsub]
    exact wrap32_of_isInt32 _ hfit'

/-- C11. Deleting from the front within the length: on a well-formed container holding
`e1..eL` (`L` an `int32_t` value, as `count` is), `ll_delete` with `0 < n <= L` and a
present callback calls the callback once on each of `e1..en` in that order, returns `n`,
and leaves a well-formed container holding exactly `e(n+1)..eL` in the same order, with
`ll_len = L - n`. -/
theorem ll_delete_front {α σ : Type} (h : heap_t α) (l : llist_t) (ns : List (Nat × α))
    (n : Nat) (f : α → σ → σ) (s : σ) (hr : ll_repr h l ns) (hn : 0 < n)
    (hnL : n ≤ ns.length) (hfit : (ns.length : Int) ≤ 2147483647) :
    ∃ h' l', ll_delete h (some l) (n : Int) (some f) s =
        .ok (h', some l', (n : Int), (ns.take n).foldl (fun s p => f p.2 s) s) ∧
      ll_repr h' l' (ns.drop n) ∧
      ll_payloads h' l' = .ok ((ns.drop n).map (fun p => some p.2)) ∧
      ll_len (some l') = (ns.length : Int) - n :=
  ll_delete_repr h l ns n f s hr hn hnL hfit

/-- Witness of C11: deleting one element from the container `10, 20`. -/
theorem ll_delete_front_witness :
    ∃ h' l', ll_delete ll_demo_heap (some ll_demo) 1
        (some (fun (a : Nat) (s : List Nat) => s ++ [a])) [] = .ok (h', some l', 1, [10]) ∧
      ll_payloads h' l' = .ok [some 20] ∧ ll_len (some l') = 1 := by
  obtain ⟨h', l', h1, _, h2, h3⟩ := ll_delete_front ll_demo_heap ll_demo [(0, 10), (1, 20)] 1
    (fun (a : Nat) (s : List Nat) => s ++ [a]) [] ll_demo_repr (by decide) (by decide)
    (by decide)
  exact ⟨h', l', h1, h2, h3⟩

/-! ## Draining -/

/-- Adding to a wrapped value and wrapping is wrapping the sum. -/
theorem wrap32_wrap32_add (a b : Int) : wrap32 (wrap32 a + b) = wrap32 (a + b) := by
  unfold wrap32
  omega

/-- The loop of `ll_dump` on a linked segment: it frees every node, calls `freenode` on
the payloads in order and counts the nodes. -/
theorem ll_dump_loop_run {α σ : Type} (f : α → σ → σ) :
    ∀ (ns : List (Nat × α)) (fuel : Nat) (p : Option Nat) (h : heap_t α) (l : llist_t)
      (ret : Int) (s : σ),
      heap_seg h p ns → (ns.map Prod.fst).Nodup → isInt32 ret → isInt32 l.count →
      ns.length ≤ fuel →
      ∃ h', ll_dump_loop f fuel p h l ret s =
          .ok (h', { l with count := wrap32 (l.count - ns.length) },
            wrap32 (ret + ns.length), ns.foldl (fun s p => f p.2 s) s) ∧
        h'.length = h.length := by
  intro ns
  induction ns with
  | nil =>
    intro fuel p h l ret s hseg _ hret hcount _
    have hp : p = none := hseg
    subst hp
    refine ⟨h, ?_, rfl⟩
    have h1 : wrap32 (ret + ((([] : List (Nat × α)).length : Nat) : Int)) = ret := by
      simp [wrap32_of_isInt32 ret hret]
    have h2 : wrap32 (l.count - ((([] : List (Nat × α)).length : Nat) : Int)) = l.count := by
      simp [wrap32_of_isInt32 _ hcount]
    rw [h1, h2]
    cases fuel <;> rfl
  | cons q ns ih =>
    obtain ⟨a, x⟩ := q
    intro fuel p h l ret s hseg hnd hret hcount hfuel
    obtain ⟨hp, nxt, hcell, hrest⟩ := hseg
    subst hp
    have hnd' := List.nodup_cons.mp hnd
    cases fuel with
    | zero => simp at hfuel
    | succ fuel =>
      have hfuel' : ns.length ≤ fuel := by simpa using hfuel
      have hrest' : heap_seg (heap_free h a) nxt ns := by
        refine heap_seg_frame hrest ?_
        intro b hb
        have hba : a ≠ b := fun hEq => hnd'.1 (hEq ▸ hb)
        simp only [heap_free]
        rw [List.getElem?_set_ne hba]
      obtain ⟨h', hrun, hlen⟩ := ih fuel nxt (heap_free h a)
        { l with count := wrap32 (l.count - 1) } (wrap32 (ret + 1)) (f x s) hrest' hnd'.2
        (isInt32_wrap32 _) (isInt32_wrap32 _) hfuel'
      refine ⟨h', ?_, ?_⟩
      · simp only [ll_dump_loop, heap_load_ok hcell, bind, Except.bind]
        rw [hrun]
        have e1 : wrap32 (wrap32 (ret + 1) + (ns.length : Int)) =
            wrap32 (ret + (((a, x) :: ns).length : Nat)) := by
          rw [wrap32_wrap32_add]
          congr 1
          simp only [List.length_cons, Nat.cast_add, Nat.cast_one]
          ring
        have e2 : wrap32 (wrap32 (l.count - 1) - (ns.length : Int)) =
            wrap32 (l.count - (((a, x) :: ns).length : Nat)) := by
          rw [wrap32_wrap32_sub]
          congr 1
          simp only [List.length_cons, Nat.cast_add, Nat.cast_one]
          ring
        simp only [e1, e2, List.foldl_cons]
      · rw [hlen]
        simp [heap_free]

/-- Draining a well-formed container of `L` nodes returns `L`, calls the callback on the
payloads head to tail, and leaves the container in the state `ll_create` gives. -/
theorem ll_dump_repr {α σ : Type} (h : heap_t α) (l : llist_t) (ns : List (Nat × α))
    (f : α → σ → σ) (s : σ) (hr : ll_repr h l ns) (hfit : (ns.length : Int) ≤ 2147483647) :
    ∃ h', ll_dump h (some l) (some f) s =
      .ok (h', ll_create, (ns.length : Int), ns.foldl (fun s p => f p.2 s) s) := by
  obtain ⟨hseg, _, hnd, hcount, hlock⟩ := hr
  have hlen : ns.length ≤ h.length := by
    have := nodup_length_le (ns.map Prod.fst) h.length hnd (heap_seg_lt hseg)
    simpa using this
  have hL : wrap32 (0 + (ns.length : Int)) = ns.length := by
    rw [zero_add]
    exact wrap32_of_isInt32 _ (by unfold isInt32; omega)
  have hC : wrap32 (wrap32 (ns.length : Int) - (ns.length : Int)) = 0 := by
    rw [wrap32_wrap32_sub, sub_self]
    rfl
  obtain ⟨h', hrun, _⟩ := ll_dump_loop_run f ns h.length l.head h { l with lock := true } 0 s
    hseg hnd (by decide) (by rw [hcount]; exact isInt32_wrap32 _) hlen
  refine ⟨h', ?_⟩
  simp only [hcount, hC, hL] at hrun
  simp only [ll_dump, pthread_mutex_lock_ok hlock, hcount, hrun, bind, Except.bind, pure,
    Except.pure, pthread_mutex_unlock, ll_create]

/-- C12. Drain: on a well-formed container holding `L >= 0` items (`L` an `int32_t`
value, as `count` is) and with a present callback, `ll_dump` calls the callback once
on each item head to tail, returns `L`, and leaves a well-formed empty container: `ll_len`
is `0`, `ll_head` and `ll_tail` return `NULL`, an `ll_deq` call on the drained container
returns `NULL`, and an `ll_enq` of `x` on the drained container followed by `ll_deq`
returns `x`. -/
theorem ll_dump_drain {α σ : Type} (h : heap_t α) (l : llist_t) (ns : List (Nat × α))
    (f : α → σ → σ) (s : σ) (hr : ll_repr h l ns) (hfit : (ns.length : Int) ≤ 2147483647) :
    ∃ h' l', ll_dump h (some l) (some f) s =
        .ok (h', some l', (ns.length : Int), ns.foldl (fun s p => f p.2 s) s) ∧
      ll_repr h' l' [] ∧
      ll_payloads h' l' = .ok [] ∧
      ll_len (some l') = 0 ∧
      ll_head h' (some l') = .ok none ∧
      ll_tail h' (some l') = .ok none ∧
      (∃ l2, ll_deq h' (some l') = .ok (h', some l2, none)) ∧
      (∀ x : α, ∃ h1 l1 h2 l2, ll_enq h' (some l') (some x) = .ok (h1, some l1, 0) ∧
        ll_deq h1 (some l1) = .ok (h2, some l2, some x)) := by
  obtain ⟨h', hrun⟩ := ll_dump_repr h l ns f s hr hfit
  have hr0 : ll_repr h' { count := 0, head := none, tail := none, lock := false }
      ([] : List (Nat × α)) := ll_repr_create h'
  refine ⟨h', _, hrun, hr0, ll_payloads_repr hr0, rfl, rfl, rfl, ⟨_, rfl⟩, ?_⟩
  intro x
  obtain ⟨h1, l1, he, hr1⟩ := ll_enq_repr x hr0
  obtain ⟨h2, l2, hd, _, _⟩ := ll_deq_repr hr1
  exact ⟨h1, l1, h2, l2, he, hd⟩

/-- Witness of C12: draining the two-element container `10, 20`. -/
theorem ll_dump_drain_witness :
    ∃ h' l', ll_dump ll_demo_heap (some ll_demo) (some (fun (a : Nat) (s : List Nat) => s ++ [a]))
        [] = .ok (h', some l', 2, [10, 20]) ∧
      ll_len (some l') = 0 ∧ ll_head h' (some l') = .ok none ∧
      ll_tail h' (some l') = .ok none := by
  obtain ⟨h', l', h1, _, _, h2, h3, h4, _, _⟩ := ll_dump_drain ll_demo_heap ll_demo
    [(0, 10), (1, 20)] (fun (a : Nat) (s : List Nat) => s ++ [a]) [] ll_demo_repr (by decide)
  exact ⟨h', l', h1, h2, h3, h4⟩

/-! ## Peeking at an emptied container -/

/-- C13 (the code faults). One item is enqueued into a fresh container and removed
again, by `ll_deq` or by `ll_delete`: the container is empty (`ll_len` is `0`, `ll_head`
returns `NULL`), but `tail` still points to the freed node, and `ll_tail` reads that
node instead of returning `NULL`. -/
theorem ll_tail_after_deq :
    ∃ h1 l1 h2 l2 h3 l3, ll_enq ([] : heap_t Nat) ll_create (some 7) = .ok (h1, l1, 0) ∧
      ll_deq h1 l1 = .ok (h2, some l2, some 7) ∧
      ll_len (some l2) = 0 ∧ l2.head = none ∧ l2.tail = some 0 ∧ h2 = [none] ∧
      ll_head h2 (some l2) = .ok none ∧
      ll_tail h2 (some l2) = .error .use_after_free ∧
      ll_delete h1 l1 1 (some (fun (a : Nat) (s : List Nat) => s ++ [a])) [] =
        .ok (h3, some l3, 1, [7]) ∧
      ll_len (some l3) = 0 ∧
      ll_head h3 (some l3) = .ok none ∧
      ll_tail h3 (some l3) = .error .use_after_free :=
  ⟨_, _, _, _, _, _, rfl, rfl, rfl, rfl, rfl, rfl, rfl, rfl, rfl, rfl, rfl, rfl⟩

/-! ## Visiting every element -/

/-- The loop of `ll_iter` on a linked segment: it calls the visitor on the payloads in
order and counts them. -/
theorem ll_iter_loop_run {α σ : Type} (f : α → σ → σ) (h : heap_t α) :
    ∀ (ns : List (Nat × α)) (fuel : Nat) (p : Option Nat) (ret : Int) (s : σ),
      heap_seg h p ns → isInt32 ret → ns.length ≤ fuel →
      ll_iter_loop f h fuel p ret s =
        .ok (wrap32 (ret + ns.length), ns.foldl (fun s p => f p.2 s) s) := by
  intro ns
  induction ns with
  | nil =>
    intro fuel p ret s hseg hret _
    have hp : p = none := hseg
    subst hp
    have h1 : wrap32 (ret + ((([] : List (Nat × α)).length : Nat) : Int)) = ret := by
      simp [wrap32_of_isInt32 ret hret]
    rw [h1]
    cases fuel <;> rfl
  | cons q ns ih =>
    obtain ⟨a, x⟩ := q
    intro fuel p ret s hseg _ hfuel
    obtain ⟨hp, nxt, hcell, hrest⟩ := hseg
    subst hp
    cases fuel with
    | zero => simp at hfuel
    | succ fuel =>
      have hfuel' : ns.length ≤ fuel := by simpa using hfuel
      simp only [ll_iter_loop, heap_load_ok hcell, bind, Except.bind]
      rw [ih fuel nxt (wrap32 (ret + 1)) (f x s) hrest (isInt32_wrap32 _) hfuel',
        wrap32_wrap32_add]
      have e : ret + 1 + (ns.length : Int) = ret + (((a, x) :: ns).length : Nat) := by
        simp only [List.length_cons, Nat.cast_add, Nat.cast_one]
        ring
      rw [e, List.foldl_cons]

/-- C14 (amended). for_each: on a well-formed container holding `L >= 1` elements (`L` an
`int32_t` value) and with a present visitor, `ll_iter` calls the visitor once on each
payload in head-to-tail order, leaves the container unchanged and returns `L`, which is
`ll_len`; on an empty container it calls nothing, leaves the container unchanged and
returns the failure value `-1`. -/
theorem ll_iter_visits {α σ : Type} (h : heap_t α) (l : llist_t) (ns : List (Nat × α))
    (f : α → σ → σ) (s : σ) (hr : ll_repr h l ns) (hfit : (ns.length : Int) ≤ 2147483647) :
    ll_iter h (some l) (some f) s =
      .ok (some l, if ns.length = 0 then -1 else (ns.length : Int),
        ns.foldl (fun s p => f p.2 s) s) ∧
    ll_len (some l) = (ns.length : Int) := by
  have hlenL : ll_len (some l) = (ns.length : Int) := by
    rw [ll_len_repr hr]
    exact wrap32_of_isInt32 _ (by unfold isInt32; omega)
  refine ⟨?_, hlenL⟩
  obtain ⟨hseg, _, hnd, _, hlock⟩ := hr
  have hlen : ns.length ≤ h.length := by
    have := nodup_length_le (ns.map Prod.fst) h.length hnd (heap_seg_lt hseg)
    simpa using this
  have hL : wrap32 (0 + (ns.length : Int)) = ns.length := by
    rw [zero_add]
    exact wrap32_of_isInt32 _ (by unfold isInt32; omega)
  have hunlock : pthread_mutex_unlock { l with lock := true } = l := by
    cases l
    simp only [pthread_mutex_unlock] at hlock ⊢
    rw [hlock]
  cases ns with
  | nil =>
    have hhead : l.head = none := hseg
    simp [ll_iter, hhead, pure, Except.pure]
  | cons q rest =>
    have hhead : l.head = some q.1 := hseg.1
    have hrun := ll_iter_loop_run f h (q :: rest) h.length l.head 0 s hseg (by decide) hlen
    rw [hL] at hrun
    rw [hhead] at hrun
    rw [hhead] at hunlock
    simp only [ll_iter, hhead, pthread_mutex_lock_ok hlock, hrun, bind, Except.bind, pure,
      Except.pure, hunlock]
    simp

/-- Witness of C14 (amended): visiting the container `10, 20`. -/
theorem ll_iter_visits_witness :
    ll_iter ll_demo_heap (some ll_demo) (some (fun (a : Nat) (s : List Nat) => s ++ [a])) [] =
      .ok (some ll_demo, 2, [10, 20]) :=
  (ll_iter_visits ll_demo_heap ll_demo [(0, 10), (1, 20)]
    (fun (a : Nat) (s : List Nat) => s ++ [a]) [] ll_demo_repr (by decide)).1

/-- C14 as stated fails: on a freshly created (empty) container `ll_iter` with a present
visitor returns `-1`, not `0`. -/
theorem ll_iter_empty_counterexample :
    ll_iter ([] : heap_t Nat) ll_create (some (fun (a : Nat) (s : List Nat) => s ++ [a])) [] =
      .ok (ll_create, -1, []) ∧ ll_len ll_create = 0 ∧ (-1 : Int) ≠ 0 :=
  ⟨rfl, rfl, by decide⟩

/-! ## Searching -/

/-- An unlocked container is restored by locking and unlocking it. -/
theorem pthread_mutex_unlock_lock (l : llist_t) (hlock : l.lock = false) :
    pthread_mutex_unlock { l with lock := true } = l := by
  cases l
  simp only [pthread_mutex_unlock] at hlock ⊢
  rw [hlock]

/-- The loop of `ll_search` on a linked segment returns the first payload the comparator
maps to `0`. -/
theorem ll_search_loop_run {α κ : Type} (cmp : Option α → κ → Int) (key : κ) (h : heap_t α) :
    ∀ (ns : List (Nat × α)) (fuel : Nat) (p : Option Nat),
      heap_seg h p ns → ns.length ≤ fuel →
      ll_search_loop cmp key h fuel p =
        .ok ((ns.map Prod.snd).find? (fun x => decide (cmp (some x) key = 0))) := by
  intro ns
  induction ns with
  | nil =>
    intro fuel p hseg _
    have hp : p = none := hseg
    subst hp
    cases fuel <;> rfl
  | cons q ns ih =>
    obtain ⟨a, x⟩ := q
    intro fuel p hseg hfuel
    obtain ⟨hp, nxt, hcell, hrest⟩ := hseg
    subst hp
    cases fuel with
    | zero => simp at hfuel
    | succ fuel =>
      have hfuel' : ns.length ≤ fuel := by simpa using hfuel
      simp only [ll_search_loop, heap_load_ok hcell, bind, Except.bind, List.map_cons,
        List.find?_cons]
      by_cases hc : cmp (some x) key = 0
      · simp [hc]
      · have hc' : ¬ (0 = cmp (some x) key) := fun e => hc e.symm
        simp only [hc, hc', if_false, decide_False]
        exact ih fuel nxt hrest hfuel'

/-- C15. Search: on a well-formed container and with a present key and comparator,
`ll_search` returns the first payload `p` in head-to-tail order with
`compare(p, key) == 0`, returns `NULL` when there is none (so on an empty container), and
leaves the container as it was: same heap, same structure, same payloads and length. -/
theorem ll_search_first {α κ : Type} (h : heap_t α) (l : llist_t) (ns : List (Nat × α))
    (key : κ) (cmp : Option α → κ → Int) (hr : ll_repr h l ns) :
    ll_search h (some l) (some key) (some cmp) =
      .ok (some l, (ns.map Prod.snd).find? (fun x => decide (cmp (some x) key = 0))) ∧
    ll_payloads h l = .ok (ns.map (fun p => some p.2)) := by
  refine ⟨?_, ll_payloads_repr hr⟩
  obtain ⟨hseg, _, hnd, _, hlock⟩ := hr
  have hlen : ns.length ≤ h.length := by
    have := nodup_length_le (ns.map Prod.fst) h.length hnd (heap_seg_lt hseg)
    simpa using this
  have hrun := ll_search_loop_run cmp key h ns h.length l.head hseg hlen
  simp only [ll_search, pthread_mutex_lock_ok hlock, hrun, bind, Except.bind, pure,
    Except.pure, pthread_mutex_unlock_lock l hlock]

/-- Witness of C15: searching the container `10, 20` for `20`, and for the absent
`30`. -/
theorem ll_search_first_witness :
    ll_search ll_demo_heap (some ll_demo) (some 20)
        (some (fun (a : Option Nat) (k : Nat) => if a = some k then 0 else 1)) =
      .ok (some ll_demo, some 20) ∧
    ll_search ll_demo_heap (some ll_demo) (some 30)
        (some (fun (a : Option Nat) (k : Nat) => if a = some k then 0 else 1)) =
      .ok (some ll_demo, none) :=
  ⟨(ll_search_first ll_demo_heap ll_demo [(0, 10), (1, 20)] 20
      (fun (a : Option Nat) (k : Nat) => if a = some k then 0 else 1) ll_demo_repr).1,
    (ll_search_first ll_demo_heap ll_demo [(0, 10), (1, 20)] 30
      (fun (a : Option Nat) (k : Nat) => if a = some k then 0 else 1) ll_demo_repr).1⟩

/-! ## Cursor iteration -/

/-- The loop of `ll_iter_size` on a linked segment counts its nodes. -/
theorem ll_iter_size_loop_run {α : Type} (h : heap_t α) :
    ∀ (ns : List (Nat × α)) (fuel : Nat) (p : Option Nat) (sz : Int),
      heap_seg h p ns → isInt32 sz → ns.length ≤ fuel →
      ll_iter_size_loop h fuel p sz = .ok (wrap32 (sz + ns.length)) := by
  intro ns
  induction ns with
  | nil =>
    intro fuel p sz hseg hsz _
    have hp : p = none := hseg
    subst hp
    have h1 : wrap32 (sz + ((([] : List (Nat × α)).length : Nat) : Int)) = sz := by
      simp [wrap32_of_isInt32 sz hsz]
    rw [h1]
    cases fuel <;> rfl
  | cons q ns ih =>
    obtain ⟨a, x⟩ := q
    intro fuel p sz hseg _ hfuel
    obtain ⟨hp, nxt, hcell, hrest⟩ := hseg
    subst hp
    cases fuel with
    | zero => simp at hfuel
    | succ fuel =>
      have hfuel' : ns.length ≤ fuel := by simpa using hfuel
      simp only [ll_iter_size_loop, heap_load_ok hcell, bind, Except.bind]
      rw [ih fuel nxt (wrap32 (sz + 1)) hrest (isInt32_wrap32 _) hfuel', wrap32_wrap32_add]
      have e : sz + 1 + (ns.length : Int) = sz + (((a, x) :: ns).length : Nat) := by
        simp only [List.length_cons, Nat.cast_add, Nat.cast_one]
        ring
      rw [e]

/-- Calls of `ll_iter_next` on a cursor `c` that stands before the linked segment `rest`:
they return the payloads of `rest` in order and then `NULL`, move the cursor along, and
write to the cursor cell only. -/
theorem ll_iter_next_n_run {α : Type} (c : Nat) :
    ∀ (k : Nat) (rest : List (Nat × α)) (h : heap_t α) (p : Option Nat),
      h[c]? = some (some { next := p, data := none }) → heap_seg h p rest →
      c ∉ rest.map Prod.fst →
      ∃ h', ll_iter_next_n h (some c) k =
          .ok (h', (List.range k).map (fun i => (rest[i]?).map Prod.snd)) ∧
        (∃ p', h'[c]? = some (some { next := p', data := none }) ∧
          heap_seg h' p' (rest.drop k)) ∧
        (∀ a, a ≠ c → h'[a]? = h[a]?) ∧ h'.length = h.length := by
  intro k
  induction k with
  | zero =>
    intro rest h p hc hseg _
    exact ⟨h, rfl, ⟨p, hc, by simpa using hseg⟩, fun _ _ => rfl, rfl⟩
  | succ k ih =>
    intro rest h p hc hseg hnot
    cases rest with
    | nil =>
      have hp : p = none := hseg
      subst hp
      obtain ⟨h', hrun, hcur, hframe, hlen⟩ := ih [] h none hc hseg hnot
      refine ⟨h', ?_, by simpa using hcur, hframe, hlen⟩
      simp only [ll_iter_next_n, ll_iter_next, heap_load_ok hc, hrun, bind, Except.bind, pure,
        Except.pure]
      simp [List.replicate_succ]
    | cons q rest =>
      obtain ⟨a, x⟩ := q
      obtain ⟨hp, nxt, hcell, hrest⟩ := hseg
      subst hp
      have hac : a ≠ c := by
        intro hEq
        apply hnot
        simp [hEq]
      have hnot' : c ∉ rest.map Prod.fst := fun hm => hnot (List.mem_cons_of_mem _ hm)
      have hc1 : (h.set c (some { next := nxt, data := none }))[c]? =
          some (some ({ next := nxt, data := none } : ll_node_t α)) := by
        rw [List.getElem?_set_self (List.getElem?_eq_some.mp hc).1]
      have hrest1 : heap_seg (h.set c (some { next := nxt, data := none })) nxt rest := by
        refine heap_seg_frame hrest ?_
        intro b hb
        have hcb : c ≠ b := fun hEq => hnot' (hEq ▸ hb)
        rw [List.getElem?_set_ne hcb]
      obtain ⟨h', hrun, hcur, hframe, hlen⟩ := ih rest _ nxt hc1 hrest1 hnot'
      refine ⟨h', ?_, by simpa using hcur, ?_, by rw [hlen]; simp⟩
      · simp only [ll_iter_next_n, ll_iter_next, heap_load_ok hc, heap_load_ok hcell,
          heap_store_ok _ hc, hrun, bind, Except.bind, pure, Except.pure]
        simp [List.range_succ_eq_map, List.map_map, Function.comp_def]
      · intro b hb
        rw [hframe b hb, List.getElem?_set_ne (Ne.symm hb)]

/-- C16. Cursor iteration: on a well-formed container holding `e1..eL` with `L >= 1` (`L`
an `int32_t` value), `ll_iter_start` returns a cursor; the `k`-th call of `ll_iter_next`
on it returns `ek` for `k <= L` and `NULL` for every later call; `ll_iter_size` after `k`
calls, `0 <= k <= L`, returns `L - k`; the container stays as it was.  On an empty
container `ll_iter_start` returns `NULL`. -/
theorem ll_cursor {α : Type} (h : heap_t α) (l : llist_t) (ns : List (Nat × α))
    (hr : ll_repr h l ns) (hfit : (ns.length : Int) ≤ 2147483647) :
    (ns = [] → ll_iter_start h (some l) = .ok (h, none)) ∧
    (ns ≠ [] → ∃ h0 c, ll_iter_start h (some l) = .ok (h0, some c) ∧ ll_repr h0 l ns ∧
      ∀ k : Nat, ∃ hk, ll_iter_next_n h0 (some c) k =
          .ok (hk, (List.range k).map (fun i => (ns[i]?).map Prod.snd)) ∧
        ll_repr hk l ns ∧
        ll_payloads hk l = .ok (ns.map (fun p => some p.2)) ∧
        (k ≤ ns.length → ll_iter_size hk (some c) = .ok ((ns.length : Int) - k))) := by
  obtain ⟨hseg, htail, hnd, hcount, hlock⟩ := hr
  have hlt := heap_seg_lt hseg
  have hlen : ns.length ≤ h.length := by
    have := nodup_length_le (ns.map Prod.fst) h.length hnd hlt
    simpa using this
  constructor
  · intro hnil
    subst hnil
    have hhead : l.head = none := hseg
    simp [ll_iter_start, hhead, pure, Except.pure]
  · intro hne
    obtain ⟨q, rest, hq⟩ : ∃ q rest, ns = q :: rest := List.exists_cons_of_ne_nil hne
    have hhead : l.head = some q.1 := by
      rw [hq] at hseg
      exact hseg.1
    have hfresh : h.length ∉ ns.map Prod.fst := fun hm => absurd (hlt _ hm) (lt_irrefl _)
    have hc0 := heap_fresh_new h (some { next := none, data := none })
      (some ({ next := l.head, data := none } : ll_node_t α))
    have hcal : (h ++ [some ({ next := none, data := none } : ll_node_t α)])[h.length]? =
        some (some { next := none, data := none }) := List.getElem?_concat_length h _
    have hseg0 : heap_seg ((h ++ [some ({ next := none, data := none } : ll_node_t α)]).set
        h.length (some { next := l.head, data := none })) l.head ns := by
      refine heap_seg_frame hseg ?_
      intro b hb
      exact heap_fresh_old h _ _ b (hlt b hb)
    refine ⟨_, h.length, ?_, ⟨hseg0, htail, hnd, hcount, hlock⟩, ?_⟩
    · simp only [ll_iter_start, hhead, heap_calloc, heap_load_ok hcal, heap_store_ok _ hcal,
        bind, Except.bind, pure, Except.pure]
    · intro k
      obtain ⟨hk, hrun, ⟨p', hcur, hsegk⟩, hframe, hlenk⟩ :=
        ll_iter_next_n_run h.length k ns _ l.head hc0 hseg0 hfresh
      have hreprk : ll_repr hk l ns := by
        refine ⟨heap_seg_frame hseg0 ?_, htail, hnd, hcount, hlock⟩
        intro b hb
        exact hframe b (fun hEq => hfresh (hEq ▸ hb))
      refine ⟨hk, hrun, hreprk, ll_payloads_repr hreprk, ?_⟩
      intro hkL
      have hdl : (ns.drop k).length ≤ hk.length := by
        rw [hlenk, List.length_drop]
        simp
        omega
      have hsub : (((ns.drop k).length : Nat) : Int) = (ns.length : Int) - k := by
        rw [List.length_drop]
        exact Nat.cast_sub hkL
      have hval : wrap32 (0 + (((ns.drop k).length : Nat) : Int)) = (ns.length : Int) - k := by
        rw [zero_add, hsub]
        exact wrap32_of_isInt32 _ (by unfold isInt32; omega)
      have hsz := ll_iter_size_loop_run hk (ns.drop k) hk.length p' 0 hsegk (by decide) hdl
      rw [hval] at hsz
      simp only [ll_iter_size, heap_load_ok hcur, hsz, bind, Except.bind]

/-- Witness of C16: a cursor over the container `10, 20`, advanced three times. -/
theorem ll_cursor_witness :
    ∃ h0 c, ll_iter_start ll_demo_heap (some ll_demo) = .ok (h0, some c) ∧
      ∃ h3, ll_iter_next_n h0 (some c) 3 = .ok (h3, [some 10, some 20, none]) := by
  obtain ⟨h0, c, h1, _, h2⟩ := (ll_cursor ll_demo_heap ll_demo [(0, 10), (1, 20)] ll_demo_repr
    (by decide)).2 (by decide)
  obtain ⟨h3, h4, _⟩ := h2 3
  exact ⟨h0, c, h1, h3, h4⟩

/-! ## Failure values -/

/-- C17 (the code differs from its header). Given a `NULL` cursor, `ll_iter_size` returns
`RETVAL_FAILURE`, that is `-1`, where the header documents `0`. -/
theorem ll_iter_size_null {α : Type} (h : heap_t α) :
    ll_iter_size h none = .ok (-1) ∧ (-1 : Int) ≠ 0 :=
  ⟨rfl, by decide⟩

/-- C18. Invalid arguments: called with an absent container, item, key, comparator or
callback, or `ll_delete` with `num_delete <= 0`, every operation returns its failure
value (`-1`, or `NULL` for the operations that return a payload) and leaves the heap and
the container exactly as they were. -/
theorem ll_invalid_arguments {α σ κ : Type} (h : heap_t α) (llist : Option llist_t)
    (data : Option α) (num_delete : Int) (cb : Option (α → σ → σ)) (s : σ) (key : Option κ)
    (cmp : Option (Option α → κ → Int)) :
    ll_enq h none data = .ok (h, none, -1) ∧
    ll_enq h llist none = .ok (h, llist, -1) ∧
    ll_push h none data = .ok (h, none, -1) ∧
    ll_push h llist none = .ok (h, llist, -1) ∧
    ll_delete h none num_delete cb s = .ok (h, none, -1, s) ∧
    ll_delete h llist num_delete (none : Option (α → σ → σ)) s = .ok (h, llist, -1, s) ∧
    (num_delete ≤ 0 → ll_delete h llist num_delete cb s = .ok (h, llist, -1, s)) ∧
    ll_dump h none cb s = .ok (h, none, -1, s) ∧
    ll_dump h llist (none : Option (α → σ → σ)) s = .ok (h, llist, -1, s) ∧
    ll_iter h none cb s = .ok (none, -1, s) ∧
    ll_iter h llist (none : Option (α → σ → σ)) s = .ok (llist, -1, s) ∧
    ll_len none = -1 ∧
    ll_deq h none = .ok (h, none, none) ∧
    ll_head h none = .ok none ∧
    ll_tail h none = .ok none ∧
    ll_search h none key cmp = .ok (none, none) ∧
    ll_search h llist (none : Option κ) cmp = .ok (llist, none) ∧
    ll_search h llist key (none : Option (Option α → κ → Int)) = .ok (llist, none) := by
  refine ⟨rfl, ?_, rfl, ?_, rfl, ?_, ?_, rfl, ?_, rfl, ?_, rfl, rfl, rfl, rfl, rfl, ?_, ?_⟩
  · cases llist <;> rfl
  · cases llist <;> rfl
  · cases llist <;> rfl
  · intro hn
    cases llist with
    | none => rfl
    | some l =>
      cases cb with
      | none => rfl
      | some f => simp [ll_delete, hn, pure, Except.pure]
  · cases llist <;> rfl
  · cases llist <;> rfl
  · cases llist <;> cases key <;> rfl
  · cases llist <;> cases key <;> rfl

/-- Witness of C18: `ll_delete` with `num_delete = 0` on the container `10, 20`. -/
theorem ll_invalid_arguments_witness :
    ll_delete ll_demo_heap (some ll_demo) 0 (some (fun (a : Nat) (s : List Nat) => s ++ [a])) [] =
      .ok (ll_demo_heap, some ll_demo, -1, []) :=
  (ll_invalid_arguments ll_demo_heap (some ll_demo) (none : Option Nat) 0
    (some (fun (a : Nat) (s : List Nat) => s ++ [a])) [] (none : Option Nat)
    (none : Option (Option Nat → Nat → Int))).2.2.2.2.2.2.1 (by decide)

/-- C19. Freshly created container: right after `ll_create`, `ll_len` is `0`, `ll_head`
and `ll_tail` return `NULL`, and `ll_search` returns `NULL` for every key and every
comparator, leaving the container as created. -/
theorem ll_create_empty {α κ : Type} (h : heap_t α) (key : Option κ)
    (cmp : Option (Option α → κ → Int)) :
    ll_len ll_create = 0 ∧
    ll_head h ll_create = .ok none ∧
    ll_tail h ll_create = .ok none ∧
    ll_payloads h { count := 0, head := none, tail := none, lock := false } = .ok [] ∧
    ll_search h ll_create key cmp = .ok (ll_create, none) := by
  refine ⟨rfl, rfl, rfl, ?_, ?_⟩
  · cases h <;> rfl
  · cases key <;> cases cmp <;> first | rfl | (cases h <;> rfl)

/-! ## The driver: the path of a cycle -/

/-- A rolled vertex keeps the position of `curr` and gets one of the given directions. -/
theorem main_roll_fields (curr : vertex_t) (rnd : Nat) (c0 c1 c2 c3 g1 : Int) (d1 : Int × Int)
    (g2 : Int) (d2 : Int × Int) (g3 : Int) (d3 : Int × Int)
    (h1 : dir3 d1.1 ∧ dir3 d1.2) (h2 : dir3 d2.1 ∧ dir3 d2.2) (h3 : dir3 d3.1 ∧ dir3 d3.2)
    (h0 : dir3 curr.dir_x ∧ dir3 curr.dir_y) :
    (main_roll curr rnd c0 c1 c2 c3 g1 d1 g2 d2 g3 d3).x = curr.x ∧
    (main_roll curr rnd c0 c1 c2 c3 g1 d1 g2 d2 g3 d3).y = curr.y ∧
    dir3 (main_roll curr rnd c0 c1 c2 c3 g1 d1 g2 d2 g3 d3).dir_x ∧
    dir3 (main_roll curr rnd c0 c1 c2 c3 g1 d1 g2 d2 g3 d3).dir_y := by
  unfold main_roll
  simp only []
  split_ifs
  · exact ⟨rfl, rfl, h1.1, h1.2⟩
  · exact ⟨rfl, rfl, h2.1, h2.2⟩
  · exact ⟨rfl, rfl, h3.1, h3.2⟩
  · exact ⟨rfl, rfl, h0.1, h0.2⟩

/-- The growth step places the new vertex at `prev` moved by its direction and gives it
direction components in `{-1,0,1}`. -/
theorem main_step_fields (prev : vertex_t) (rnd : Nat) :
    (main_step prev rnd).x = wrap32 (prev.x + prev.dir_x) ∧
    (main_step prev rnd).y = wrap32 (prev.y + prev.dir_y) ∧
    dir3 (main_step prev rnd).dir_x ∧ dir3 (main_step prev rnd).dir_y := by
  unfold main_step
  simp only []
  split_ifs <;>
    first
    | exact ⟨rfl, rfl, Or.inr (Or.inl rfl), Or.inr (Or.inl rfl)⟩
    | (refine main_roll_fields _ _ _ _ _ _ _ _ _ _ _ _ ?_ ?_ ?_ ?_ <;> simp [dir3, main_curr])

/-- A generated vertex that passes `check_bounds` satisfies the position invariant. -/
theorem prev_ok_of_check_bounds (prev : vertex_t) (rnd ws_col ws_row : Nat)
    (hcb : check_bounds (some (main_step prev rnd)) (sigwinch_h ws_col ws_row).1
      (sigwinch_h ws_col ws_row).2 = 0) : prev_ok (main_step prev rnd) := by
  obtain ⟨hx, hy, hdx, hdy⟩ := main_step_fields prev rnd
  unfold dir3 at hdx hdy
  simp only [check_bounds, sigwinch_h] at hcb
  unfold prev_ok isInt32
  rw [hx, hy] at hcb ⊢
  unfold wrap32 at hcb ⊢
  split_ifs at hcb
  omega

/-- The seed vertex satisfies the position invariant. -/
theorem prev_ok_seed (ws_col ws_row rnd : Nat) :
    prev_ok (main_start (sigwinch_h ws_col ws_row).1 (sigwinch_h ws_col ws_row).2 rnd) := by
  unfold prev_ok isInt32 main_start sigwinch_h
  simp only []
  rw [Int.tdiv_eq_ediv (by omega) (by omega), Int.tdiv_eq_ediv (by omega) (by omega)]
  split_ifs <;> omega

/-- A vertex generated from a `prev` satisfying the position invariant is adjacent to
it. -/
theorem adjacent_main_step (prev : vertex_t) (rnd : Nat) (hp : prev_ok prev) :
    adjacent prev (main_step prev rnd) := by
  obtain ⟨hx, hy, _, _⟩ := main_step_fields prev rnd
  exact ⟨by rw [hx, wrap32_of_isInt32 _ hp.1], by rw [hy, wrap32_of_isInt32 _ hp.2]⟩

/-- A state with a transition row leads to a state with a transition row. -/
theorem has_row_main_step (prev : vertex_t) (rnd : Nat) (h : has_row prev) :
    has_row (main_step prev rnd) := by
  rcases main_step_row prev rnd h with ⟨hx, hy, he⟩ | ⟨hx, hy, he⟩ | ⟨hx, hy, he⟩ |
      ⟨hx, hy, he⟩ <;>
    rcases rnd_mod_four rnd with hr | hr | hr | hr <;>
    simp [he, has_row, main_roll, main_curr, hr, HORIZ, VERTI, TOPLEFT, TOPRIGHT, BOTLEFT,
      BOTRIGHT]

/-- The start vertex has a transition row. -/
theorem has_row_main_start (wx wy : Int) (rnd : Nat) : has_row (main_start wx wy rnd) := by
  unfold has_row main_start
  simp only []
  split_ifs <;> simp

theorem adjacent_of_grown (p n : vertex_t) (h : grown p n) : adjacent p n := by
  obtain ⟨hp, _, rnd, rfl⟩ := h
  exact adjacent_main_step p rnd hp

/-- The growth loop returns, keeps the invariant, and only appends to the path. -/
theorem main_growth_inv :
    ∀ (ticks : List tick_t) (s : main_t) (ns : List (Nat × vertex_t)) (p : vertex_t),
      main_inv s ns → s.prev = some p → (ns.getLast?).map Prod.snd = some p → prev_ok p →
      has_row p →
      ∃ s' ns', main_growth ticks s = .ok s' ∧ main_inv s' (ns ++ ns') := by
  intro ticks
  induction ticks with
  | nil =>
    intro s ns p hinv _ _ _ _
    exact ⟨s, [], rfl, by simpa using hinv⟩
  | cons t ts ih =>
    intro s ns p hinv hprev hlast hok hrow
    obtain ⟨⟨l, hpath, hrepr⟩, hshown, hchain⟩ := hinv
    have hstop : main_inv s (ns ++ []) := by
      rw [List.append_nil]; exact ⟨⟨l, hpath, hrepr⟩, hshown, hchain⟩
    by_cases hidx : s.idx < UINT16_MAX * 2
    · by_cases hsig : t.gb_SIGINT_BOOL = 0
      · exact ⟨s, [], by simp [main_growth, hidx, hsig], hstop⟩
      · obtain ⟨h', l', henq, hrepr'⟩ := ll_enq_repr (main_step p t.rnd) hrepr
        have hinv' : ∀ (pv : Option vertex_t) (i : Int),
            main_inv
              { heap := h', path := some l', idx := i, prev := pv,
                shown := s.shown ++ [(main_step p t.rnd, s.idx)] }
              (ns ++ [(s.heap.length, main_step p t.rnd)]) := by
          intro pv i
          refine ⟨⟨l', rfl, hrepr'⟩, by simp [hshown], ?_⟩
          rw [List.map_append, List.chain'_append]
          refine ⟨hchain, by simp, ?_⟩
          intro x hx y hy
          rw [List.getLast?_map, hlast] at hx
          simp at hx hy
          subst hx hy
          exact ⟨hok, hrow, t.rnd, rfl⟩
        by_cases hcb : check_bounds (some (main_step p t.rnd)) (sigwinch_h t.ws_col t.ws_row).1
            (sigwinch_h t.ws_col t.ws_row).2 = 0
        · obtain ⟨s', ns', hrun, hres⟩ := ih
            { heap := h', path := some l', idx := s.idx + 2, prev := some (main_step p t.rnd),
              shown := s.shown ++ [(main_step p t.rnd, s.idx)] }
            (ns ++ [(s.heap.length, main_step p t.rnd)]) (main_step p t.rnd)
            (hinv' _ _) rfl (by simp) (prev_ok_of_check_bounds p t.rnd t.ws_col t.ws_row hcb)
            (has_row_main_step p t.rnd hrow)
          refine ⟨s', (s.heap.length, main_step p t.rnd) :: ns', ?_, ?_⟩
          · simp only [main_growth, hidx, hsig, hprev, hpath, henq, hcb, bind, Except.bind,
              if_true, if_false, ne_eq, not_true_eq_false]
            exact hrun
          · simpa using hres
        · refine ⟨_, [(s.heap.length, main_step p t.rnd)], ?_, hinv' s.prev s.idx⟩
          simp only [main_growth, hidx, hsig, hprev, hpath, henq, bind, Except.bind,
              if_true, if_false, ne_eq]
          rw [if_pos (fun hEq => hcb hEq.symm)]
    · exact ⟨s, [], by simp [main_growth, hidx], hstop⟩

/-- Every cycle of the driver returns with the invariant, the seed being the first node of
the path. -/
theorem main_cycle_inv (h : heap_t vertex_t) (idx : Int) (ws_col ws_row rnd : Nat)
    (ticks : List tick_t) :
    ∃ s ns', main_cycle h idx ws_col ws_row rnd ticks = .ok s ∧
      main_inv s ((h.length,
        main_start (sigwinch_h ws_col ws_row).1 (sigwinch_h ws_col ws_row).2 rnd) :: ns') := by
  obtain ⟨h0, l0, henq, hrepr0⟩ := ll_enq_repr
    (main_start (sigwinch_h ws_col ws_row).1 (sigwinch_h ws_col ws_row).2 rnd) (ll_repr_create h)
  rw [List.nil_append] at hrepr0
  have htail0 := ll_tail_repr hrepr0 (by simp)
  have hseed : main_seed h ll_create idx ws_col ws_row rnd = .ok
      { heap := h0, path := some l0, idx := idx,
        prev := some (main_start (sigwinch_h ws_col ws_row).1 (sigwinch_h ws_col ws_row).2 rnd),
        shown := [(main_start (sigwinch_h ws_col ws_row).1 (sigwinch_h ws_col ws_row).2 rnd,
          idx)] } := by
    simp only [main_seed, ll_create, henq, htail0, bind, Except.bind, pure, Except.pure]
    rfl
  obtain ⟨s, ns', hrun, hinv⟩ := main_growth_inv ticks
    { heap := h0, path := some l0, idx := idx,
      prev := some (main_start (sigwinch_h ws_col ws_row).1 (sigwinch_h ws_col ws_row).2 rnd),
      shown := [(main_start (sigwinch_h ws_col ws_row).1 (sigwinch_h ws_col ws_row).2 rnd,
        idx)] }
    [(h.length, main_start (sigwinch_h ws_col ws_row).1 (sigwinch_h ws_col ws_row).2 rnd)] _
    ⟨⟨l0, rfl, hrepr0⟩, rfl, by simp⟩ rfl rfl (prev_ok_seed ws_col ws_row rnd)
    (has_row_main_start _ _ rnd)
  refine ⟨s, ns', ?_, hinv⟩
  simp only [main_cycle, hseed, bind, Except.bind]
  exact hrun

/-- The path of a state satisfying the invariant is the list of payloads of its nodes. -/
theorem main_path_inv (s : main_t) (ns : List (Nat × vertex_t)) (hinv : main_inv s ns) :
    main_path s = .ok ((ns.map Prod.snd).map some) := by
  obtain ⟨⟨l, hpath, hrepr⟩, _, _⟩ := hinv
  simp only [main_path, hpath]
  rw [ll_payloads_repr hrepr]
  simp

/-- C2. Adjacency and order: every cycle of the driver (seeding, then any number of
iterations of the growth loop, whatever `rand()`, the interrupt flag and the terminal
size are) returns; its path holds the emitted vertices in generation order, the seed at
the head and the most recent vertex at the tail, and every consecutive pair
`(prev, next)` of the path satisfies `next.x = prev.x + prev.dir_x` and
`next.y = prev.y + prev.dir_y`. -/
theorem main_cycle_adjacent (h : heap_t vertex_t) (idx : Int) (ws_col ws_row rnd : Nat)
    (ticks : List tick_t) :
    ∃ s vs, main_cycle h idx ws_col ws_row rnd ticks = .ok s ∧
      main_path s = .ok (vs.map some) ∧
      vs = s.shown.map Prod.fst ∧
      vs.head? = some (main_start (sigwinch_h ws_col ws_row).1 (sigwinch_h ws_col ws_row).2 rnd) ∧
      ll_head s.heap s.path = .ok vs.head? ∧
      ll_tail s.heap s.path = .ok vs.getLast? ∧
      List.Chain' adjacent vs := by
  obtain ⟨s, ns', hrun, hinv⟩ := main_cycle_inv h idx ws_col ws_row rnd ticks
  have hpathv := main_path_inv s _ hinv
  obtain ⟨⟨l, hpath, hrepr⟩, hshown, hchain⟩ := hinv
  refine ⟨s, (_ :: ns').map Prod.snd, hrun, hpathv, hshown, rfl, ?_, ?_,
    List.Chain'.imp adjacent_of_grown hchain⟩
  · rw [hpath, ll_head_repr hrepr]
    simp
  · rw [hpath, ll_tail_repr hrepr (by simp), List.getLast?_map]

/-! ## The seeded scenario -/

/-- From a state with a transition row that moves right, the growth step yields `━`, `┓`
or `┛`. -/
theorem main_step_right (prev : vertex_t) (rnd : Nat) (h : has_row prev)
    (hx : prev.dir_x = 1) :
    (main_step prev rnd).c = HORIZ ∨ (main_step prev rnd).c = TOPRIGHT ∨
      (main_step prev rnd).c = BOTRIGHT := by
  rcases main_step_row prev rnd h with ⟨hx', _, _⟩ | ⟨_, _, he⟩ | ⟨hx', _, _⟩ | ⟨hx', _, _⟩
  · omega
  · rcases rnd_mod_four rnd with hr | hr | hr | hr <;>
      simp [he, main_roll, main_curr, hr, HORIZ, VERTI, TOPLEFT, TOPRIGHT, BOTLEFT, BOTRIGHT]
  · omega
  · omega

/-- C6 (amended). Seeded scenario: for a pipe seeded at `(5,5)` in a `10 x 10` viewport
with a `━` glyph and direction `(1,0)`, and for every sequence of random values, the
first generated glyph is one of `━`, `┓`, `┛`, and so is every later generated glyph
whose predecessor in the path still has direction `(1,0)`. -/
theorem main_scenario_right (h : heap_t vertex_t) (idx : Int) (rnd : Nat)
    (hcoin : ¬ rnd % 20 < 10) (ticks : List tick_t) :
    ∃ s vs, main_cycle h idx 10 10 rnd ticks = .ok s ∧
      main_path s = .ok (vs.map some) ∧
      vs.head? = some ⟨HORIZ, 5, 5, 1, 0⟩ ∧
      (∀ v, vs[1]? = some v → v.c = HORIZ ∨ v.c = TOPRIGHT ∨ v.c = BOTRIGHT) ∧
      List.Chain' (fun p n => p.dir_x = 1 ∧ p.dir_y = 0 →
        n.c = HORIZ ∨ n.c = TOPRIGHT ∨ n.c = BOTRIGHT) vs := by
  obtain ⟨s, ns', hrun, hinv⟩ := main_cycle_inv h idx 10 10 rnd ticks
  have hpathv := main_path_inv s _ hinv
  have hstart : main_start (sigwinch_h 10 10).1 (sigwinch_h 10 10).2 rnd = ⟨HORIZ, 5, 5, 1, 0⟩ := by
    simp [main_start, sigwinch_h, hcoin]
    decide
  rw [hstart] at hinv hpathv
  obtain ⟨_, _, hchain⟩ := hinv
  have hchain' : List.Chain' (fun p n => p.dir_x = 1 ∧ p.dir_y = 0 →
      n.c = HORIZ ∨ n.c = TOPRIGHT ∨ n.c = BOTRIGHT)
      (((h.length, (⟨HORIZ, 5, 5, 1, 0⟩ : vertex_t)) :: ns').map Prod.snd) := by
    refine List.Chain'.imp ?_ hchain
    rintro p n ⟨_, hrow, r, rfl⟩ ⟨hx, _⟩
    exact main_step_right p r hrow hx
  refine ⟨s, _, hrun, hpathv, rfl, ?_, hchain'⟩
  intro v hv
  cases ns' with
  | nil => simp at hv
  | cons n rest =>
    simp at hv
    subst hv
    have := List.Chain'.rel_head hchain'
    exact this ⟨rfl, rfl⟩

/-- Witness of C6 (amended): the coin `rand() = 10` sends the seed right and
`rand() = 3` makes the first generated glyph `┓`. -/
theorem main_scenario_right_witness :
    ∃ s vs, main_cycle [] 0 10 10 10 [⟨1, 3, 10, 10⟩] = .ok s ∧
      main_path s = .ok (vs.map some) ∧
      vs.head? = some ⟨HORIZ, 5, 5, 1, 0⟩ ∧
      (∀ v, vs[1]? = some v → v.c = HORIZ ∨ v.c = TOPRIGHT ∨ v.c = BOTRIGHT) ∧
      List.Chain' (fun p n => p.dir_x = 1 ∧ p.dir_y = 0 →
        n.c = HORIZ ∨ n.c = TOPRIGHT ∨ n.c = BOTRIGHT) vs :=
  main_scenario_right [] 0 10 (by decide) [⟨1, 3, 10, 10⟩]

/-- C6 as stated fails: seeded at `(5,5)` in a `10 x 10` viewport going right, the random
values `2, 0` generate `┛` (the pipe turns up) and then `┃`, so the second generated
glyph is the vertical one. -/
theorem main_scenario_counterexample :
    ∃ s, main_cycle [] 0 10 10 10 [⟨1, 2, 10, 10⟩, ⟨1, 0, 10, 10⟩] = .ok s ∧
      main_path s = .ok [some ⟨HORIZ, 5, 5, 1, 0⟩, some ⟨BOTRIGHT, 6, 5, 0, -1⟩,
        some ⟨VERTI, 6, 4, 0, -1⟩] ∧
      VERTI ≠ HORIZ ∧ VERTI ≠ TOPRIGHT ∧ VERTI ≠ BOTRIGHT :=
  ⟨_, rfl, rfl, by decide, by decide, by decide⟩

/-! ## The colour band -/

/-- For a non-negative index the remainders of C are the usual ones. -/
theorem print_char_c_rgb_of_nonneg (idx : Int) (h : 0 ≤ idx) :
    print_char_c_rgb idx =
      if idx % 1024 < 256 then (255, idx % 256, 0)
      else if idx % 1024 < 512 then (255 - idx % 256, 255, 0)
      else if idx % 1024 < 768 then (0, 255 - idx % 256, idx % 256)
      else (idx % 256, 0, 255 - idx % 256) := by
  have h1 : Int.tmod idx MAX_COLOR_STEPS = idx % 1024 := by
    rw [Int.tmod_eq_emod h (by decide)]
    rfl
  have h2 : Int.tmod idx 256 = idx % 256 := Int.tmod_eq_emod h (by decide)
  have h3 : idx % 1024 < 1025 := by omega
  simp only [print_char_c_rgb, h1, h2, h3, if_true, zero_add]

/-- C20. Colour wrap and range: for every non-negative colour index `i` the triple
`print_char_c` computes for `i + 1024` is the one it computes for `i`, and each of its
red, green and blue values lies in `[0, 255]`. -/
theorem print_char_c_rgb_wrap (i : Int) (h : 0 ≤ i) :
    print_char_c_rgb (i + 1024) = print_char_c_rgb i ∧
    (0 ≤ (print_char_c_rgb i).1 ∧ (print_char_c_rgb i).1 ≤ 255) ∧
    (0 ≤ (print_char_c_rgb i).2.1 ∧ (print_char_c_rgb i).2.1 ≤ 255) ∧
    (0 ≤ (print_char_c_rgb i).2.2 ∧ (print_char_c_rgb i).2.2 ≤ 255) := by
  have e1 : (i + 1024) % 1024 = i % 1024 := by omega
  have e2 : (i + 1024) % 256 = i % 256 := by omega
  refine ⟨?_, ?_⟩
  · rw [print_char_c_rgb_of_nonneg i h, print_char_c_rgb_of_nonneg (i + 1024) (by omega), e1, e2]
  · rw [print_char_c_rgb_of_nonneg i h]
    split_ifs <;> simp only [] <;> omega

/-- Witness of C20 at index `300`: the triple is `(211, 255, 0)`, also at `1324`. -/
theorem print_char_c_rgb_wrap_witness :
    print_char_c_rgb (300 + 1024) = print_char_c_rgb 300 ∧ print_char_c_rgb 300 = (211, 255, 0) :=
  ⟨(print_char_c_rgb_wrap 300 (by decide)).1, by decide⟩

/-! ## The colour bands -/

/-- C21. Colour band endpoints: `print_char_c` computes pure red `(255,0,0)` at index
`0`, pure yellow `(255,255,0)` at `256`, pure green `(0,255,0)` at `512` and pure blue
`(0,0,255)` at `768`; the last index of each 256-step band already shows the colour the
next band starts with, and index `1024` is red again. -/
theorem print_char_c_rgb_bands :
    print_char_c_rgb 0 = (255, 0, 0) ∧
    print_char_c_rgb 256 = (255, 255, 0) ∧
    print_char_c_rgb 512 = (0, 255, 0) ∧
    print_char_c_rgb 768 = (0, 0, 255) ∧
    print_char_c_rgb 255 = (255, 255, 0) ∧
    print_char_c_rgb 511 = (0, 255, 0) ∧
    print_char_c_rgb 767 = (0, 0, 255) ∧
    print_char_c_rgb 1023 = (255, 0, 0) ∧
    print_char_c_rgb 1024 = (255, 0, 0) := by
  decide

/-- C30. Colour continuity: for every non-negative index `i`, each of the red, green and
blue values `print_char_c` computes for `i + 1` differs by at most `1` from the value for
`i`, across the band boundaries and the wrap at `1024` as well; and the condition of the
last `else if` holds, so the all-white `else` branch is not taken. -/
theorem print_char_c_rgb_continuous (i : Int) (h : 0 ≤ i) :
    |(print_char_c_rgb (i + 1)).1 - (print_char_c_rgb i).1| ≤ 1 ∧
    |(print_char_c_rgb (i + 1)).2.1 - (print_char_c_rgb i).2.1| ≤ 1 ∧
    |(print_char_c_rgb (i + 1)).2.2 - (print_char_c_rgb i).2.2| ≤ 1 ∧
    Int.tmod i MAX_COLOR_STEPS < 1025 := by
  have h1 : Int.tmod i MAX_COLOR_STEPS = i % 1024 := by
    rw [Int.tmod_eq_emod h (by decide)]
    rfl
  refine ⟨?_, ?_, ?_, by rw [h1]; omega⟩ <;>
    rw [print_char_c_rgb_of_nonneg i h, print_char_c_rgb_of_nonneg (i + 1) (by omega)] <;>
    rw [abs_le] <;>
    split_ifs <;> simp only [] <;> omega

/-- Witness of C30 at the band boundary `255`, `256`. -/
theorem print_char_c_rgb_continuous_witness :
    |(print_char_c_rgb (255 + 1)).2.1 - (print_char_c_rgb 255).2.1| ≤ 1 :=
  (print_char_c_rgb_continuous 255 (by decide)).2.1

/-! ## The mutex -/

/-- C22 (the code leaves the mutex held). On a freshly created, empty container `ll_deq`
returns `NULL` through `goto LL_DEQ_RET`, past the unlock: the mutex is still held when
the call has returned, and the next `ll_enq` on the container blocks for ever.
`ll_delete` on the same empty container does release the mutex. -/
theorem ll_deq_empty_keeps_lock :
    ll_deq ([] : heap_t Nat) ll_create =
      .ok ([], some { count := 0, head := none, tail := none, lock := true }, none) ∧
    ll_enq ([] : heap_t Nat) (some { count := 0, head := none, tail := none, lock := true })
      (some 7) = .error .deadlock ∧
    ll_delete ([] : heap_t Nat) ll_create 1
      (some (fun (a : Nat) (s : List Nat) => s ++ [a])) [] = .ok ([], ll_create, 0, []) :=
  ⟨rfl, rfl, rfl⟩

/-! ## The table keyed on the direction -/

/-- On the twelve rows the growth step is the four-row table keyed on the direction. -/
theorem main_step_direction_table (prev : vertex_t) (rnd : Nat) (h : has_row prev) :
    ((main_step prev rnd).c, (main_step prev rnd).dir_x, (main_step prev rnd).dir_y) =
      direction_table prev.dir_x prev.dir_y (rnd % 4) := by
  rcases main_step_row prev rnd h with ⟨hx, hy, he⟩ | ⟨hx, hy, he⟩ | ⟨hx, hy, he⟩ |
      ⟨hx, hy, he⟩ <;>
    rcases rnd_mod_four rnd with hr | hr | hr | hr <;>
    simp [he, main_roll, main_curr, direction_table, hy, hx, hr, HORIZ, VERTI, TOPLEFT,
      TOPRIGHT, BOTLEFT, BOTRIGHT]

/-- C29. The transition depends only on the direction: two states with a transition row
and the same direction get, for every value of `rand()`, the same glyph and the same new
direction, namely the entry of the four-row table keyed on the direction alone. -/
theorem main_step_by_direction (p q : vertex_t) (rnd : Nat) (hp : has_row p) (hq : has_row q)
    (hx : p.dir_x = q.dir_x) (hy : p.dir_y = q.dir_y) :
    (main_step p rnd).c = (main_step q rnd).c ∧
    (main_step p rnd).dir_x = (main_step q rnd).dir_x ∧
    (main_step p rnd).dir_y = (main_step q rnd).dir_y ∧
    ((main_step p rnd).c, (main_step p rnd).dir_x, (main_step p rnd).dir_y) =
      direction_table p.dir_x p.dir_y (rnd % 4) := by
  have e1 := main_step_direction_table p rnd hp
  have e2 := main_step_direction_table q rnd hq
  rw [← hx, ← hy, ← e1] at e2
  simp only [Prod.mk.injEq] at e2
  exact ⟨e2.1.symm, e2.2.1.symm, e2.2.2.symm, e1⟩

/-- Witness of C29: `━` and `┏`, both moving right, with `rand() = 2`. -/
theorem main_step_by_direction_witness :
    (main_step ⟨HORIZ, 5, 5, 1, 0⟩ 2).c = (main_step ⟨TOPLEFT, 9, 3, 1, 0⟩ 2).c :=
  (main_step_by_direction ⟨HORIZ, 5, 5, 1, 0⟩ ⟨TOPLEFT, 9, 3, 1, 0⟩ 2 (by decide) (by decide)
    rfl rfl).1

/-! ## Seeding -/

/-- Seeding on the container `ll_create()` returned: the state after it, and the path
holds the one node of the start vertex. -/
theorem main_seed_run (h : heap_t vertex_t) (idx : Int) (ws_col ws_row rnd : Nat) :
    ∃ h0 l0, main_seed h ll_create idx ws_col ws_row rnd = .ok
      { heap := h0, path := some l0, idx := idx,
        prev := some (main_start (sigwinch_h ws_col ws_row).1 (sigwinch_h ws_col ws_row).2 rnd),
        shown := [(main_start (sigwinch_h ws_col ws_row).1 (sigwinch_h ws_col ws_row).2 rnd,
          idx)] } ∧
      ll_repr h0 l0
        [(h.length, main_start (sigwinch_h ws_col ws_row).1 (sigwinch_h ws_col ws_row).2 rnd)] := by
  obtain ⟨h0, l0, henq, hrepr0⟩ := ll_enq_repr
    (main_start (sigwinch_h ws_col ws_row).1 (sigwinch_h ws_col ws_row).2 rnd) (ll_repr_create h)
  rw [List.nil_append] at hrepr0
  have htail0 := ll_tail_repr hrepr0 (by simp)
  refine ⟨h0, l0, ?_, hrepr0⟩
  simp only [main_seed, ll_create, henq, htail0, bind, Except.bind, pure, Except.pure]
  rfl

/-- C25. Seeding: for every terminal size, on the fresh container of a cycle the seeding
returns; the start vertex is at `(width / 2, height / 2)` (integer division), has the
glyph `━`, `dir_y = 0` and `dir_x` equal to `-1` or `1`; it is the vertex printed and the
value of `prev`; and the path then holds exactly that vertex: `ll_len` returns `1`,
`ll_head` and `ll_tail` return the start vertex. -/
theorem main_seed_spec (h : heap_t vertex_t) (idx : Int) (ws_col ws_row rnd : Nat) :
    ∃ s start, main_seed h ll_create idx ws_col ws_row rnd = .ok s ∧
      start.x = (sigwinch_h ws_col ws_row).1 / 2 ∧
      start.y = (sigwinch_h ws_col ws_row).2 / 2 ∧
      start.c = HORIZ ∧ start.dir_y = 0 ∧ (start.dir_x = -1 ∨ start.dir_x = 1) ∧
      s.prev = some start ∧ s.shown = [(start, idx)] ∧
      main_path s = .ok [some start] ∧
      ll_len s.path = 1 ∧
      ll_head s.heap s.path = .ok (some start) ∧
      ll_tail s.heap s.path = .ok (some start) := by
  obtain ⟨h0, l0, hseed, hrepr⟩ := main_seed_run h idx ws_col ws_row rnd
  refine ⟨_, _, hseed, ?_, ?_, rfl, rfl, ?_, rfl, rfl, ?_, ?_, ?_, ?_⟩
  · simp only [main_start, sigwinch_h]
    rw [Int.tdiv_eq_ediv (by omega) (by omega)]
  · simp only [main_start, sigwinch_h]
    rw [Int.tdiv_eq_ediv (by omega) (by omega)]
  · simp only [main_start]
    split_ifs
    · exact Or.inl rfl
    · exact Or.inr rfl
  · simp only [main_path]
    rw [ll_payloads_repr hrepr]
    rfl
  · rw [ll_len_repr hrepr]
    simp [wrap32]
  · rw [ll_head_repr hrepr]
    rfl
  · rw [ll_tail_repr hrepr (by simp)]
    rfl

/-! ## Reachable states -/

/-- A state with a transition row moves along one axis and has one of the six glyphs. -/
theorem has_row_valid (v : vertex_t) (h : has_row v) :
    unit_dir v ∧ (is_straight v.c ∨ is_corner v.c) ∧ ¬ (v.c = 0 ∧ v.dir_x = 0 ∧ v.dir_y = 0) := by
  unfold has_row at h
  unfold unit_dir is_straight is_corner
  rcases h with ⟨hc, ⟨hy, hx⟩ | ⟨hy, hx⟩⟩ | ⟨hc, ⟨hy, hx⟩ | ⟨hy, hx⟩⟩ | ⟨hc, ⟨hy, hx⟩ | ⟨hy, hx⟩⟩ |
      ⟨hc, ⟨hy, hx⟩ | ⟨hy, hx⟩⟩ | ⟨hc, ⟨hy, hx⟩ | ⟨hy, hx⟩⟩ | ⟨hc, ⟨hy, hx⟩ | ⟨hy, hx⟩⟩ <;>
    simp [hc, hx, hy, HORIZ, VERTI, TOPLEFT, TOPRIGHT, BOTLEFT, BOTRIGHT]

/-- Growth steps from a state with a transition row stay among such states. -/
theorem has_row_foldl (rnds : List Nat) :
    ∀ seed : vertex_t, has_row seed → has_row (rnds.foldl main_step seed) := by
  induction rnds with
  | nil => intro seed h; exact h
  | cons r rs ih => intro seed h; exact ih _ (has_row_main_step seed r h)

/-- In a list whose consecutive elements are grown from each other, every element has a
transition row when the first one has. -/
theorem has_row_of_chain :
    ∀ (vs : List vertex_t) (v0 : vertex_t), has_row v0 → List.Chain' grown (v0 :: vs) →
      ∀ v ∈ v0 :: vs, has_row v := by
  intro vs
  induction vs with
  | nil =>
    intro v0 h0 _ v hv
    simp at hv
    subst hv
    exact h0
  | cons w ws ih =>
    intro v0 h0 hch v hv
    rw [List.chain'_cons] at hch
    obtain ⟨hg, hch'⟩ := hch
    rcases List.mem_cons.mp hv with rfl | hv'
    · exact h0
    · obtain ⟨_, hrow, rnd, rfl⟩ := hg
      exact ih _ (has_row_main_step v0 rnd hrow) hch' v hv'

/-- C23. Reachable states are valid and the table is total on them.  For every seed with
the glyph `━` and direction `(-1,0)` or `(1,0)` and every sequence of values of `rand()`,
the vertex reached by the growth steps is one of the twelve `(glyph, direction)` pairs
with a transition row; exactly one of its `dir_x`, `dir_y` is non-zero, with value `-1` or
`1`; its glyph is one of the six glyphs, and it is not the zero glyph with the zero
direction.  The same holds of every vertex of the path of every cycle of the driver. -/
theorem main_reachable_valid :
    (∀ (seed : vertex_t) (rnds : List Nat), seed.c = HORIZ → seed.dir_y = 0 →
      (seed.dir_x = -1 ∨ seed.dir_x = 1) →
      has_row (rnds.foldl main_step seed) ∧ unit_dir (rnds.foldl main_step seed) ∧
      (is_straight (rnds.foldl main_step seed).c ∨ is_corner (rnds.foldl main_step seed).c) ∧
      ¬ ((rnds.foldl main_step seed).c = 0 ∧ (rnds.foldl main_step seed).dir_x = 0 ∧
        (rnds.foldl main_step seed).dir_y = 0)) ∧
    (∀ (h : heap_t vertex_t) (idx : Int) (ws_col ws_row rnd : Nat) (ticks : List tick_t),
      ∃ (s : main_t) (vs : List vertex_t), main_cycle h idx ws_col ws_row rnd ticks = .ok s ∧
        main_path s = .ok (vs.map some) ∧
        ∀ v ∈ vs, has_row v ∧ unit_dir v ∧ (is_straight v.c ∨ is_corner v.c) ∧
          ¬ (v.c = 0 ∧ v.dir_x = 0 ∧ v.dir_y = 0)) := by
  constructor
  · intro seed rnds hc hy hx
    have h0 : has_row seed := by
      unfold has_row
      rcases hx with hx | hx
      · exact Or.inl ⟨hc, Or.inl ⟨hy, hx⟩⟩
      · exact Or.inl ⟨hc, Or.inr ⟨hy, hx⟩⟩
    have h1 := has_row_foldl rnds seed h0
    exact ⟨h1, has_row_valid _ h1⟩
  · intro h idx ws_col ws_row rnd ticks
    obtain ⟨s, ns', hrun, hinv⟩ := main_cycle_inv h idx ws_col ws_row rnd ticks
    have hpathv := main_path_inv s _ hinv
    obtain ⟨_, _, hchain⟩ := hinv
    refine ⟨s, _, hrun, hpathv, ?_⟩
    intro v hv
    have h1 := has_row_of_chain (ns'.map Prod.snd) _ (has_row_main_start _ _ rnd)
      (by simpa using hchain) v (by simpa using hv)
    exact ⟨h1, has_row_valid _ h1⟩

/-- Witness of C23: the seed `━` going right at `(5,5)` and the rolls `2, 0, 3, 1`. -/
theorem main_reachable_valid_witness :
    has_row ([2, 0, 3, 1].foldl main_step ⟨HORIZ, 5, 5, 1, 0⟩) :=
  (main_reachable_valid.1 ⟨HORIZ, 5, 5, 1, 0⟩ [2, 0, 3, 1] rfl rfl (Or.inr rfl)).1

/-! ## What the growth loop prints -/

/-- The print calls and the final `idx` of a growth loop that returns are those of
`main_trace` and `main_end_idx`. -/
theorem main_growth_shown :
    ∀ (ticks : List tick_t) (s s' : main_t) (p : vertex_t),
      main_growth ticks s = .ok s' → s.prev = some p →
      s'.shown = s.shown ++ main_trace ticks s.idx p ∧
        s'.idx = main_end_idx ticks s.idx p := by
  intro ticks
  induction ticks with
  | nil =>
    intro s s' p h _
    simp only [main_growth, Except.ok.injEq] at h
    subst h
    simp [main_trace, main_end_idx]
  | cons t ts ih =>
    intro s s' p h hprev
    by_cases hidx : s.idx < UINT16_MAX * 2
    · by_cases hsig : t.gb_SIGINT_BOOL = 0
      · simp only [main_growth, hidx, hsig, if_true, Except.ok.injEq] at h
        subst h
        simp [main_trace, main_end_idx, hidx, hsig]
      · cases henq : ll_enq s.heap s.path (some (main_step p t.rnd)) with
        | error e =>
          simp only [main_growth, hidx, hsig, hprev, henq, bind, Except.bind, if_true,
            if_false] at h
          cases h
        | ok r =>
          obtain ⟨h', path', x⟩ := r
          by_cases hcb : check_bounds (some (main_step p t.rnd))
              (sigwinch_h t.ws_col t.ws_row).1 (sigwinch_h t.ws_col t.ws_row).2 = 0
          · simp only [main_growth, hidx, hsig, hprev, henq, hcb, bind, Except.bind, if_true,
              if_false, ne_eq, not_true_eq_false] at h
            obtain ⟨e1, e2⟩ := ih _ _ _ h rfl
            simp only [] at e1 e2
            rw [e1, e2]
            simp [main_trace, main_end_idx, hidx, hsig, hcb]
          · have hcb' : (0 : Int) ≠ check_bounds (some (main_step p t.rnd))
                (sigwinch_h t.ws_col t.ws_row).1 (sigwinch_h t.ws_col t.ws_row).2 :=
              fun hEq => hcb hEq.symm
            simp only [main_growth, hidx, hsig, hprev, henq, bind, Except.bind, if_true,
              if_false, ne_eq] at h
            rw [if_pos hcb'] at h
            simp only [Except.ok.injEq] at h
            subst h
            simp [main_trace, main_end_idx, hidx, hsig, hcb']
    · simp only [main_growth, hidx, if_false, Except.ok.injEq] at h
      subst h
      simp [main_trace, main_end_idx, hidx]

/-- Every cycle of the driver returns with the invariant; its print calls are the seed
followed by the trace of the growth loop, and its final `idx` is that of the loop. -/
theorem main_cycle_trace (h : heap_t vertex_t) (idx : Int) (ws_col ws_row rnd : Nat)
    (ticks : List tick_t) :
    ∃ s ns', main_cycle h idx ws_col ws_row rnd ticks = .ok s ∧
      main_inv s ((h.length,
        main_start (sigwinch_h ws_col ws_row).1 (sigwinch_h ws_col ws_row).2 rnd) :: ns') ∧
      s.shown = (main_start (sigwinch_h ws_col ws_row).1 (sigwinch_h ws_col ws_row).2 rnd, idx) ::
        main_trace ticks idx
          (main_start (sigwinch_h ws_col ws_row).1 (sigwinch_h ws_col ws_row).2 rnd) ∧
      s.idx = main_end_idx ticks idx
        (main_start (sigwinch_h ws_col ws_row).1 (sigwinch_h ws_col ws_row).2 rnd) := by
  obtain ⟨h0, l0, hseed, hrepr0⟩ := main_seed_run h idx ws_col ws_row rnd
  obtain ⟨s, ns', hrun, hinv⟩ := main_growth_inv ticks
    { heap := h0, path := some l0, idx := idx,
      prev := some (main_start (sigwinch_h ws_col ws_row).1 (sigwinch_h ws_col ws_row).2 rnd),
      shown := [(main_start (sigwinch_h ws_col ws_row).1 (sigwinch_h ws_col ws_row).2 rnd,
        idx)] }
    [(h.length, main_start (sigwinch_h ws_col ws_row).1 (sigwinch_h ws_col ws_row).2 rnd)] _
    ⟨⟨l0, rfl, hrepr0⟩, rfl, by simp⟩ rfl rfl (prev_ok_seed ws_col ws_row rnd)
    (has_row_main_start _ _ rnd)
  obtain ⟨e1, e2⟩ := main_growth_shown ticks _ s _ hrun rfl
  refine ⟨s, ns', ?_, hinv, by simpa using e1, e2⟩
  simp only [main_cycle, hseed, bind, Except.bind]
  exact hrun

/-- The path of a cycle has one vertex more than the trace of its growth loop. -/
theorem main_path_length (s : main_t) (ns : List (Nat × vertex_t)) (p : List (Option vertex_t))
    (hinv : main_inv s ns) (hp : main_path s = .ok p) : p.length = s.shown.length := by
  rw [main_path_inv s ns hinv] at hp
  simp only [Except.ok.injEq] at hp
  have h2 := congrArg List.length hinv.2.1
  simp only [List.length_map] at h2
  rw [← hp]
  simpa using h2

/-- Consecutive print calls of a growth loop differ by `0` or `2` in their index, starting
from a print call whose index is the current `idx` or `2` less; the final `idx` is the
index of the last print call or `2` more. -/
theorem main_trace_steps :
    ∀ (ticks : List tick_t) (i : Int) (p : vertex_t) (e : vertex_t × Int),
      (i = e.2 ∨ i = e.2 + 2) →
      List.Chain idx_step e (main_trace ticks i p) ∧
        ∀ e', (e :: main_trace ticks i p).getLast? = some e' →
          main_end_idx ticks i p = e'.2 ∨ main_end_idx ticks i p = e'.2 + 2 := by
  intro ticks
  induction ticks with
  | nil =>
    intro i p e hi
    refine ⟨by simp [main_trace], ?_⟩
    intro e' he'
    simp only [main_trace, List.getLast?_singleton, Option.some.injEq] at he'
    subst he'
    exact hi
  | cons t ts ih =>
    intro i p e hi
    by_cases hidx : i < UINT16_MAX * 2
    · by_cases hsig : t.gb_SIGINT_BOOL = 0
      · refine ⟨by simp [main_trace, hidx, hsig], ?_⟩
        intro e' he'
        simp only [main_trace, hidx, hsig, if_true, List.getLast?_singleton,
          Option.some.injEq] at he'
        subst he'
        simpa [main_end_idx, hidx, hsig] using hi
      · by_cases hcb : check_bounds (some (main_step p t.rnd))
            (sigwinch_h t.ws_col t.ws_row).1 (sigwinch_h t.ws_col t.ws_row).2 = 0
        · obtain ⟨c1, c2⟩ := ih (i + 2) (main_step p t.rnd) (main_step p t.rnd, i) (Or.inr rfl)
          have ht : main_trace (t :: ts) i p =
              (main_step p t.rnd, i) :: main_trace ts (i + 2) (main_step p t.rnd) := by
            simp [main_trace, hidx, hsig, hcb]
          have hE : main_end_idx (t :: ts) i p = main_end_idx ts (i + 2) (main_step p t.rnd) := by
            simp [main_end_idx, hidx, hsig, hcb]
          rw [ht, hE]
          refine ⟨List.Chain.cons hi c1, ?_⟩
          intro e' he'
          rw [List.getLast?_cons_cons] at he'
          exact c2 e' he'
        · have hcb' : (0 : Int) ≠ check_bounds (some (main_step p t.rnd))
              (sigwinch_h t.ws_col t.ws_row).1 (sigwinch_h t.ws_col t.ws_row).2 :=
            fun hEq => hcb hEq.symm
          have ht : main_trace (t :: ts) i p = [(main_step p t.rnd, i)] := by
            simp [main_trace, hidx, hsig, hcb']
          have hE : main_end_idx (t :: ts) i p = i := by
            simp [main_end_idx, hidx, hsig, hcb']
          rw [ht, hE]
          refine ⟨List.Chain.cons hi List.Chain.nil, ?_⟩
          intro e' he'
          simp only [List.getLast?_cons_cons, List.getLast?_singleton, Option.some.injEq] at he'
          subst he'
          exact Or.inl rfl
    · refine ⟨by simp [main_trace, hidx], ?_⟩
      intro e' he'
      simp only [main_trace, hidx, if_false, List.getLast?_singleton, Option.some.injEq] at he'
      subst he'
      simpa [main_end_idx, hidx] using hi

/-- The index of the `k`-th print call of a growth loop entered with `idx = i` is
`i + 2 * k`. -/
theorem main_trace_idx :
    ∀ (ticks : List tick_t) (i : Int) (p : vertex_t),
      (main_trace ticks i p).map Prod.snd =
        (List.range (main_trace ticks i p).length).map (fun (k : Nat) => i + 2 * (k : Int)) := by
  intro ticks
  induction ticks with
  | nil => intro i p; simp [main_trace]
  | cons t ts ih =>
    intro i p
    by_cases hidx : i < UINT16_MAX * 2
    · by_cases hsig : t.gb_SIGINT_BOOL = 0
      · simp [main_trace, hidx, hsig]
      · by_cases hcb : check_bounds (some (main_step p t.rnd))
            (sigwinch_h t.ws_col t.ws_row).1 (sigwinch_h t.ws_col t.ws_row).2 = 0
        · have ht : main_trace (t :: ts) i p =
              (main_step p t.rnd, i) :: main_trace ts (i + 2) (main_step p t.rnd) := by
            simp [main_trace, hidx, hsig, hcb]
          rw [ht]
          simp only [List.map_cons, List.length_cons, List.range_succ_eq_map, List.map_map]
          rw [ih (i + 2) (main_step p t.rnd)]
          simp only [Nat.cast_zero, mul_zero, add_zero, List.cons.injEq, true_and]
          apply List.map_congr_left
          intro k _
          simp only [Function.comp_apply, Nat.cast_succ]
          ring
        · have hcb' : (0 : Int) ≠ check_bounds (some (main_step p t.rnd))
              (sigwinch_h t.ws_col t.ws_row).1 (sigwinch_h t.ws_col t.ws_row).2 :=
            fun hEq => hcb hEq.symm
          simp [main_trace, hidx, hsig, hcb', List.range_succ]
    · simp [main_trace, hidx]

/-- The growth loop never decreases `idx`, prints at most one vertex per iteration, and
performs at most `ceil((131070 - i) / 2)` iterations when entered with `idx = i`. -/
theorem main_iters_bound :
    ∀ (ticks : List tick_t) (i : Int) (p : vertex_t),
      i ≤ main_end_idx ticks i p ∧
      (main_trace ticks i p).length ≤ main_iters ticks i p ∧
      main_iters ticks i p ≤ ((131070 - i + 1) / 2).toNat := by
  intro ticks
  induction ticks with
  | nil => intro i p; simp [main_trace, main_end_idx, main_iters]
  | cons t ts ih =>
    intro i p
    by_cases hidx : i < UINT16_MAX * 2
    · have hi : i < 131070 := by simpa [UINT16_MAX] using hidx
      have h1 : 1 ≤ ((131070 - i + 1) / 2).toNat := by omega
      by_cases hsig : t.gb_SIGINT_BOOL = 0
      · simpa [main_trace, main_end_idx, main_iters, hidx, hsig] using h1
      · by_cases hcb : check_bounds (some (main_step p t.rnd))
            (sigwinch_h t.ws_col t.ws_row).1 (sigwinch_h t.ws_col t.ws_row).2 = 0
        · obtain ⟨c1, c2, c3⟩ := ih (i + 2) (main_step p t.rnd)
          have h2 : 1 + ((131070 - (i + 2) + 1) / 2).toNat ≤ ((131070 - i + 1) / 2).toNat := by
            omega
          simp only [main_trace, main_end_idx, main_iters, hidx, hsig, hcb, if_true, if_false,
            ne_eq, not_true_eq_false, List.length_cons]
          exact ⟨by omega, by omega, by omega⟩
        · have hcb' : (0 : Int) ≠ check_bounds (some (main_step p t.rnd))
              (sigwinch_h t.ws_col t.ws_row).1 (sigwinch_h t.ws_col t.ws_row).2 :=
            fun hEq => hcb hEq.symm
          simpa [main_trace, main_end_idx, main_iters, hidx, hsig, hcb'] using h1
    · simp [main_trace, main_end_idx, main_iters, hidx]

/-! ## Destroying a container -/

/-- The loop of `ll_destroy` on a linked segment: it frees every node and calls
`freenode` on the payloads in order. -/
theorem ll_destroy_loop_run {α σ : Type} (f : α → σ → σ) :
    ∀ (ns : List (Nat × α)) (fuel : Nat) (p : Option Nat) (h : heap_t α) (s : σ),
      heap_seg h p ns → (ns.map Prod.fst).Nodup → ns.length ≤ fuel →
      ∃ h', ll_destroy_loop f fuel p h s = .ok (h', ns.foldl (fun s p => f p.2 s) s) ∧
        h'.length = h.length := by
  intro ns
  induction ns with
  | nil =>
    intro fuel p h s hseg _ _
    have hp : p = none := hseg
    subst hp
    refine ⟨h, ?_, rfl⟩
    cases fuel <;> rfl
  | cons q ns ih =>
    obtain ⟨a, x⟩ := q
    intro fuel p h s hseg hnd hfuel
    obtain ⟨hp, nxt, hcell, hrest⟩ := hseg
    subst hp
    have hnd' := List.nodup_cons.mp hnd
    cases fuel with
    | zero => simp at hfuel
    | succ fuel =>
      have hfuel' : ns.length ≤ fuel := by simpa using hfuel
      have hrest' : heap_seg (heap_free h a) nxt ns := by
        refine heap_seg_frame hrest ?_
        intro b hb
        have hba : a ≠ b := fun hEq => hnd'.1 (hEq ▸ hb)
        simp only [heap_free]
        rw [List.getElem?_set_ne hba]
      obtain ⟨h', hrun, hlen⟩ := ih fuel nxt (heap_free h a) (f x s) hrest' hnd'.2 hfuel'
      refine ⟨h', ?_, ?_⟩
      · simp only [ll_destroy_loop, heap_load_ok hcell, bind, Except.bind]
        rw [hrun]
        simp only [List.foldl_cons]
      · rw [hlen]
        simp [heap_free]

/-- Destroying a well-formed container returns, calls the callback on the payloads head to
tail, and sets the caller's pointer to `NULL`. -/
theorem ll_destroy_repr {α σ : Type} (h : heap_t α) (l : llist_t) (ns : List (Nat × α))
    (f : α → σ → σ) (s : σ) (hr : ll_repr h l ns) :
    ∃ h', ll_destroy h (some l) (some f) s =
      .ok (h', none, ns.foldl (fun s p => f p.2 s) s) := by
  obtain ⟨hseg, _, hnd, _, hlock⟩ := hr
  have hlen : ns.length ≤ h.length := by
    have := nodup_length_le (ns.map Prod.fst) h.length hnd (heap_seg_lt hseg)
    simpa using this
  obtain ⟨h', hrun, _⟩ := ll_destroy_loop_run f ns h.length l.head h s hseg hnd hlen
  refine ⟨h', ?_⟩
  simp only [ll_destroy, pthread_mutex_lock_ok hlock, bind, Except.bind, pure, Except.pure]
  rw [hrun]

/-! ## The path stays inside the border -/

/-- While the terminal size stays `W x H`, every vertex the growth loop prints lies inside
the border, provided the move of the vertex the loop is entered with leads inside. -/
theorem main_trace_inside (W H : Int) (hW : W ≤ 65535) (hH0 : 0 ≤ H) (hH : H ≤ 65535) :
    ∀ (ticks : List tick_t) (i : Int) (p : vertex_t),
      (∀ t ∈ ticks, sigwinch_h t.ws_col t.ws_row = (W, H)) →
      1 < p.x + p.dir_x → p.x + p.dir_x < W → 1 < p.y + p.dir_y → p.y + p.dir_y < H - 1 →
      ∀ e ∈ main_trace ticks i p, inside W H e.1 := by
  intro ticks
  induction ticks with
  | nil => intro i p _ _ _ _ _ e he; simp [main_trace] at he
  | cons t ts ih =>
    intro i p hfix hx1 hx2 hy1 hy2 e he
    obtain ⟨fx, fy, fdx, fdy⟩ := main_step_fields p t.rnd
    have ex : (main_step p t.rnd).x = p.x + p.dir_x := by
      rw [fx]
      exact wrap32_of_isInt32 _ (by unfold isInt32; omega)
    have ey : (main_step p t.rnd).y = p.y + p.dir_y := by
      rw [fy]
      exact wrap32_of_isInt32 _ (by unfold isInt32; omega)
    have hin : inside W H (main_step p t.rnd) := by
      unfold inside
      rw [ex, ey]
      exact ⟨hx1, hx2, hy1, hy2⟩
    have hsz := hfix t (List.mem_cons_self _ _)
    by_cases hidx : i < UINT16_MAX * 2
    · by_cases hsig : t.gb_SIGINT_BOOL = 0
      · simp [main_trace, hidx, hsig] at he
      · by_cases hcb : check_bounds (some (main_step p t.rnd))
            (sigwinch_h t.ws_col t.ws_row).1 (sigwinch_h t.ws_col t.ws_row).2 = 0
        · have ht : main_trace (t :: ts) i p =
              (main_step p t.rnd, i) :: main_trace ts (i + 2) (main_step p t.rnd) := by
            simp [main_trace, hidx, hsig, hcb]
          rw [ht] at he
          rcases List.mem_cons.mp he with rfl | he'
          · exact hin
          · have hnext : 1 < (main_step p t.rnd).x + (main_step p t.rnd).dir_x ∧
                (main_step p t.rnd).x + (main_step p t.rnd).dir_x < W ∧
                1 < (main_step p t.rnd).y + (main_step p t.rnd).dir_y ∧
                (main_step p t.rnd).y + (main_step p t.rnd).dir_y < H - 1 := by
              rw [hsz] at hcb
              simp only [check_bounds] at hcb
              unfold dir3 at fdx fdy
              rw [ex, ey] at hcb ⊢
              unfold wrap32 at hcb
              split_ifs at hcb
              omega
            exact ih (i + 2) (main_step p t.rnd)
              (fun t' ht' => hfix t' (List.mem_cons_of_mem _ ht'))
              hnext.1 hnext.2.1 hnext.2.2.1 hnext.2.2.2 e he'
        · have hcb' : (0 : Int) ≠ check_bounds (some (main_step p t.rnd))
              (sigwinch_h t.ws_col t.ws_row).1 (sigwinch_h t.ws_col t.ws_row).2 :=
            fun hEq => hcb hEq.symm
          have ht : main_trace (t :: ts) i p = [(main_step p t.rnd, i)] := by
            simp [main_trace, hidx, hsig, hcb']
          rw [ht] at he
          simp only [List.mem_singleton] at he
          subst he
          exact hin
    · simp [main_trace, hidx] at he

/-- C27. Every path vertex lies inside the border: in a cycle during which the terminal
stays `width x height` with `width >= 6` and `height >= 4`, whatever the coin flip, the
values of `rand()` and the interrupt flag are, the cycle returns and every vertex of its
path (the seed and every generated vertex, the last one before the loop is left
included) satisfies `1 < x < width` and `1 < y < height - 1`. -/
theorem main_cycle_inside (h : heap_t vertex_t) (idx : Int) (ws_col ws_row rnd : Nat)
    (ticks : List tick_t)
    (hw : 6 ≤ (sigwinch_h ws_col ws_row).1) (hh : 4 ≤ (sigwinch_h ws_col ws_row).2)
    (hfix : ∀ t ∈ ticks, sigwinch_h t.ws_col t.ws_row = sigwinch_h ws_col ws_row) :
    ∃ (s : main_t) (vs : List vertex_t), main_cycle h idx ws_col ws_row rnd ticks = .ok s ∧
      main_path s = .ok (vs.map some) ∧ vs = s.shown.map Prod.fst ∧
      ∀ v ∈ vs, inside (sigwinch_h ws_col ws_row).1 (sigwinch_h ws_col ws_row).2 v := by
  obtain ⟨s, ns', hrun, hinv, hshown, _⟩ := main_cycle_trace h idx ws_col ws_row rnd ticks
  have hpathv := main_path_inv s _ hinv
  have hs := hinv.2.1
  refine ⟨s, _, hrun, hpathv, hs, ?_⟩
  have hW : (sigwinch_h ws_col ws_row).1 ≤ 65535 := by simp only [sigwinch_h]; omega
  have hH : (sigwinch_h ws_col ws_row).2 ≤ 65535 := by simp only [sigwinch_h]; omega
  have hstart : ∀ d : Int, d = -1 ∨ d = 1 →
      1 < Int.tdiv (sigwinch_h ws_col ws_row).1 2 + d ∧
      Int.tdiv (sigwinch_h ws_col ws_row).1 2 + d < (sigwinch_h ws_col ws_row).1 ∧
      1 < Int.tdiv (sigwinch_h ws_col ws_row).2 2 ∧
      Int.tdiv (sigwinch_h ws_col ws_row).2 2 < (sigwinch_h ws_col ws_row).2 - 1 := by
    intro d hd
    rw [Int.tdiv_eq_ediv (by omega) (by omega), Int.tdiv_eq_ediv (by omega) (by omega)]
    omega
  have hdir : (main_start (sigwinch_h ws_col ws_row).1 (sigwinch_h ws_col ws_row).2 rnd).dir_x = -1 ∨
      (main_start (sigwinch_h ws_col ws_row).1 (sigwinch_h ws_col ws_row).2 rnd).dir_x = 1 := by
    simp only [main_start]
    split_ifs
    · exact Or.inl rfl
    · exact Or.inr rfl
  obtain ⟨b1, b2, b3, b4⟩ := hstart _ hdir
  intro v hv
  rw [hs, hshown] at hv
  simp only [List.map_cons, List.mem_cons, List.mem_map] at hv
  rcases hv with rfl | ⟨e, he, rfl⟩
  · unfold inside
    have c := hstart 1 (Or.inr rfl)
    have c' := hstart (-1) (Or.inl rfl)
    simp only [main_start]
    omega
  · refine main_trace_inside _ _ hW (by omega) hH ticks idx _ (fun t ht => by rw [hfix t ht])
      ?_ ?_ ?_ ?_ e he
    · exact b1
    · exact b2
    · simpa [main_start] using b3
    · simpa [main_start] using b4

/-- Witness of C27: a `10 x 10` terminal, the seed going right, four iterations. -/
theorem main_cycle_inside_witness :
    ∃ (s : main_t) (vs : List vertex_t),
      main_cycle [] 0 10 10 10 [⟨1, 0, 10, 10⟩, ⟨1, 2, 10, 10⟩, ⟨1, 0, 10, 10⟩, ⟨1, 0, 10, 10⟩] =
        .ok s ∧
      main_path s = .ok (vs.map some) ∧ vs = s.shown.map Prod.fst ∧
      ∀ v ∈ vs, inside (sigwinch_h 10 10).1 (sigwinch_h 10 10).2 v :=
  main_cycle_inside [] 0 10 10 10 [⟨1, 0, 10, 10⟩, ⟨1, 2, 10, 10⟩, ⟨1, 0, 10, 10⟩, ⟨1, 0, 10, 10⟩]
    (by decide) (by decide) (by decide)

/-! ## The cycles of the driver -/

/-- One cycle of `main_while` on a fresh container, given the result of the cycle. -/
theorem main_while_cons (c : cycle_t) (cs : List cycle_t) (r : run_t) (s : main_t)
    (p : List (Option vertex_t)) (hs : ¬ c.gb_SIGINT_BOOL = 0) (hp : r.path = ll_create)
    (hrun : main_cycle r.heap r.idx c.ws_col c.ws_row c.rnd c.ticks = .ok s)
    (hpth : main_path s = .ok p) :
    main_while (c :: cs) r =
      if c.gb_SIGINT_BOOL_end = 0 then
        .ok { heap := s.heap, path := s.path, idx := s.idx, shown := r.shown ++ s.shown,
              paths := r.paths ++ [(r.idx, p)] }
      else
        (ll_destroy s.heap s.path (some (fun (_ : vertex_t) (u : Unit) => u)) ()).bind
          (fun x => main_while cs
            { heap := x.1, path := ll_create, idx := s.idx, shown := r.shown ++ s.shown,
              paths := r.paths ++ [(r.idx, p)] }) := by
  unfold main_cycle at hrun
  cases hseed : main_seed r.heap ll_create r.idx c.ws_col c.ws_row c.rnd with
  | error e =>
    rw [hseed] at hrun
    cases hrun
  | ok s0 =>
    rw [hseed] at hrun
    simp only [bind, Except.bind] at hrun
    simp only [main_while, hs, hp, hseed, hrun, hpth, bind, Except.bind, if_false]

/-- The cycles of the driver return, whatever they read, and keep the invariant of the
records; `idx` is never decreased. -/
theorem main_while_inv :
    ∀ (cs : List cycle_t) (r : run_t), r.path = ll_create → run_inv r →
      ∃ r', main_while cs r = .ok r' ∧ run_inv r' ∧ r.idx ≤ r'.idx := by
  intro cs
  induction cs with
  | nil => intro r _ hr; exact ⟨r, rfl, hr, le_refl _⟩
  | cons c cs ih =>
    intro r hp hr
    by_cases hs : c.gb_SIGINT_BOOL = 0
    · exact ⟨r, by simp [main_while, hs], hr, le_refl _⟩
    · obtain ⟨s, ns', hrun, hinv, hshown, hidx⟩ :=
        main_cycle_trace r.heap r.idx c.ws_col c.ws_row c.rnd c.ticks
      have hpathv := main_path_inv s _ hinv
      obtain ⟨b1, b2, b3⟩ := main_iters_bound c.ticks r.idx
        (main_start (sigwinch_h c.ws_col c.ws_row).1 (sigwinch_h c.ws_col c.ws_row).2 c.rnd)
      obtain ⟨t1, t2⟩ := main_trace_steps c.ticks r.idx
        (main_start (sigwinch_h c.ws_col c.ws_row).1 (sigwinch_h c.ws_col c.ws_row).2 c.rnd)
        (main_start (sigwinch_h c.ws_col c.ws_row).1 (sigwinch_h c.ws_col c.ws_row).2 c.rnd, r.idx)
        (Or.inl rfl)
      rw [← hidx] at b1 t2
      rw [← hshown] at t2
      have hlen : (List.map some (List.map Prod.snd
          ((r.heap.length, main_start (sigwinch_h c.ws_col c.ws_row).1
            (sigwinch_h c.ws_col c.ws_row).2 c.rnd) :: ns'))).length =
          1 + (main_trace c.ticks r.idx (main_start (sigwinch_h c.ws_col c.ws_row).1
            (sigwinch_h c.ws_col c.ws_row).2 c.rnd)).length := by
        have h2 := congrArg List.length hinv.2.1
        rw [hshown] at h2
        simp only [List.length_map, List.length_cons] at h2 ⊢
        omega
      obtain ⟨q1, q2, q3, q4⟩ := hr
      have hr1 : run_inv
          { heap := s.heap, path := s.path, idx := s.idx, shown := r.shown ++ s.shown,
            paths := r.paths ++ [(r.idx, List.map some (List.map Prod.snd
              ((r.heap.length, main_start (sigwinch_h c.ws_col c.ws_row).1
                (sigwinch_h c.ws_col c.ws_row).2 c.rnd) :: ns')))] } := by
        refine ⟨?_, ?_, ?_, ?_⟩
        · simp only []
          rw [List.chain'_append]
          refine ⟨q1, by rw [hshown]; exact t1, ?_⟩
          intro x hx y hy
          rw [hshown] at hy
          simp only [List.head?_cons, Option.mem_def, Option.some.injEq] at hy hx
          subst hy
          exact q2 x hx
        · intro e he
          simp only [] at he ⊢
          rw [List.getLast?_append_of_ne_nil _ (by rw [hshown]; simp)] at he
          exact t2 e he
        · simp only []
          rw [List.chain'_append]
          refine ⟨q3, by simp, ?_⟩
          intro x hx y hy
          simp only [List.head?_cons, Option.mem_def, Option.some.injEq] at hy hx
          subst hy
          exact (q4 x (List.mem_of_getLast?_eq_some hx)).1
        · intro x hx
          simp only [List.mem_append, List.mem_singleton] at hx
          rcases hx with hx | rfl
          · obtain ⟨u1, u2, u3⟩ := q4 x hx
            exact ⟨le_trans u1 b1, u2, u3⟩
          · refine ⟨b1, ?_, ?_⟩
            · simp only []
              rw [hlen]
              omega
            · intro hbig
              refine ⟨c.ws_col, c.ws_row, c.rnd, ?_⟩
              have h0 : (main_trace c.ticks r.idx (main_start (sigwinch_h c.ws_col c.ws_row).1
                  (sigwinch_h c.ws_col c.ws_row).2 c.rnd)).length = 0 := by
                simp only [] at hbig
                omega
              have h1 : ns' = [] := by
                have h2 := hlen
                simp only [List.length_map, List.length_cons] at h2
                exact List.length_eq_zero.mp (by omega)
              rw [h1]
              rfl
      rw [main_while_cons c cs r s _ hs hp hrun hpathv]
      by_cases he : c.gb_SIGINT_BOOL_end = 0
      · rw [if_pos he]
        exact ⟨_, rfl, hr1, b1⟩
      · rw [if_neg he]
        obtain ⟨⟨l, hpl, hrepr⟩, _, _⟩ := hinv
        obtain ⟨h', hd⟩ := ll_destroy_repr s.heap l _ (fun (_ : vertex_t) (u : Unit) => u) () hrepr
        rw [hpl, hd]
        obtain ⟨r', e1, e2, e3⟩ := ih
          { heap := h', path := ll_create, idx := s.idx, shown := r.shown ++ s.shown,
            paths := r.paths ++ [(r.idx, List.map some (List.map Prod.snd
              ((r.heap.length, main_start (sigwinch_h c.ws_col c.ws_row).1
                (sigwinch_h c.ws_col c.ws_row).2 c.rnd) :: ns')))] } rfl hr1
        exact ⟨r', e1, e2, le_trans b1 e3⟩

/-- The records are empty when the loop of cycles is reached. -/
theorem run_inv_init (h : heap_t vertex_t) (rnd : Nat) : run_inv (main_init h rnd) := by
  refine ⟨?_, ?_, ?_, ?_⟩
  · simp [main_init]
  · intro e he
    simp [main_init] at he
  · simp [main_init]
  · intro c hc
    simp [main_init] at hc

/-! ## The colour index -/

/-- C24 (counterexample). Two cycles on a `10 x 10` terminal from `idx = 0`, each with
four iterations of the growth loop, every `rand()` being `0`: the print calls get the
indexes `0, 0, 2, 4, 6` and then `6, 6, 8, 10, 12`.  The seed and the first generated
vertex share an index, the index grows by `2` from one generated vertex to the next, and
the seed of the second cycle has the index of the last vertex of the first; no vertex is
printed with the index of another one plus `1`. -/
theorem main_idx_counterexample :
    (main_while
      [⟨1, 10, 10, 10, [⟨1, 0, 10, 10⟩, ⟨1, 0, 10, 10⟩, ⟨1, 0, 10, 10⟩, ⟨1, 0, 10, 10⟩], 1⟩,
       ⟨1, 10, 10, 10, [⟨1, 0, 10, 10⟩, ⟨1, 0, 10, 10⟩, ⟨1, 0, 10, 10⟩, ⟨1, 0, 10, 10⟩], 0⟩]
      (main_init [] 0)).map (fun r => r.shown.map Prod.snd) =
      .ok [0, 0, 2, 4, 6, 6, 6, 8, 10, 12] ∧
    ∀ i ∈ [0, 0, 2, 4, 6, 6, 6, 8, 10, 12], ∀ j ∈ [0, 0, 2, 4, 6, 6, 6, 8, 10, 12],
      ¬ j = i + (1 : Int) := by
  refine ⟨rfl, by decide⟩

/-- C24 (amended). In every cycle, started with `idx = i0`, the seed is printed with `i0`
and the `k`-th generated vertex (counting from `0`) with `i0 + 2 * k`: the seed and the
first generated vertex share an index, and the index grows by `2` from one generated
vertex to the next.  Over the whole run of the driver, whatever it reads, `idx` is never
reset or decreased: each print call has the index of the print call before it or that
index plus `2`, across cycles as well. -/
theorem main_idx_steps :
    (∀ (h : heap_t vertex_t) (i0 : Int) (ws_col ws_row rnd : Nat) (ticks : List tick_t),
      ∃ s : main_t, main_cycle h i0 ws_col ws_row rnd ticks = .ok s ∧
        s.shown.map Prod.snd =
          i0 :: (List.range (s.shown.length - 1)).map (fun (k : Nat) => i0 + 2 * (k : Int))) ∧
    (∀ (h : heap_t vertex_t) (rnd : Nat) (cs : List cycle_t),
      ∃ r : run_t, main_while cs (main_init h rnd) = .ok r ∧ List.Chain' idx_step r.shown) := by
  constructor
  · intro h i0 ws_col ws_row rnd ticks
    obtain ⟨s, ns', hrun, _, hshown, _⟩ := main_cycle_trace h i0 ws_col ws_row rnd ticks
    refine ⟨s, hrun, ?_⟩
    rw [hshown]
    simp only [List.map_cons, List.length_cons, Nat.add_sub_cancel]
    rw [main_trace_idx]
  · intro h rnd cs
    obtain ⟨r, hrun, hinv, _⟩ := main_while_inv cs (main_init h rnd) rfl (run_inv_init h rnd)
    exact ⟨r, hrun, hinv.1⟩

/-! ## Growth is bounded by the colour index -/

/-- After `ceil((131070 - idx) / 2)` iterations the growth loop has left: further
iterations offered to it are not performed. -/
theorem main_growth_stops :
    ∀ (ticks more : List tick_t) (s : main_t),
      ((131070 - s.idx + 1) / 2).toNat ≤ ticks.length →
      main_growth (ticks ++ more) s = main_growth ticks s := by
  intro ticks
  induction ticks with
  | nil =>
    intro more s hb
    have hidx : ¬ s.idx < UINT16_MAX * 2 := by
      simp only [UINT16_MAX, List.length_nil] at hb ⊢
      omega
    cases more with
    | nil => rfl
    | cons t ts => simp [main_growth, hidx]
  | cons t ts ih =>
    intro more s hb
    rw [List.cons_append]
    by_cases hidx : s.idx < UINT16_MAX * 2
    · by_cases hsig : t.gb_SIGINT_BOOL = 0
      · simp [main_growth, hidx, hsig]
      · cases hprev : s.prev with
        | none => simp [main_growth, hidx, hsig, hprev]
        | some p =>
          cases henq : ll_enq s.heap s.path (some (main_step p t.rnd)) with
          | error e =>
            simp only [main_growth, hidx, hsig, hprev, henq, bind, Except.bind, if_true,
              if_false]
          | ok r =>
            obtain ⟨h', path', x⟩ := r
            by_cases hcb : check_bounds (some (main_step p t.rnd))
                (sigwinch_h t.ws_col t.ws_row).1 (sigwinch_h t.ws_col t.ws_row).2 = 0
            · simp only [main_growth, hidx, hsig, hprev, henq, hcb, bind, Except.bind, if_true,
                if_false, ne_eq, not_true_eq_false]
              apply ih
              simp only [UINT16_MAX, List.length_cons] at hb hidx ⊢
              omega
            · have hcb' : (0 : Int) ≠ check_bounds (some (main_step p t.rnd))
                  (sigwinch_h t.ws_col t.ws_row).1 (sigwinch_h t.ws_col t.ws_row).2 :=
                fun hEq => hcb hEq.symm
              simp only [main_growth, hidx, hsig, hprev, henq, bind, Except.bind, if_true,
                if_false, ne_eq]
              rw [if_pos hcb', if_pos hcb']
    · simp [main_growth, hidx]

/-- C28. Growth is bounded by the colour index.  Whatever the values of `rand()`, the
terminal sizes and the interrupt flag are, a growth loop entered with `idx = i0` performs
at most `ceil((131070 - i0) / 2)` iterations, none when `i0 >= 131070`, and has left after
that many: iterations offered beyond them are not performed.  Over the whole run of the
driver, which always returns, the cycles start with non-decreasing values of `idx`; the
path of a cycle started with `idx = i` holds at most `1 + ceil((131070 - i) / 2)`
vertices, and once `i >= 131070` it consists of the start vertex only. -/
theorem main_growth_bounded :
    (∀ (ticks : List tick_t) (i0 : Int) (p : vertex_t),
      main_iters ticks i0 p ≤ ((131070 - i0 + 1) / 2).toNat ∧
      (131070 ≤ i0 → main_iters ticks i0 p = 0)) ∧
    (∀ (ticks more : List tick_t) (s : main_t),
      ((131070 - s.idx + 1) / 2).toNat ≤ ticks.length →
      main_growth (ticks ++ more) s = main_growth ticks s) ∧
    (∀ (h : heap_t vertex_t) (rnd : Nat) (cs : List cycle_t),
      ∃ r : run_t, main_while cs (main_init h rnd) = .ok r ∧
        List.Chain' (fun a b : Int × List (Option vertex_t) => a.1 ≤ b.1) r.paths ∧
        ∀ c ∈ r.paths, c.2.length ≤ 1 + ((131070 - c.1 + 1) / 2).toNat ∧
          (131070 ≤ c.1 → ∃ ws_col ws_row rnd : Nat, c.2 =
            [some (main_start (sigwinch_h ws_col ws_row).1 (sigwinch_h ws_col ws_row).2 rnd)])) := by
  refine ⟨?_, main_growth_stops, ?_⟩
  · intro ticks i0 p
    obtain ⟨_, _, b3⟩ := main_iters_bound ticks i0 p
    refine ⟨b3, ?_⟩
    intro hbig
    omega
  · intro h rnd cs
    obtain ⟨r, hrun, hinv, _⟩ := main_while_inv cs (main_init h rnd) rfl (run_inv_init h rnd)
    refine ⟨r, hrun, hinv.2.2.1, ?_⟩
    intro c hc
    exact (hinv.2.2.2 c hc).2

/-- Witness of C28: a cycle entered with `idx = 131066` leaves the growth loop after two
iterations; the third one offered is not performed. -/
theorem main_growth_bounded_witness :
    main_growth ([⟨1, 0, 10, 10⟩, ⟨1, 0, 10, 10⟩] ++ [⟨1, 0, 10, 10⟩])
      { heap := [], path := ll_create, idx := 131066, prev := some ⟨HORIZ, 5, 5, 1, 0⟩,
        shown := [] } =
    main_growth [⟨1, 0, 10, 10⟩, ⟨1, 0, 10, 10⟩]
      { heap := [], path := ll_create, idx := 131066, prev := some ⟨HORIZ, 5, 5, 1, 0⟩,
        shown := [] } :=
  main_growth_bounded.2.1 [⟨1, 0, 10, 10⟩, ⟨1, 0, 10, 10⟩] [⟨1, 0, 10, 10⟩]
    { heap := [], path := ll_create, idx := 131066, prev := some ⟨HORIZ, 5, 5, 1, 0⟩,
      shown := [] } (by decide)

/-! ## The container against a list -/

/-- A sequence of calls in which every `ll_deq` finds an element and every `ll_delete`
has `0 < n <= ` the current length keeps the container well formed, and its payloads
follow the list. -/
theorem ll_calls_repr {α : Type} :
    ∀ (cs : List (ll_call α)) (h : heap_t α) (l : llist_t) (ns : List (Nat × α)),
      ll_repr h l ns → ns.length + cs.length ≤ 2147483647 →
      ll_calls_ok (ns.map Prod.snd) cs →
      ∃ h' l' ns', ll_calls h (some l) cs = .ok (h', some l') ∧ ll_repr h' l' ns' ∧
        ns'.map Prod.snd = list_calls (ns.map Prod.snd) cs ∧ ns'.length ≤ 2147483647 := by
  intro cs
  induction cs with
  | nil =>
    intro h l ns hr hfit _
    exact ⟨h, l, ns, rfl, hr, rfl, by simpa using hfit⟩
  | cons c cs ih =>
    intro h l ns hr hfit hok
    simp only [List.length_cons] at hfit
    cases c with
    | enq d =>
      obtain ⟨h1, l1, he, hr1⟩ := ll_enq_repr d hr
      obtain ⟨h2, l2, ns2, hrun, hr2, hl2, hf2⟩ := ih h1 l1 _ hr1
        (by simp only [List.length_append, List.length_singleton]; omega)
        (by simpa [ll_calls_ok] using hok)
      refine ⟨h2, l2, ns2, ?_, hr2, ?_, hf2⟩
      · simp only [ll_calls, he, bind, Except.bind]
        exact hrun
      · simpa [list_calls] using hl2
    | push d =>
      obtain ⟨h1, l1, he, hr1⟩ := ll_push_repr d hr
      obtain ⟨h2, l2, ns2, hrun, hr2, hl2, hf2⟩ := ih h1 l1 _ hr1
        (by simp only [List.length_cons]; omega)
        (by simpa [ll_calls_ok] using hok)
      refine ⟨h2, l2, ns2, ?_, hr2, ?_, hf2⟩
      · simp only [ll_calls, he, bind, Except.bind]
        exact hrun
      · simpa [list_calls] using hl2
    | deq =>
      obtain ⟨hpos, hok1⟩ := hok
      cases ns with
      | nil => simp at hpos
      | cons q ns =>
        obtain ⟨a, x⟩ := q
        obtain ⟨h1, l1, he, hr1, _⟩ := ll_deq_repr hr
        obtain ⟨h2, l2, ns2, hrun, hr2, hl2, hf2⟩ := ih h1 l1 _ hr1
          (by simp only [List.length_cons] at hfit; omega)
          (by simpa using hok1)
        refine ⟨h2, l2, ns2, ?_, hr2, ?_, hf2⟩
        · simp only [ll_calls, he, bind, Except.bind]
          exact hrun
        · simpa [list_calls] using hl2
    | dump =>
      obtain ⟨h1, he⟩ := ll_dump_repr h l ns (fun (_ : α) (u : Unit) => u) () hr (by omega)
      obtain ⟨h2, l2, ns2, hrun, hr2, hl2, hf2⟩ := ih h1 _ [] (ll_repr_create h1)
        (by simp only [List.length_nil]; omega)
        (by simpa [ll_calls_ok] using hok)
      refine ⟨h2, l2, ns2, ?_, hr2, ?_, hf2⟩
      · simp only [ll_calls, he, bind, Except.bind, ll_create]
        exact hrun
      · simpa [list_calls] using hl2
    | delete n =>
      obtain ⟨hn, hnL, hok1⟩ := hok
      rw [List.length_map] at hnL
      obtain ⟨h1, l1, he, hr1, _, _⟩ := ll_delete_repr h l ns n (fun (_ : α) (u : Unit) => u) ()
        hr hn hnL (by omega)
      obtain ⟨h2, l2, ns2, hrun, hr2, hl2, hf2⟩ := ih h1 l1 _ hr1
        (by simp only [List.length_drop]; omega)
        (by simpa [List.map_drop] using hok1)
      refine ⟨h2, l2, ns2, ?_, hr2, ?_, hf2⟩
      · simp only [ll_calls, he, bind, Except.bind]
        exact hrun
      · simpa [list_calls, List.map_drop] using hl2

/-- Apart from `ll_deq` on an empty container, the container refines a list: after every
sequence of `ll_enq`, `ll_push`, `ll_deq`, `ll_dump` and `ll_delete` calls on a freshly
created container, with present items, every `ll_deq` finding an element and every
`ll_delete` having `0 < n <= ` the current length (and fewer than `2^31` calls, `count`
being an `int32_t`), the calls have returned, the payloads from `head` are the list, `ll_len`
is its length, `ll_head` returns its first element and, when it is not empty, `ll_tail`
its last. -/
theorem ll_refines_list {α : Type} (h : heap_t α) (cs : List (ll_call α))
    (hfit : cs.length ≤ 2147483647) (hok : ll_calls_ok [] cs) :
    ∃ h' l', ll_calls h ll_create cs = .ok (h', some l') ∧
      ll_payloads h' l' = .ok ((list_calls [] cs).map some) ∧
      ll_len (some l') = (list_calls [] cs).length ∧
      ll_head h' (some l') = .ok (list_calls [] cs).head? ∧
      (list_calls [] cs ≠ [] → ll_tail h' (some l') = .ok (list_calls [] cs).getLast?) := by
  obtain ⟨h', l', ns', hrun, hr, hl, hf⟩ := ll_calls_repr cs h _ [] (ll_repr_create h)
    (by simpa using hfit) (by simpa using hok)
  simp only [List.map_nil] at hl
  refine ⟨h', l', hrun, ?_, ?_, ?_, ?_⟩
  · rw [ll_payloads_repr hr, ← hl]
    simp
  · rw [ll_len_repr hr, ← hl, List.length_map]
    exact wrap32_of_isInt32 _ (by unfold isInt32; omega)
  · rw [ll_head_repr hr, ← hl]
    cases ns' <;> rfl
  · intro hne
    have hne' : ns' ≠ [] := by
      intro h0
      rw [h0] at hl
      exact hne hl.symm
    rw [ll_tail_repr hr hne', ← hl, List.getLast?_map]

/-- A run of `ll_refines_list`: `enq 1, push 2, deq, enq 3, delete 1, enq 4, dump, enq 5`. -/
theorem ll_refines_list_witness :
    ∃ h' l', ll_calls ([] : heap_t Nat) ll_create
        [ll_call.enq 1, ll_call.push 2, ll_call.deq, ll_call.enq 3, ll_call.delete 1,
          ll_call.enq 4, ll_call.dump, ll_call.enq 5] = .ok (h', some l') ∧
      ll_payloads h' l' = .ok [some 5] :=
  let ⟨h', l', h1, h2, _⟩ := ll_refines_list ([] : heap_t Nat)
    [ll_call.enq 1, ll_call.push 2, ll_call.deq, ll_call.enq 3, ll_call.delete 1,
      ll_call.enq 4, ll_call.dump, ll_call.enq 5] (by decide)
    (by simp [ll_calls_ok])
  ⟨h', l', h1, h2⟩

/-- C26 (the code leaves the list). The sequence `ll_deq`, `ll_enq(7)` on a freshly created
container: the list is `[]` after drop-first and `[7]` after the append, but the `ll_deq`
call returns with the mutex held (it removes nothing, and leaves through `LL_DEQ_RET`
past the unlock), so the `ll_enq` call never returns and the payloads from `head` are
never `[7]`. -/
theorem ll_calls_deq_empty :
    list_calls ([] : List Nat) [ll_call.deq, ll_call.enq 7] = [7] ∧
    ll_calls ([] : heap_t Nat) ll_create [ll_call.deq] =
      .ok ([], some { count := 0, head := none, tail := none, lock := true }) ∧
    ll_calls ([] : heap_t Nat) ll_create [ll_call.deq, ll_call.enq 7] = .error .deadlock :=
  ⟨rfl, rfl, rfl⟩

